import Mathlib

/-!
# Image rotation for planar YUV 4:2:0 frames (`src/rotate.c`)

A shallow embedding of the rotation module and theorems about it.

## Memory model

The C code walks raw `unsigned char *` pointers.  Memory is modelled as a
total map from integer addresses to bytes, a pointer is an integer address,
and a C function that writes through its pointer arguments becomes a Lean
function from the memory before the call to the memory after it.

* `int` values are mathematical integers; `/` and `%` on `int` are the
  truncating `Int.tdiv` and `Int.tmod`.  Signed overflow is undefined in C and
  is not modelled.
* A `for` loop over an `int` counter with a loop-invariant bound `n` is a
  recursion on the number of iterations, `n.toNat`.  A loop governed by a
  pointer comparison keeps its test and is given fuel; the fuel lemmas
  (`reverse_inplace_quad_fuel`, `rot90cw_fuel`, `rot90ccw_fuel`,
  `flip_v_row_width_fuel`) show that the fuel handed over by the callers is
  never exhausted: the loops end by their own test.
* The scratch buffer `cnt->imgs.common_buffer` is an address like any other;
  theorems about 90 and 270 degrees assume that it holds a frame and does not
  overlap the frame being rotated (`scratch_apart`), which is what
  `rotate_init` and `mymalloc` provide.
-/

namespace Rotate

/-! ## Bytes and memory -/

/-- A byte: `unsigned char` / `uint8_t`. -/
abbrev Byte := Fin 256

/-- Byte-addressed memory. -/
abbrev Mem := Int → Byte

/-- The assignment `*p = v`. -/
def Mem.store (m : Mem) (p : Int) (v : Byte) : Mem :=
  fun a => if a = p then v else m a

/-- The low eight bits of a number, as a byte. -/
def byteOf (x : Nat) : Byte := ⟨x % 256, Nat.mod_lt x (by decide)⟩

/-- The read `*(uint32_t *)p` (little-endian byte order). -/
def load32 (m : Mem) (p : Int) : Nat :=
  (m p).val + (m (p + 1)).val * 256 + (m (p + 2)).val * 65536 + (m (p + 3)).val * 16777216

/-- The write `*(uint32_t *)p = x` (little-endian byte order). -/
def store32 (m : Mem) (p : Int) (x : Nat) : Mem :=
  (((m.store p (byteOf x)).store (p + 1) (byteOf (x / 256))).store
    (p + 2) (byteOf (x / 65536))).store (p + 3) (byteOf (x / 16777216))

/-- The library byte-order swap `bswap_32` of `<byteswap.h>` on a 32-bit value. -/
def bswap_32 (x : Nat) : Nat :=
  (x % 256) * 16777216 + (x / 256 % 256) * 65536 + (x / 65536 % 256) * 256 + x / 16777216 % 256

/-- The library call `memset(s, c, n)`: the `n` bytes at `s` are set to `c`.  Nothing is
written when `n ≤ 0` (the conversion of a negative `int` to `size_t` is not modelled). -/
def memset (m : Mem) (s : Int) (c : Byte) (n : Int) : Mem :=
  fun a => if s ≤ a ∧ a < s + n then c else m a

/-- The library call `memcpy(dst, src, n)`: the `n` bytes at `dst` become the `n` bytes
at `src`.  Nothing is written when `n ≤ 0`. -/
def memcpy (m : Mem) (dst src n : Int) : Mem :=
  fun a => if dst ≤ a ∧ a < dst + n then m (src + (a - dst)) else m a

/-! ## `reverse_inplace_quad` -/

/-- The loop `while (nsrc < ndst) { tmp = bswap_32(*ndst); *ndst-- = bswap_32(*nsrc);
*nsrc++ = tmp; }` over `uint32_t` pointers (one step is four bytes). -/
def reverse_loop : Nat → Mem → Int → Int → Mem
  | 0, m, _, _ => m
  | fuel + 1, m, nsrc, ndst =>
    if nsrc < ndst then
      let tmp := bswap_32 (load32 m ndst)
      let m1 := store32 m ndst (bswap_32 (load32 m nsrc))
      let m2 := store32 m1 nsrc tmp
      reverse_loop fuel m2 (nsrc + 4) (ndst - 4)
    else m

/-- Source: `reverse_inplace_quad(src, size)`, with `nsrc = src` and
`ndst = src + size - 4`. -/
def reverse_inplace_quad (m : Mem) (src size : Int) : Mem :=
  reverse_loop size.toNat m src (src + size - 4)

/-! ## `flip_inplace_horizontal` -/

/-- The inner loop `for (w = 0; w < width; w++) { tmp = *ndst; *ndst++ = *nsrc;
*nsrc++ = tmp; }`; the first argument counts the remaining iterations. -/
def flip_h_row : Nat → Mem → Int → Int → Mem
  | 0, m, _, _ => m
  | n + 1, m, nsrc, ndst =>
    let tmp := m ndst
    let m1 := m.store ndst (m nsrc)
    let m2 := m1.store nsrc tmp
    flip_h_row n m2 (nsrc + 1) (ndst + 1)

/-- The outer loop `for (l = 0; l < height/2; l++)`, from row `l` on, with `n`
iterations remaining. -/
def flip_h_rows : Nat → Mem → Int → Int → Int → Int → Mem
  | 0, m, _, _, _, _ => m
  | n + 1, m, src, width, height, l =>
    let nsrc := src + l * width
    let ndst := src + width * (height - l - 1)
    flip_h_rows n (flip_h_row width.toNat m nsrc ndst) src width height (l + 1)

/-- Source: `flip_inplace_horizontal(src, width, height)`. -/
def flip_inplace_horizontal (m : Mem) (src width height : Int) : Mem :=
  flip_h_rows (Int.tdiv height 2).toNat m src width height 0

/-! ## `flip_inplace_vertical` -/

/-- The inner loop `while (nsrc < ndst) { tmp = *ndst; *ndst-- = *nsrc; *nsrc++ = tmp; }`. -/
def flip_v_row : Nat → Mem → Int → Int → Mem
  | 0, m, _, _ => m
  | fuel + 1, m, nsrc, ndst =>
    if nsrc < ndst then
      let tmp := m ndst
      let m1 := m.store ndst (m nsrc)
      let m2 := m1.store nsrc tmp
      flip_v_row fuel m2 (nsrc + 1) (ndst - 1)
    else m

/-- The outer loop `for (l = 0; l < height; l++)`, from row `l` on, with `n`
iterations remaining. -/
def flip_v_rows : Nat → Mem → Int → Int → Int → Mem
  | 0, m, _, _, _ => m
  | n + 1, m, src, width, l =>
    let nsrc := src + l * width
    let ndst := nsrc + width - 1
    flip_v_rows n (flip_v_row width.toNat m nsrc ndst) src width (l + 1)

/-- Source: `flip_inplace_vertical(src, width, height)`. -/
def flip_inplace_vertical (m : Mem) (src width height : Int) : Mem :=
  flip_v_rows height.toNat m src width 0

/-! ## `rot90cw` and `rot90ccw` -/

/-- The inner loop of `rot90cw`, `for (j = 0; j < height; j++, src -= width) *dst++ = *src;`
with `n` iterations remaining.  Returns the memory and the advanced `dst`. -/
def rot90cw_col : Nat → Mem → Int → Int → Int → Mem × Int
  | 0, m, _, dst, _ => (m, dst)
  | n + 1, m, src, dst, width =>
    rot90cw_col n (m.store dst (m src)) (src - width) (dst + 1) width

/-- The outer loop of `rot90cw`, `for (...; base < endp; base++) { src = base; ... }`. -/
def rot90cw_cols : Nat → Mem → Int → Int → Int → Int → Int → Mem
  | 0, m, _, _, _, _, _ => m
  | fuel + 1, m, base, endp, dst, width, height =>
    if base < endp then
      let r := rot90cw_col height.toNat m base dst width
      rot90cw_cols fuel r.1 (base + 1) endp r.2 width height
    else m

/-- Source: `rot90cw(src, dst, size, width, height)`, with `endp = src + size` and
`base` starting at `endp - width`. -/
def rot90cw (m : Mem) (src dst size width height : Int) : Mem :=
  let endp := src + size
  rot90cw_cols width.toNat m (endp - width) endp dst width height

/-- The inner loop of `rot90ccw`, `for (j = 0; j < height; j++, src -= width) *dst-- = *src;`
with `n` iterations remaining.  Returns the memory and the retreated `dst`. -/
def rot90ccw_col : Nat → Mem → Int → Int → Int → Mem × Int
  | 0, m, _, dst, _ => (m, dst)
  | n + 1, m, src, dst, width =>
    rot90ccw_col n (m.store dst (m src)) (src - width) (dst - 1) width

/-- The outer loop of `rot90ccw`. -/
def rot90ccw_cols : Nat → Mem → Int → Int → Int → Int → Int → Mem
  | 0, m, _, _, _, _, _ => m
  | fuel + 1, m, base, endp, dst, width, height =>
    if base < endp then
      let r := rot90ccw_col height.toNat m base dst width
      rot90ccw_cols fuel r.1 (base + 1) endp r.2 width height
    else m

/-- Source: `rot90ccw(src, dst, size, width, height)`, with `endp = src + size`,
`dst` moved to `dst + size - 1` and `base` starting at `endp - width`. -/
def rot90ccw (m : Mem) (src dst size width height : Int) : Mem :=
  let endp := src + size
  let dst1 := dst + size - 1
  rot90ccw_cols width.toNat m (endp - width) endp dst1 width height

/-! ## The thread context -/

/-- The flip selector `enum FLIP_TYPE`. -/
inductive FLIP_TYPE where
  | FLIP_TYPE_NONE
  | FLIP_TYPE_HORIZONTAL
  | FLIP_TYPE_VERTICAL
  deriving DecidableEq, Repr

open FLIP_TYPE

/-- The fields of `cnt->conf` the module reads: the requested angle and the
flip-axis string (its characters; an empty list is the empty C string). -/
structure config where
  rotate : Int
  flip_axis : List Char
  deriving DecidableEq, Repr

/-- The record `cnt->rotate_data`. -/
structure rotdata where
  degrees : Int
  axis : FLIP_TYPE
  deriving DecidableEq, Repr

/-- The fields of `cnt->imgs` the module uses.  `common_buffer` is the address of
the scratch buffer. -/
structure images where
  width : Int
  height : Int
  width_high : Int
  height_high : Int
  display_width : Int
  display_height : Int
  display_width_high : Int
  display_height_high : Int
  common_buffer : Int
  common_buffer_size : Int
  deriving DecidableEq, Repr

/-- The part of `struct context` the module touches. -/
structure context where
  conf : config
  rotate_data : rotdata
  imgs : images
  deriving DecidableEq, Repr

/-! ## `rotate_init` -/

/-- The first `if` of `rotate_init`: the angle normalisation.  The boolean is
true when the warning branch (the `MOTION_LOG(WRN, ...)` call) is taken. -/
def rotate_init_angle (cnt : context) : context × Bool :=
  if Int.tmod cnt.conf.rotate 90 > 0 then
    ({ cnt with conf := { cnt.conf with rotate := 0 },
                rotate_data := { cnt.rotate_data with degrees := 0 } }, true)
  else
    ({ cnt with rotate_data :=
        { cnt.rotate_data with degrees := Int.tmod cnt.conf.rotate 360 } }, false)

/-- The second `if` of `rotate_init`: the flip axis from `conf.flip_axis[0]`. -/
def rotate_init_axis (cnt : context) : context :=
  if cnt.conf.flip_axis.head? = some 'h' then
    { cnt with rotate_data := { cnt.rotate_data with axis := FLIP_TYPE_HORIZONTAL } }
  else if cnt.conf.flip_axis.head? = some 'v' then
    { cnt with rotate_data := { cnt.rotate_data with axis := FLIP_TYPE_VERTICAL } }
  else
    { cnt with rotate_data := { cnt.rotate_data with axis := FLIP_TYPE_NONE } }

/-- The rest of `rotate_init`: display dimensions and the scratch buffer.
`newbuf` is the address `mymalloc` returns when it is called. -/
def rotate_init_dims (cnt : context) (newbuf : Int) : context :=
  let size_norm := Int.tdiv (cnt.imgs.width * cnt.imgs.height * 3) 2
  let size_high := Int.tdiv (cnt.imgs.width_high * cnt.imgs.height_high * 3) 2
  if cnt.rotate_data.degrees = 0 ∨ cnt.rotate_data.degrees = 180 then
    let i1 := { cnt.imgs with display_width := cnt.imgs.width,
                              display_height := cnt.imgs.height }
    let i2 := if size_high > 0 then
        { i1 with display_width_high := i1.width_high,
                  display_height_high := i1.height_high }
      else i1
    { cnt with imgs := i2 }
  else
    let needed_buffer_size := if size_high > size_norm then size_high else size_norm
    let i0 := if needed_buffer_size > cnt.imgs.common_buffer_size then
        { cnt.imgs with common_buffer_size := needed_buffer_size,
                        common_buffer := newbuf }
      else cnt.imgs
    let i1 := { i0 with display_width := i0.height, display_height := i0.width }
    let i2 := if size_high > 0 then
        { i1 with display_width_high := i1.height_high,
                  display_height_high := i1.width_high }
      else i1
    { cnt with imgs := i2 }

/-- Source: `rotate_init(cnt)`.  Returns the updated context and whether the
warning was logged. -/
def rotate_init (cnt : context) (newbuf : Int) : context × Bool :=
  let r := rotate_init_angle cnt
  (rotate_init_dims (rotate_init_axis r.1) newbuf, r.2)

/-! ## `rotate_img` and `unrotate_pgm` -/

/-- The first `switch` of `rotate_img`, `switch (axis)`: the flip of the three planes. -/
def flip_planes (axis : FLIP_TYPE) (m : Mem) (img width height wh wh4 w2 h2 : Int) : Mem :=
  match axis with
  | FLIP_TYPE_HORIZONTAL =>
    flip_inplace_horizontal
      (flip_inplace_horizontal (flip_inplace_horizontal m img width height) (img + wh) w2 h2)
      (img + wh + wh4) w2 h2
  | FLIP_TYPE_VERTICAL =>
    flip_inplace_vertical
      (flip_inplace_vertical (flip_inplace_vertical m img width height) (img + wh) w2 h2)
      (img + wh + wh4) w2 h2
  | FLIP_TYPE_NONE => m

/-- Source: `rotate_img(cnt, img, width, height)`.  Returns the `int` result and
the memory after the call. -/
def rotate_img (cnt : context) (m : Mem) (img width height : Int) : Int × Mem :=
  if cnt.rotate_data.degrees = 0 ∧ cnt.rotate_data.axis = FLIP_TYPE_NONE then (0, m)
  else
    let deg := cnt.rotate_data.degrees
    let axis := cnt.rotate_data.axis
    let temp_buff := cnt.imgs.common_buffer
    let m0 := memset m temp_buff 255 cnt.imgs.common_buffer_size
    let wh := width * height
    let size := Int.tdiv (wh * 3) 2
    let wh4 := Int.tdiv wh 4
    let w2 := Int.tdiv width 2
    let h2 := Int.tdiv height 2
    let m1 := flip_planes axis m0 img width height wh wh4 w2 h2
    if deg = 0 then (0, m1)
    else if deg = 90 then
      let a := rot90cw m1 img temp_buff wh width height
      let b := rot90cw a (img + wh) (temp_buff + wh) wh4 w2 h2
      let c := rot90cw b (img + wh + wh4) (temp_buff + wh + wh4) wh4 w2 h2
      (1, memcpy c img temp_buff size)
    else if deg = 180 then
      let a := reverse_inplace_quad m1 img wh
      let b := reverse_inplace_quad a (img + wh) wh4
      let c := reverse_inplace_quad b (img + wh + wh4) wh4
      (0, c)
    else if deg = 270 then
      let a := rot90ccw m1 img temp_buff wh width height
      let b := rot90ccw a (img + wh) (temp_buff + wh) wh4 w2 h2
      let c := rot90ccw b (img + wh + wh4) (temp_buff + wh + wh4) wh4 w2 h2
      (1, memcpy c img temp_buff size)
    else (-1, m1)

/-- Source: `unrotate_pgm(cnt, pgm, width, height)`.  Returns the `int` result and
the memory after the call. -/
def unrotate_pgm (cnt : context) (m : Mem) (pgm width height : Int) : Int × Mem :=
  if cnt.rotate_data.degrees = 0 ∧ cnt.rotate_data.axis = FLIP_TYPE_NONE then (0, m)
  else
    let deg := cnt.rotate_data.degrees
    let axis := cnt.rotate_data.axis
    let temp_buff := cnt.imgs.common_buffer
    let wh := width * height
    let m1 :=
      match axis with
      | FLIP_TYPE_HORIZONTAL => flip_inplace_horizontal m pgm width height
      | FLIP_TYPE_VERTICAL => flip_inplace_vertical m pgm width height
      | FLIP_TYPE_NONE => m
    if deg = 0 then (0, m1)
    else if deg = 90 then
      let a := rot90ccw m1 pgm temp_buff wh width height
      (1, memcpy a pgm temp_buff wh)
    else if deg = 180 then
      (0, reverse_inplace_quad m1 pgm wh)
    else if deg = 270 then
      let a := rot90cw m1 pgm temp_buff wh width height
      (1, memcpy a pgm temp_buff wh)
    else (-1, m1)

/-! ## Index maps used in the statements -/

/-- Index, within the source plane, of the byte that a clockwise quarter turn of a
plane `W` wide and `H` high puts at index `k` of the destination:
destination row `k / H`, column `k % H` comes from source row `H - 1 - k % H`,
column `k / H`. -/
def cwIdx (W H k : Nat) : Nat := (H - 1 - k % H) * W + k / H


/-- Index of the source byte that a counterclockwise quarter turn of a plane `W` wide
and `H` high puts at index `k` of the destination: `rot90ccw` fills the destination
from its last byte backwards, in the order in which `rot90cw` fills it forwards. -/
def ccwIdx (W H k : Nat) : Nat := cwIdx W H (W * H - 1 - k)

/-- Index of the byte that a full reversal of `n` bytes puts at index `k`. -/
def revIdx (n k : Nat) : Nat := n - 1 - k

/-- Index of the byte that a top/bottom mirror of a plane `W` wide and `H` high puts
at index `k`: row `k / W`, column `k % W` comes from row `H - 1 - k / W`, same column. -/
def hflipIdx (W H k : Nat) : Nat := (H - 1 - k / W) * W + k % W

/-- The `n` bytes of `out` at `dst` are bytes of `m` at `src`, rearranged by `σ`:
byte `k` of the one is byte `σ k` of the other. -/
def CopyMap (out m : Mem) (dst src : Int) (n : Nat) (σ : Nat → Nat) : Prop :=
  ∀ k : Nat, k < n → out (dst + (k : Int)) = m (src + ((σ k : Nat) : Int))

/-- The memories `out` and `m` agree outside the `n` bytes at `p`. -/
def Unchanged (out m : Mem) (p n : Int) : Prop :=
  ∀ a : Int, a < p ∨ p + n ≤ a → out a = m a

/-- The three planes of a frame `2 * W2` wide and `2 * H2` high at `img` (the Y plane,
then the U and V planes of `W2 * H2` bytes each) are in `out` the planes of `m`,
each rearranged by the index map `σ` taken at the plane's own width and height. -/
def FrameMap (out m : Mem) (img : Int) (W2 H2 : Nat) (σ : Nat → Nat → Nat → Nat) : Prop :=
  CopyMap out m img img (2 * W2 * (2 * H2)) (σ (2 * W2) (2 * H2)) ∧
  CopyMap out m (img + ((2 * W2 : Nat) : Int) * ((2 * H2 : Nat) : Int))
    (img + ((2 * W2 : Nat) : Int) * ((2 * H2 : Nat) : Int)) (W2 * H2) (σ W2 H2) ∧
  CopyMap out m
    (img + ((2 * W2 : Nat) : Int) * ((2 * H2 : Nat) : Int) + (W2 : Int) * (H2 : Int))
    (img + ((2 * W2 : Nat) : Int) * ((2 * H2 : Nat) : Int) + (W2 : Int) * (H2 : Int))
    (W2 * H2) (σ W2 H2)

/-- Size in bytes of a frame `2 * W2` wide and `2 * H2` high. -/
def frameSize (W2 H2 : Nat) : Int :=
  ((2 * W2 : Nat) : Int) * ((2 * H2 : Nat) : Int) + (W2 : Int) * (H2 : Int)
    + (W2 : Int) * (H2 : Int)

/-! ## Notions used to state the claims -/

/-- The context `cnt` with its stored rotation state replaced. -/
def context.with_rotation (cnt : context) (degrees : Int) (axis : FLIP_TYPE) : context :=
  { cnt with rotate_data := { degrees := degrees, axis := axis } }

/-- The scratch buffer of the context, `common_buffer_size` bytes at `common_buffer`,
does not overlap the `size` bytes at `img`. -/
def scratch_apart (cnt : context) (img size : Int) : Prop :=
  img + size ≤ cnt.imgs.common_buffer ∨
    cnt.imgs.common_buffer + cnt.imgs.common_buffer_size ≤ img

/-- A plane of a frame: its address, width and height. -/
structure Plane where
  base : Int
  width : Int
  height : Int

/-- The Y, U and V planes of a YUV 4:2:0 frame at `img`, as `rotate_img` lays them out:
Y at `img` of `width x height`, U at `img + wh` and V at `img + wh + wh4`, each of
`width/2 x height/2`. -/
def frame_planes (img width height : Int) : List Plane :=
  [ { base := img, width := width, height := height },
    { base := img + width * height, width := Int.tdiv width 2, height := Int.tdiv height 2 },
    { base := img + width * height + Int.tdiv (width * height) 4,
      width := Int.tdiv width 2, height := Int.tdiv height 2 } ]

/-- A memory whose byte at address `a` is `a mod 256` (a plane at address 0 of 256
bytes is filled with 0..255). -/
def ramp : Mem := fun a => byteOf a.toNat

/-- A context with the given rotation state and scratch buffer, and nothing else set. -/
def ctx (rotate degrees : Int) (axis : FLIP_TYPE) (common_buffer common_buffer_size : Int) :
    context :=
  { conf := { rotate := rotate, flip_axis := [] },
    rotate_data := { degrees := degrees, axis := axis },
    imgs := { width := 16, height := 32, width_high := 0, height_high := 0,
              display_width := 0, display_height := 0,
              display_width_high := 0, display_height_high := 0,
              common_buffer := common_buffer, common_buffer_size := common_buffer_size } }

/-- Reading of "the destination's first row holds the bytes of the source's last
column": each of the first `height` bytes of `out` at `dst` is a byte of column
`width - 1` of the plane of `m` at `src`. -/
def first_row_holds_last_column (m out : Mem) (src dst width height : Int) : Prop :=
  ∀ j : Int, 0 ≤ j → j < height →
    ∃ i : Int, 0 ≤ i ∧ i < height ∧ out (dst + j) = m (src + (i * width + (width - 1)))

/-- Reference top/bottom mirror of a plane `pw` wide and `ph` high, given as a map
from index to byte: row `k / pw`, column `k % pw` of the result is row
`ph - 1 - k / pw`, same column, of `f`. -/
def ref_mirror_tb (pw ph : Int) (f : Int → Byte) : Int → Byte :=
  fun k => f ((ph - 1 - k / pw) * pw + k % pw)

/-- Reference clockwise quarter turn of a plane `pw` wide and `ph` high, given as a map
from index to byte; the result is `ph` wide and `pw` high, and its row `k / ph`,
column `k % ph` is row `ph - 1 - k % ph`, column `k / ph` of `f`. -/
def ref_rot90cw (pw ph : Int) (f : Int → Byte) : Int → Byte :=
  fun k => f ((ph - 1 - k % ph) * pw + k / ph)

/-- A memory that holds 0 at address `p` and 1 everywhere else. -/
def spot (p : Int) : Mem := fun a => if a = p then 0 else 1

/-- Index of the byte that a left/right mirror of a plane `W` wide puts at index `k`:
row `k / W`, column `k % W` comes from the same row, column `W - 1 - k % W`. -/
def vflipIdx (W _H k : Nat) : Nat := k / W * W + (W - 1 - k % W)

/-- Index map of the flip stage of `rotate_img` on a plane `W` wide and `H` high. -/
def flipIdx (axis : FLIP_TYPE) (W H k : Nat) : Nat :=
  match axis with
  | FLIP_TYPE_HORIZONTAL => hflipIdx W H k
  | FLIP_TYPE_VERTICAL => vflipIdx W H k
  | FLIP_TYPE_NONE => k

/-- Index map of the rotation stage of `rotate_img` on a plane `W` wide and `H` high
(the identity at 0 degrees). -/
def rotIdx (degrees : Int) (W H k : Nat) : Nat :=
  if degrees = 90 then cwIdx W H k
  else if degrees = 180 then revIdx (W * H) k
  else if degrees = 270 then ccwIdx W H k
  else k

/-- The bytes of a plane in memory, in order. -/
def plane_bytes (m : Mem) (p : Plane) : List Byte :=
  (List.range (p.width * p.height).toNat).map (fun k : Nat => m (p.base + (k : Int)))

/-- The `switch (axis)` of `unrotate_pgm`: the flip of the single plane. -/
def flip_plane (axis : FLIP_TYPE) (m : Mem) (pgm width height : Int) : Mem :=
  match axis with
  | FLIP_TYPE_HORIZONTAL => flip_inplace_horizontal m pgm width height
  | FLIP_TYPE_VERTICAL => flip_inplace_vertical m pgm width height
  | FLIP_TYPE_NONE => m

/-- Index map of the rotation stage of `unrotate_pgm` on a plane `W` wide and `H` high:
counterclockwise at 90 degrees, clockwise at 270 (the identity at 0 degrees). -/
def unrotIdx (degrees : Int) (W H k : Nat) : Nat :=
  if degrees = 90 then ccwIdx W H k
  else if degrees = 180 then revIdx (W * H) k
  else if degrees = 270 then cwIdx W H k
  else k

/-- Width of the frame after `rotate_img`: the height at 90 and 270 degrees. -/
def post_width (degrees width height : Int) : Int :=
  if degrees = 90 ∨ degrees = 270 then height else width

/-- Height of the frame after `rotate_img`: the width at 90 and 270 degrees. -/
def post_height (degrees width height : Int) : Int :=
  if degrees = 90 ∨ degrees = 270 then width else height

/-- Index map of `rotate_img` on the luma plane (`W` wide, `H` high) followed by
`unrotate_pgm` with the same configuration at the dimensions after the rotation: byte
`k` of the result is byte `roundIdx axis degrees W H k` of the original plane. -/
def roundIdx (axis : FLIP_TYPE) (degrees : Int) (W H k : Nat) : Nat :=
  if degrees = 90 ∨ degrees = 270 then
    flipIdx axis W H (rotIdx degrees W H (flipIdx axis H W (unrotIdx degrees H W k)))
  else
    flipIdx axis W H (rotIdx degrees W H (flipIdx axis W H (unrotIdx degrees W H k)))

/-! ## Memory lemmas -/

theorem store_apply (m : Mem) (p : Int) (v : Byte) (a : Int) :
    (m.store p v) a = if a = p then v else m a := rfl

theorem store_same (m : Mem) (p : Int) (v : Byte) : (m.store p v) p = v := by
  simp [Mem.store]

theorem store_other (m : Mem) (p : Int) (v : Byte) (a : Int) (h : a ≠ p) :
    (m.store p v) a = m a := by
  simp [Mem.store, h]

theorem memset_in (m : Mem) (s : Int) (c : Byte) (n a : Int) (h1 : s ≤ a) (h2 : a < s + n) :
    memset m s c n a = c := by
  simp [memset, h1, h2]

theorem memset_out (m : Mem) (s : Int) (c : Byte) (n a : Int) (h : a < s ∨ s + n ≤ a) :
    memset m s c n a = m a := by
  unfold memset
  rw [if_neg]
  omega

theorem memcpy_in (m : Mem) (dst src n a : Int) (h1 : dst ≤ a) (h2 : a < dst + n) :
    memcpy m dst src n a = m (src + (a - dst)) := by
  simp [memcpy, h1, h2]

theorem memcpy_out (m : Mem) (dst src n a : Int) (h : a < dst ∨ dst + n ≤ a) :
    memcpy m dst src n a = m a := by
  unfold memcpy
  rw [if_neg]
  omega

theorem load_bytes (a b c d : Nat) (h0 : a < 256) (h1 : b < 256) (h2 : c < 256) (h3 : d < 256) :
    (a + b * 256 + c * 65536 + d * 16777216) % 256 = a ∧
    (a + b * 256 + c * 65536 + d * 16777216) / 256 % 256 = b ∧
    (a + b * 256 + c * 65536 + d * 16777216) / 65536 % 256 = c ∧
    (a + b * 256 + c * 65536 + d * 16777216) / 16777216 % 256 = d := by
  refine ⟨?_, ?_, ?_, ?_⟩ <;> omega

theorem bswap_load (a b c d : Nat) (h0 : a < 256) (h1 : b < 256) (h2 : c < 256) (h3 : d < 256) :
    bswap_32 (a + b * 256 + c * 65536 + d * 16777216) =
      d + c * 256 + b * 65536 + a * 16777216 := by
  obtain ⟨e0, e1, e2, e3⟩ := load_bytes a b c d h0 h1 h2 h3
  unfold bswap_32
  rw [e0, e1, e2, e3]
  ring

theorem bswap_bytes (b0 b1 b2 b3 : Byte) :
    byteOf (bswap_32 (b0.val + b1.val * 256 + b2.val * 65536 + b3.val * 16777216)) = b3 ∧
    byteOf (bswap_32 (b0.val + b1.val * 256 + b2.val * 65536 + b3.val * 16777216) / 256) = b2 ∧
    byteOf (bswap_32 (b0.val + b1.val * 256 + b2.val * 65536 + b3.val * 16777216) / 65536) = b1 ∧
    byteOf (bswap_32 (b0.val + b1.val * 256 + b2.val * 65536 + b3.val * 16777216) / 16777216)
      = b0 := by
  rw [bswap_load b0.val b1.val b2.val b3.val b0.isLt b1.isLt b2.isLt b3.isLt]
  obtain ⟨e0, e1, e2, e3⟩ := load_bytes b3.val b2.val b1.val b0.val b3.isLt b2.isLt b1.isLt b0.isLt
  exact ⟨Fin.ext e0, Fin.ext e1, Fin.ext e2, Fin.ext e3⟩

/-- Writing the byte-swapped word read at `q` to `p` stores the four bytes of
`q` at `p` in reverse order. -/
theorem store32_bswap (m m0 : Mem) (p q a : Int) :
    store32 m p (bswap_32 (load32 m0 q)) a =
      if a = p then m0 (q + 3) else if a = p + 1 then m0 (q + 2)
      else if a = p + 2 then m0 (q + 1) else if a = p + 3 then m0 q else m a := by
  obtain ⟨e0, e1, e2, e3⟩ := bswap_bytes (m0 q) (m0 (q + 1)) (m0 (q + 2)) (m0 (q + 3))
  unfold store32 load32
  rw [e0, e1, e2, e3]
  simp only [Mem.store]
  by_cases h0 : a = p
  · subst h0
    simp
  · by_cases h1 : a = p + 1
    · subst h1
      simp
    · by_cases h2 : a = p + 2
      · subst h2
        simp
      · by_cases h3 : a = p + 3
        · simp [h3]
        · simp [h0, h1, h2, h3]

/-- One iteration of the loop of `reverse_inplace_quad` on two words that do not
overlap: the two words trade places, each with its bytes reversed. -/
theorem reverse_step (m : Mem) (nsrc ndst a : Int) (h : nsrc + 4 ≤ ndst) :
    store32 (store32 m ndst (bswap_32 (load32 m nsrc))) nsrc (bswap_32 (load32 m ndst)) a =
      if nsrc ≤ a ∧ a < nsrc + 4 then m (ndst + 3 - (a - nsrc))
      else if ndst ≤ a ∧ a < ndst + 4 then m (nsrc + 3 - (a - ndst))
      else m a := by
  rw [store32_bswap, store32_bswap]
  split_ifs <;> first | rfl | omega | (congr 1; omega)

/-! ## `reverse_inplace_quad`: the loop -/

/-- The fuel of `reverse_loop` is not exhausted when it covers the distance between the
two cursors: more fuel gives the same memory. -/
theorem reverse_loop_fuel : ∀ (fuel : Nat) (m : Mem) (nsrc ndst : Int),
    ndst - nsrc ≤ 8 * (fuel : Int) → ∀ extra : Nat,
      reverse_loop (fuel + extra) m nsrc ndst = reverse_loop fuel m nsrc ndst := by
  intro fuel
  induction fuel with
  | zero =>
    intro m nsrc ndst h extra
    cases extra with
    | zero => rfl
    | succ e =>
      have hc : ¬ nsrc < ndst := by omega
      simp [reverse_loop, hc]
  | succ f ih =>
    intro m nsrc ndst h extra
    have e : f + 1 + extra = (f + extra) + 1 := by omega
    rw [e]
    simp only [reverse_loop]
    by_cases hc : nsrc < ndst
    · rw [if_pos hc, if_pos hc]
      apply ih
      push_cast at h
      omega
    · rw [if_neg hc, if_neg hc]

/-- The fuel `size.toNat` that `reverse_inplace_quad` hands to its loop is enough. -/
theorem reverse_inplace_quad_fuel (m : Mem) (src size : Int) (extra : Nat) :
    reverse_loop (size.toNat + extra) m src (src + size - 4) = reverse_inplace_quad m src size := by
  unfold reverse_inplace_quad
  apply reverse_loop_fuel
  omega

/-- The loop of `reverse_inplace_quad` on a region of `8 * k` bytes reverses it and
leaves the rest of memory alone. -/
theorem reverse_loop_spec (k : Nat) : ∀ (fuel : Nat) (m : Mem) (nsrc ndst : Int),
    ndst + 4 = nsrc + 8 * (k : Int) → k ≤ fuel → ∀ a : Int,
      reverse_loop fuel m nsrc ndst a =
        if nsrc ≤ a ∧ a < nsrc + 8 * (k : Int) then m (2 * nsrc + 8 * (k : Int) - 1 - a)
        else m a := by
  induction k with
  | zero =>
    intro fuel m nsrc ndst h _ a
    have hc : ¬ nsrc < ndst := by omega
    have hr : ¬ (nsrc ≤ a ∧ a < nsrc + 8 * ((0 : Nat) : Int)) := by omega
    rw [if_neg hr]
    cases fuel with
    | zero => rfl
    | succ f => simp [reverse_loop, hc]
  | succ k ih =>
    intro fuel m nsrc ndst h hf a
    cases fuel with
    | zero => omega
    | succ f =>
      have hc : nsrc < ndst := by push_cast at h; omega
      have hs : nsrc + 4 ≤ ndst := by push_cast at h; omega
      simp only [reverse_loop]
      rw [if_pos hc, ih f _ (nsrc + 4) (ndst - 4) (by push_cast at h; omega) (by omega) a]
      rw [reverse_step m nsrc ndst _ hs, reverse_step m nsrc ndst _ hs]
      push_cast at h ⊢
      split_ifs <;> first | rfl | omega | (congr 1; omega)

/-- Effect of `reverse_inplace_quad` on a region whose size is a multiple of 8. -/
theorem reverse_inplace_quad_spec (m : Mem) (src size : Int) (h0 : 0 ≤ size)
    (h8 : (8 : Int) ∣ size) (a : Int) :
    reverse_inplace_quad m src size a =
      if src ≤ a ∧ a < src + size then m (src + (size - 1 - (a - src))) else m a := by
  obtain ⟨k, hk⟩ := h8
  obtain ⟨n, hn⟩ := Int.eq_ofNat_of_zero_le (show 0 ≤ k by omega)
  subst hn
  unfold reverse_inplace_quad
  rw [reverse_loop_spec n size.toNat m src (src + size - 4) (by omega) (by omega) a]
  rw [← hk]
  split_ifs <;> first | rfl | omega | (congr 1; omega)

/-! ## `reverse_inplace_quad` on any whole number of words -/

/-- The loop of `reverse_inplace_quad` on a region of `8 * k + g` bytes, `0 ≤ g ≤ 4`:
the first and the last `4 * k` bytes trade places in reverse order, the `g` bytes in
the middle and the rest of memory are left alone. -/
theorem reverse_loop_gap (g : Int) (hg0 : 0 ≤ g) (hg : g ≤ 4) (k : Nat) :
    ∀ (fuel : Nat) (m : Mem) (nsrc ndst : Int),
    ndst + 4 = nsrc + 8 * (k : Int) + g → k ≤ fuel → ∀ a : Int,
      reverse_loop fuel m nsrc ndst a =
        if (nsrc ≤ a ∧ a < nsrc + 4 * (k : Int)) ∨
            (nsrc + 4 * (k : Int) + g ≤ a ∧ a < nsrc + 8 * (k : Int) + g)
        then m (2 * nsrc + 8 * (k : Int) + g - 1 - a)
        else m a := by
  induction k with
  | zero =>
    intro fuel m nsrc ndst h _ a
    have hc : ¬ nsrc < ndst := by omega
    have hr : ¬ ((nsrc ≤ a ∧ a < nsrc + 4 * ((0 : Nat) : Int)) ∨
        (nsrc + 4 * ((0 : Nat) : Int) + g ≤ a ∧ a < nsrc + 8 * ((0 : Nat) : Int) + g)) := by
      omega
    rw [if_neg hr]
    cases fuel with
    | zero => rfl
    | succ f => simp [reverse_loop, hc]
  | succ k ih =>
    intro fuel m nsrc ndst h hf a
    cases fuel with
    | zero => omega
    | succ f =>
      have hc : nsrc < ndst := by push_cast at h; omega
      have hs : nsrc + 4 ≤ ndst := by push_cast at h; omega
      simp only [reverse_loop]
      rw [if_pos hc, ih f _ (nsrc + 4) (ndst - 4) (by push_cast at h; omega) (by omega) a]
      rw [reverse_step m nsrc ndst _ hs, reverse_step m nsrc ndst _ hs]
      push_cast at h ⊢
      split_ifs <;> first | rfl | omega | (congr 1; omega)

/-- Effect of `reverse_inplace_quad` on a region of `4 * n` bytes: with `k = n / 2`
iterations, the first and the last `4 * k` bytes trade places in reverse order; when
`n` is odd the middle word is left as it is. -/
theorem reverse_inplace_quad_words (m : Mem) (src : Int) (n : Nat) (a : Int) :
    reverse_inplace_quad m src (4 * (n : Int)) a =
      if (src ≤ a ∧ a < src + 4 * ((n / 2 : Nat) : Int)) ∨
          (src + 4 * (n : Int) - 4 * ((n / 2 : Nat) : Int) ≤ a ∧ a < src + 4 * (n : Int))
      then m (2 * src + 4 * (n : Int) - 1 - a)
      else m a := by
  unfold reverse_inplace_quad
  have hg : 4 * (n : Int) - 8 * ((n / 2 : Nat) : Int) = 0 ∨
      4 * (n : Int) - 8 * ((n / 2 : Nat) : Int) = 4 := by omega
  rw [reverse_loop_gap (4 * (n : Int) - 8 * ((n / 2 : Nat) : Int)) (by omega) (by omega) (n / 2)
    (4 * (n : Int)).toNat m src (src + 4 * (n : Int) - 4) (by omega) (by omega) a]
  split_ifs <;> first | rfl | omega | (congr 1; omega)

/-- Applying `reverse_inplace_quad` twice to a region of whole words gives back the
memory it started from. -/
theorem reverse_inplace_quad_twice (m : Mem) (src : Int) (n : Nat) (a : Int) :
    reverse_inplace_quad (reverse_inplace_quad m src (4 * (n : Int))) src (4 * (n : Int)) a
      = m a := by
  rw [reverse_inplace_quad_words, reverse_inplace_quad_words, reverse_inplace_quad_words]
  split_ifs <;> first | rfl | omega | (congr 1; omega)

/-! ## Index arithmetic -/

theorem idx_lt (c j n H : Nat) (hc : c < n) (hj : j < H) : c * H + j < n * H := by
  calc c * H + j < c * H + H := by omega
    _ = (c + 1) * H := by ring
    _ ≤ n * H := Nat.mul_le_mul_right H hc

theorem idx_lt_int (c j n H : Nat) (hc : c < n) (hj : j < H) :
    (c : Int) * (H : Int) + (j : Int) < (n : Int) * (H : Int) := by
  exact_mod_cast idx_lt c j n H hc hj

/-! ## `rot90cw`: the loops -/

theorem rot90cw_col_snd : ∀ (n : Nat) (m : Mem) (src dst width : Int),
    (rot90cw_col n m src dst width).2 = dst + (n : Int) := by
  intro n
  induction n with
  | zero => intro m src dst width; simp [rot90cw_col]
  | succ n ih =>
    intro m src dst width
    simp only [rot90cw_col]
    rw [ih]
    push_cast
    ring

/-- The inner loop of `rot90cw` copies `n` bytes, read at stride `-width` from `src`,
to `dst`, `dst + 1`, ..., as long as no byte is read from the written range. -/
theorem rot90cw_col_spec : ∀ (n : Nat) (m : Mem) (src dst width : Int),
    (∀ i : Nat, i < n →
      src - (i : Int) * width < dst ∨ dst + (n : Int) ≤ src - (i : Int) * width) →
    (∀ i : Nat, i < n →
      (rot90cw_col n m src dst width).1 (dst + (i : Int)) = m (src - (i : Int) * width)) ∧
    (∀ a : Int, a < dst ∨ dst + (n : Int) ≤ a →
      (rot90cw_col n m src dst width).1 a = m a) := by
  intro n
  induction n with
  | zero =>
    intro m src dst width _
    exact ⟨fun i hi => absurd hi (Nat.not_lt_zero i), fun a _ => rfl⟩
  | succ n ih =>
    intro m src dst width hr
    have hr1 : ∀ i : Nat, i < n →
        (src - width) - (i : Int) * width < dst + 1 ∨
        (dst + 1) + (n : Int) ≤ (src - width) - (i : Int) * width := by
      intro i hi
      have h := hr (i + 1) (by omega)
      have e : ((i + 1 : Nat) : Int) * width = (i : Int) * width + width := by push_cast; ring
      rw [e] at h
      push_cast at h
      omega
    obtain ⟨ih1, ih2⟩ := ih (m.store dst (m src)) (src - width) (dst + 1) width hr1
    constructor
    · intro i hi
      cases i with
      | zero =>
        simp only [rot90cw_col]
        have e : dst + ((0 : Nat) : Int) = dst := by simp
        rw [e, ih2 dst (Or.inl (by omega)), store_same]
        simp
      | succ j =>
        simp only [rot90cw_col]
        have e : dst + ((j + 1 : Nat) : Int) = (dst + 1) + (j : Int) := by push_cast; ring
        have e2 : src - ((j + 1 : Nat) : Int) * width = (src - width) - (j : Int) * width := by
          push_cast; ring
        rw [e, e2, ih1 j (by omega)]
        apply store_other
        have h := hr (j + 1) (by omega)
        rw [e2] at h
        push_cast at h
        omega
    · intro a ha
      simp only [rot90cw_col]
      rw [ih2 a (by push_cast at ha; omega)]
      apply store_other
      push_cast at ha
      omega

/-- The fuel of the outer loop of `rot90cw` is not exhausted when it covers the
distance from `base` to `endp`. -/
theorem rot90cw_cols_fuel : ∀ (fuel : Nat) (m : Mem) (base endp dst width height : Int),
    endp - base ≤ (fuel : Int) → ∀ extra : Nat,
      rot90cw_cols (fuel + extra) m base endp dst width height =
        rot90cw_cols fuel m base endp dst width height := by
  intro fuel
  induction fuel with
  | zero =>
    intro m base endp dst width height h extra
    cases extra with
    | zero => rfl
    | succ e =>
      have hc : ¬ base < endp := by push_cast at h; omega
      simp [rot90cw_cols, hc]
  | succ f ih =>
    intro m base endp dst width height h extra
    have e : f + 1 + extra = (f + extra) + 1 := by omega
    rw [e]
    simp only [rot90cw_cols]
    by_cases hc : base < endp
    · rw [if_pos hc, if_pos hc]
      apply ih
      push_cast at h
      omega
    · rw [if_neg hc, if_neg hc]

/-- The outer loop of `rot90cw` over `n` columns of an image `W` wide and `H` high. -/
theorem rot90cw_cols_spec (W H : Nat) : ∀ (n : Nat) (m : Mem) (base endp dst : Int),
    endp = base + (n : Int) →
    (∀ c j : Nat, c < n → j < H →
      base + (c : Int) - (j : Int) * (W : Int) < dst ∨
      dst + (n : Int) * (H : Int) ≤ base + (c : Int) - (j : Int) * (W : Int)) →
    (∀ c j : Nat, c < n → j < H →
      rot90cw_cols n m base endp dst (W : Int) (H : Int) (dst + (c : Int) * (H : Int) + (j : Int))
        = m (base + (c : Int) - (j : Int) * (W : Int))) ∧
    (∀ a : Int, a < dst ∨ dst + (n : Int) * (H : Int) ≤ a →
      rot90cw_cols n m base endp dst (W : Int) (H : Int) a = m a) := by
  intro n
  induction n with
  | zero =>
    intro m base endp dst _ _
    exact ⟨fun c j hc _ => absurd hc (Nat.not_lt_zero c), fun a _ => rfl⟩
  | succ n ih =>
    intro m base endp dst he hr
    have hnH : (0 : Int) ≤ (n : Int) * (H : Int) := by positivity
    have eS : ((n + 1 : Nat) : Int) * (H : Int) = (n : Int) * (H : Int) + (H : Int) := by
      push_cast; ring
    have hlt : base < endp := by push_cast at he; omega
    -- the first column
    have hcol : ∀ i : Nat, i < H →
        base - (i : Int) * (W : Int) < dst ∨ dst + (H : Int) ≤ base - (i : Int) * (W : Int) := by
      intro i hi
      have h := hr 0 i (by omega) hi
      rw [eS] at h
      push_cast at h
      omega
    obtain ⟨c1, c2⟩ := rot90cw_col_spec H m base dst (W : Int) hcol
    -- the remaining columns
    have hr1 : ∀ c j : Nat, c < n → j < H →
        (base + 1) + (c : Int) - (j : Int) * (W : Int) < dst + (H : Int) ∨
        (dst + (H : Int)) + (n : Int) * (H : Int) ≤
          (base + 1) + (c : Int) - (j : Int) * (W : Int) := by
      intro c j hc hj
      have h := hr (c + 1) j (by omega) hj
      rw [eS] at h
      push_cast at h
      omega
    obtain ⟨ih1, ih2⟩ := ih (rot90cw_col H m base dst (W : Int)).1 (base + 1) endp
      (dst + (H : Int)) (by push_cast at he; omega) hr1
    have unf : ∀ a : Int, rot90cw_cols (n + 1) m base endp dst (W : Int) (H : Int) a =
        rot90cw_cols n (rot90cw_col H m base dst (W : Int)).1 (base + 1) endp
          (dst + (H : Int)) (W : Int) (H : Int) a := by
      intro a
      simp only [rot90cw_cols, if_pos hlt, Int.toNat_ofNat, rot90cw_col_snd]
    constructor
    · intro c j hc hj
      rw [unf]
      cases c with
      | zero =>
        have e : dst + ((0 : Nat) : Int) * (H : Int) + (j : Int) = dst + (j : Int) := by simp
        rw [e, ih2 _ (Or.inl (by omega)), c1 j hj]
        simp
      | succ c =>
        have e : dst + ((c + 1 : Nat) : Int) * (H : Int) + (j : Int) =
            (dst + (H : Int)) + (c : Int) * (H : Int) + (j : Int) := by push_cast; ring
        have e2 : base + ((c + 1 : Nat) : Int) - (j : Int) * (W : Int) =
            (base + 1) + (c : Int) - (j : Int) * (W : Int) := by push_cast; ring
        rw [e, e2, ih1 c j (by omega) hj]
        apply c2
        have h := hr (c + 1) j (by omega) hj
        rw [eS, e2] at h
        omega
    · intro a ha
      rw [unf, ih2 a (by rw [eS] at ha; omega)]
      apply c2
      rw [eS] at ha
      omega

theorem cwIdx_lt (W H k : Nat) (hk : k < W * H) : cwIdx W H k < W * H := by
  have hH : 0 < H := by
    rcases Nat.eq_zero_or_pos H with h | h
    · subst h; simp at hk
    · exact h
  have h1 : k / H < W := Nat.div_lt_of_lt_mul (by rw [Nat.mul_comm]; exact hk)
  have h2 : k % H < H := Nat.mod_lt k hH
  have h3 := idx_lt (H - 1 - k % H) (k / H) H W (by omega) h1
  unfold cwIdx
  rw [Nat.mul_comm W H]
  exact h3

theorem cwIdx_coord (W H c j : Nat) (hj : j < H) :
    cwIdx W H (c * H + j) = (H - 1 - j) * W + c := by
  unfold cwIdx
  have e1 : (c * H + j) % H = j := by
    rw [Nat.add_comm, Nat.add_mul_mod_self_right]
    exact Nat.mod_eq_of_lt hj
  have e2 : (c * H + j) / H = c := by
    rw [Nat.add_comm, Nat.add_mul_div_right _ _ (by omega : 0 < H), Nat.div_eq_of_lt hj]
    simp
  rw [e1, e2]

/-- Effect of `rot90cw` in coordinates: for a source plane of `W * H` bytes that the
destination does not overlap, destination byte `c * H + j` is source byte
`(H - 1 - j) * W + c`, and nothing outside the destination is written. -/
theorem rot90cw_coord (m : Mem) (src dst : Int) (W H : Nat)
    (hd : dst + (W : Int) * (H : Int) ≤ src ∨ src + (W : Int) * (H : Int) ≤ dst) :
    (∀ c j : Nat, c < W → j < H →
      rot90cw m src dst ((W : Int) * (H : Int)) (W : Int) (H : Int)
          (dst + (c : Int) * (H : Int) + (j : Int))
        = m (src + ((H : Int) - 1 - (j : Int)) * (W : Int) + (c : Int))) ∧
    (∀ a : Int, a < dst ∨ dst + (W : Int) * (H : Int) ≤ a →
      rot90cw m src dst ((W : Int) * (H : Int)) (W : Int) (H : Int) a = m a) := by
  have hr : ∀ c j : Nat, c < W → j < H →
      (src + (W : Int) * (H : Int) - (W : Int)) + (c : Int) - (j : Int) * (W : Int) < dst ∨
      dst + (W : Int) * (H : Int) ≤
        (src + (W : Int) * (H : Int) - (W : Int)) + (c : Int) - (j : Int) * (W : Int) := by
    intro c j hc hj
    have h1 : (j + 1) * W ≤ H * W := Nat.mul_le_mul_right W (by omega)
    have h2 : ((j : Int) + 1) * (W : Int) ≤ (H : Int) * (W : Int) := by exact_mod_cast h1
    have e1 : ((j : Int) + 1) * (W : Int) = (j : Int) * (W : Int) + (W : Int) := by ring
    have e2 : (H : Int) * (W : Int) = (W : Int) * (H : Int) := by ring
    rw [e1, e2] at h2
    have h3 : (0 : Int) ≤ (j : Int) * (W : Int) := by positivity
    omega
  obtain ⟨s1, s2⟩ := rot90cw_cols_spec W H W m (src + (W : Int) * (H : Int) - (W : Int))
    (src + (W : Int) * (H : Int)) dst (by ring) hr
  unfold rot90cw
  simp only [Int.toNat_ofNat]
  constructor
  · intro c j hc hj
    rw [s1 c j hc hj]
    congr 1
    ring
  · intro a ha
    exact s2 a ha

/-- Effect of `rot90cw` by destination index. -/
theorem rot90cw_spec (m : Mem) (src dst : Int) (W H : Nat)
    (hd : dst + (W : Int) * (H : Int) ≤ src ∨ src + (W : Int) * (H : Int) ≤ dst) :
    (∀ k : Nat, k < W * H →
      rot90cw m src dst ((W : Int) * (H : Int)) (W : Int) (H : Int) (dst + (k : Int))
        = m (src + (cwIdx W H k : Nat))) ∧
    (∀ a : Int, a < dst ∨ dst + (W : Int) * (H : Int) ≤ a →
      rot90cw m src dst ((W : Int) * (H : Int)) (W : Int) (H : Int) a = m a) := by
  obtain ⟨s1, s2⟩ := rot90cw_coord m src dst W H hd
  refine ⟨?_, s2⟩
  intro k hk
  have hH : 0 < H := by
    rcases Nat.eq_zero_or_pos H with h | h
    · subst h; simp at hk
    · exact h
  have h1 : k / H < W := Nat.div_lt_of_lt_mul (by rw [Nat.mul_comm]; exact hk)
  have h2 : k % H < H := Nat.mod_lt k hH
  have e : (k : Int) = ((k / H : Nat) : Int) * (H : Int) + ((k % H : Nat) : Int) := by
    have := Nat.div_add_mod' k H
    exact_mod_cast this.symm
  have e3 : dst + (k : Int) = dst + ((k / H : Nat) : Int) * (H : Int) + ((k % H : Nat) : Int) := by
    rw [e]; ring
  rw [e3, s1 (k / H) (k % H) h1 h2]
  congr 1
  unfold cwIdx
  have e4 : ((H - 1 - k % H : Nat) : Int) = (H : Int) - 1 - ((k % H : Nat) : Int) := by omega
  push_cast [e4]
  ring

/-! ## `rot90ccw`: the loops -/

theorem rot90ccw_col_snd : ∀ (n : Nat) (m : Mem) (src dst width : Int),
    (rot90ccw_col n m src dst width).2 = dst - (n : Int) := by
  intro n
  induction n with
  | zero => intro m src dst width; simp [rot90ccw_col]
  | succ n ih =>
    intro m src dst width
    simp only [rot90ccw_col]
    rw [ih]
    push_cast
    ring

/-- The inner loop of `rot90ccw` copies `n` bytes, read at stride `-width` from `src`,
to `dst`, `dst - 1`, ..., as long as no byte is read from the written range. -/
theorem rot90ccw_col_spec : ∀ (n : Nat) (m : Mem) (src dst width : Int),
    (∀ i : Nat, i < n →
      src - (i : Int) * width ≤ dst - (n : Int) ∨ dst < src - (i : Int) * width) →
    (∀ i : Nat, i < n →
      (rot90ccw_col n m src dst width).1 (dst - (i : Int)) = m (src - (i : Int) * width)) ∧
    (∀ a : Int, a ≤ dst - (n : Int) ∨ dst < a →
      (rot90ccw_col n m src dst width).1 a = m a) := by
  intro n
  induction n with
  | zero =>
    intro m src dst width _
    exact ⟨fun i hi => absurd hi (Nat.not_lt_zero i), fun a _ => rfl⟩
  | succ n ih =>
    intro m src dst width hr
    have hr1 : ∀ i : Nat, i < n →
        (src - width) - (i : Int) * width ≤ (dst - 1) - (n : Int) ∨
        dst - 1 < (src - width) - (i : Int) * width := by
      intro i hi
      have h := hr (i + 1) (by omega)
      have e : ((i + 1 : Nat) : Int) * width = (i : Int) * width + width := by push_cast; ring
      rw [e] at h
      push_cast at h
      omega
    obtain ⟨ih1, ih2⟩ := ih (m.store dst (m src)) (src - width) (dst - 1) width hr1
    constructor
    · intro i hi
      cases i with
      | zero =>
        simp only [rot90ccw_col]
        have e : dst - ((0 : Nat) : Int) = dst := by simp
        rw [e, ih2 dst (Or.inr (by omega)), store_same]
        simp
      | succ j =>
        simp only [rot90ccw_col]
        have e : dst - ((j + 1 : Nat) : Int) = (dst - 1) - (j : Int) := by push_cast; ring
        have e2 : src - ((j + 1 : Nat) : Int) * width = (src - width) - (j : Int) * width := by
          push_cast; ring
        rw [e, e2, ih1 j (by omega)]
        apply store_other
        have h := hr (j + 1) (by omega)
        rw [e2] at h
        push_cast at h
        omega
    · intro a ha
      simp only [rot90ccw_col]
      rw [ih2 a (by push_cast at ha; omega)]
      apply store_other
      push_cast at ha
      omega

/-- The fuel of the outer loop of `rot90ccw` is not exhausted when it covers the
distance from `base` to `endp`. -/
theorem rot90ccw_cols_fuel : ∀ (fuel : Nat) (m : Mem) (base endp dst width height : Int),
    endp - base ≤ (fuel : Int) → ∀ extra : Nat,
      rot90ccw_cols (fuel + extra) m base endp dst width height =
        rot90ccw_cols fuel m base endp dst width height := by
  intro fuel
  induction fuel with
  | zero =>
    intro m base endp dst width height h extra
    cases extra with
    | zero => rfl
    | succ e =>
      have hc : ¬ base < endp := by push_cast at h; omega
      simp [rot90ccw_cols, hc]
  | succ f ih =>
    intro m base endp dst width height h extra
    have e : f + 1 + extra = (f + extra) + 1 := by omega
    rw [e]
    simp only [rot90ccw_cols]
    by_cases hc : base < endp
    · rw [if_pos hc, if_pos hc]
      apply ih
      push_cast at h
      omega
    · rw [if_neg hc, if_neg hc]

/-- The outer loop of `rot90ccw` over `n` columns of an image `W` wide and `H` high. -/
theorem rot90ccw_cols_spec (W H : Nat) : ∀ (n : Nat) (m : Mem) (base endp dst : Int),
    endp = base + (n : Int) →
    (∀ c j : Nat, c < n → j < H →
      base + (c : Int) - (j : Int) * (W : Int) ≤ dst - (n : Int) * (H : Int) ∨
      dst < base + (c : Int) - (j : Int) * (W : Int)) →
    (∀ c j : Nat, c < n → j < H →
      rot90ccw_cols n m base endp dst (W : Int) (H : Int)
          (dst - (c : Int) * (H : Int) - (j : Int))
        = m (base + (c : Int) - (j : Int) * (W : Int))) ∧
    (∀ a : Int, a ≤ dst - (n : Int) * (H : Int) ∨ dst < a →
      rot90ccw_cols n m base endp dst (W : Int) (H : Int) a = m a) := by
  intro n
  induction n with
  | zero =>
    intro m base endp dst _ _
    exact ⟨fun c j hc _ => absurd hc (Nat.not_lt_zero c), fun a _ => rfl⟩
  | succ n ih =>
    intro m base endp dst he hr
    have hnH : (0 : Int) ≤ (n : Int) * (H : Int) := by positivity
    have eS : ((n + 1 : Nat) : Int) * (H : Int) = (n : Int) * (H : Int) + (H : Int) := by
      push_cast; ring
    have hlt : base < endp := by push_cast at he; omega
    have hcol : ∀ i : Nat, i < H →
        base - (i : Int) * (W : Int) ≤ dst - (H : Int) ∨ dst < base - (i : Int) * (W : Int) := by
      intro i hi
      have h := hr 0 i (by omega) hi
      rw [eS] at h
      push_cast at h
      omega
    obtain ⟨c1, c2⟩ := rot90ccw_col_spec H m base dst (W : Int) hcol
    have hr1 : ∀ c j : Nat, c < n → j < H →
        (base + 1) + (c : Int) - (j : Int) * (W : Int) ≤
          (dst - (H : Int)) - (n : Int) * (H : Int) ∨
        dst - (H : Int) < (base + 1) + (c : Int) - (j : Int) * (W : Int) := by
      intro c j hc hj
      have h := hr (c + 1) j (by omega) hj
      rw [eS] at h
      push_cast at h
      omega
    obtain ⟨ih1, ih2⟩ := ih (rot90ccw_col H m base dst (W : Int)).1 (base + 1) endp
      (dst - (H : Int)) (by push_cast at he; omega) hr1
    have unf : ∀ a : Int, rot90ccw_cols (n + 1) m base endp dst (W : Int) (H : Int) a =
        rot90ccw_cols n (rot90ccw_col H m base dst (W : Int)).1 (base + 1) endp
          (dst - (H : Int)) (W : Int) (H : Int) a := by
      intro a
      simp only [rot90ccw_cols, if_pos hlt, Int.toNat_ofNat, rot90ccw_col_snd]
    constructor
    · intro c j hc hj
      rw [unf]
      cases c with
      | zero =>
        have e : dst - ((0 : Nat) : Int) * (H : Int) - (j : Int) = dst - (j : Int) := by simp
        rw [e, ih2 _ (Or.inr (by omega)), c1 j hj]
        simp
      | succ c =>
        have e : dst - ((c + 1 : Nat) : Int) * (H : Int) - (j : Int) =
            (dst - (H : Int)) - (c : Int) * (H : Int) - (j : Int) := by push_cast; ring
        have e2 : base + ((c + 1 : Nat) : Int) - (j : Int) * (W : Int) =
            (base + 1) + (c : Int) - (j : Int) * (W : Int) := by push_cast; ring
        rw [e, e2, ih1 c j (by omega) hj]
        apply c2
        have h := hr (c + 1) j (by omega) hj
        rw [eS, e2] at h
        omega
    · intro a ha
      rw [unf, ih2 a (by rw [eS] at ha; omega)]
      apply c2
      rw [eS] at ha
      omega

/-- Effect of `rot90ccw` in coordinates: the byte that `rot90cw` would put at index
`c * H + j` is put at index `W * H - 1 - (c * H + j)`. -/
theorem rot90ccw_coord (m : Mem) (src dst : Int) (W H : Nat)
    (hd : dst + (W : Int) * (H : Int) ≤ src ∨ src + (W : Int) * (H : Int) ≤ dst) :
    (∀ c j : Nat, c < W → j < H →
      rot90ccw m src dst ((W : Int) * (H : Int)) (W : Int) (H : Int)
          (dst + (W : Int) * (H : Int) - 1 - (c : Int) * (H : Int) - (j : Int))
        = m (src + ((H : Int) - 1 - (j : Int)) * (W : Int) + (c : Int))) ∧
    (∀ a : Int, a < dst ∨ dst + (W : Int) * (H : Int) ≤ a →
      rot90ccw m src dst ((W : Int) * (H : Int)) (W : Int) (H : Int) a = m a) := by
  have hr : ∀ c j : Nat, c < W → j < H →
      (src + (W : Int) * (H : Int) - (W : Int)) + (c : Int) - (j : Int) * (W : Int) ≤
        (dst + (W : Int) * (H : Int) - 1) - (W : Int) * (H : Int) ∨
      dst + (W : Int) * (H : Int) - 1 <
        (src + (W : Int) * (H : Int) - (W : Int)) + (c : Int) - (j : Int) * (W : Int) := by
    intro c j hc hj
    have h1 : (j + 1) * W ≤ H * W := Nat.mul_le_mul_right W (by omega)
    have h2 : ((j : Int) + 1) * (W : Int) ≤ (H : Int) * (W : Int) := by exact_mod_cast h1
    have e1 : ((j : Int) + 1) * (W : Int) = (j : Int) * (W : Int) + (W : Int) := by ring
    have e2 : (H : Int) * (W : Int) = (W : Int) * (H : Int) := by ring
    rw [e1, e2] at h2
    have h3 : (0 : Int) ≤ (j : Int) * (W : Int) := by positivity
    omega
  obtain ⟨s1, s2⟩ := rot90ccw_cols_spec W H W m (src + (W : Int) * (H : Int) - (W : Int))
    (src + (W : Int) * (H : Int)) (dst + (W : Int) * (H : Int) - 1) (by ring) hr
  unfold rot90ccw
  simp only [Int.toNat_ofNat]
  constructor
  · intro c j hc hj
    rw [s1 c j hc hj]
    congr 1
    ring
  · intro a ha
    exact s2 a (by omega)

/-- Effect of `rot90ccw` by destination index. -/
theorem rot90ccw_spec (m : Mem) (src dst : Int) (W H : Nat)
    (hd : dst + (W : Int) * (H : Int) ≤ src ∨ src + (W : Int) * (H : Int) ≤ dst) :
    (∀ k : Nat, k < W * H →
      rot90ccw m src dst ((W : Int) * (H : Int)) (W : Int) (H : Int) (dst + (k : Int))
        = m (src + (cwIdx W H (W * H - 1 - k) : Nat))) ∧
    (∀ a : Int, a < dst ∨ dst + (W : Int) * (H : Int) ≤ a →
      rot90ccw m src dst ((W : Int) * (H : Int)) (W : Int) (H : Int) a = m a) := by
  obtain ⟨s1, s2⟩ := rot90ccw_coord m src dst W H hd
  refine ⟨?_, s2⟩
  intro k hk
  have hH : 0 < H := by
    rcases Nat.eq_zero_or_pos H with h | h
    · subst h; simp at hk
    · exact h
  have hk' : W * H - 1 - k < W * H := by omega
  have h1 : (W * H - 1 - k) / H < W := Nat.div_lt_of_lt_mul (by rw [Nat.mul_comm H W]; exact hk')
  have h2 : (W * H - 1 - k) % H < H := Nat.mod_lt _ hH
  have e0 := Nat.div_add_mod' (W * H - 1 - k) H
  have e : (((W * H - 1 - k : Nat)) : Int) =
      (((W * H - 1 - k) / H : Nat) : Int) * (H : Int) + (((W * H - 1 - k) % H : Nat) : Int) := by
    exact_mod_cast e0.symm
  have e5 : (((W * H - 1 - k : Nat)) : Int) = (W : Int) * (H : Int) - 1 - (k : Int) := by
    have : ((W * H : Nat) : Int) = (W : Int) * (H : Int) := by push_cast; ring
    omega
  have e3 : dst + (k : Int) = dst + (W : Int) * (H : Int) - 1
      - (((W * H - 1 - k) / H : Nat) : Int) * (H : Int)
      - (((W * H - 1 - k) % H : Nat) : Int) := by
    omega
  rw [e3, s1 _ _ h1 h2]
  congr 1
  unfold cwIdx
  have e4 : ((H - 1 - (W * H - 1 - k) % H : Nat) : Int) =
      (H : Int) - 1 - (((W * H - 1 - k) % H : Nat) : Int) := by omega
  rw [Nat.cast_add, Nat.cast_mul, e4]
  ring

/-! ## The fuel handed to the pointer loops is enough -/

/-- The outer loop of `rot90cw` ends by its own test: more fuel than `width.toNat`
gives the same memory. -/
theorem rot90cw_fuel (m : Mem) (src dst size width height : Int) (extra : Nat) :
    rot90cw_cols (width.toNat + extra) m (src + size - width) (src + size) dst width height =
      rot90cw m src dst size width height := by
  unfold rot90cw
  apply rot90cw_cols_fuel
  omega

/-- The outer loop of `rot90ccw` ends by its own test: more fuel than `width.toNat`
gives the same memory. -/
theorem rot90ccw_fuel (m : Mem) (src dst size width height : Int) (extra : Nat) :
    rot90ccw_cols (width.toNat + extra) m (src + size - width) (src + size) (dst + size - 1)
        width height =
      rot90ccw m src dst size width height := by
  unfold rot90ccw
  apply rot90ccw_cols_fuel
  omega

/-- The inner loop of `flip_inplace_vertical` ends by its own test when the fuel covers
half the distance between the cursors; `width.toNat` does, as the cursors start
`width - 1` apart. -/
theorem flip_v_row_fuel : ∀ (fuel : Nat) (m : Mem) (nsrc ndst : Int),
    ndst - nsrc ≤ 2 * (fuel : Int) → ∀ extra : Nat,
      flip_v_row (fuel + extra) m nsrc ndst = flip_v_row fuel m nsrc ndst := by
  intro fuel
  induction fuel with
  | zero =>
    intro m nsrc ndst h extra
    cases extra with
    | zero => rfl
    | succ e =>
      have hc : ¬ nsrc < ndst := by omega
      simp [flip_v_row, hc]
  | succ f ih =>
    intro m nsrc ndst h extra
    have e : f + 1 + extra = (f + extra) + 1 := by omega
    rw [e]
    simp only [flip_v_row]
    by_cases hc : nsrc < ndst
    · rw [if_pos hc, if_pos hc]
      apply ih
      push_cast at h
      omega
    · rw [if_neg hc, if_neg hc]

theorem flip_v_row_width_fuel (m : Mem) (nsrc width : Int) (extra : Nat) :
    flip_v_row (width.toNat + extra) m nsrc (nsrc + width - 1) =
      flip_v_row width.toNat m nsrc (nsrc + width - 1) := by
  apply flip_v_row_fuel
  omega

/-! ## The quarter turns are inverse to each other, on indices -/

theorem div_mod_coord (W k : Nat) (H : Nat) (hk : k < W * H) :
    k / W < H ∧ k % W < W ∧ k = k / W * W + k % W := by
  have hW : 0 < W := by
    rcases Nat.eq_zero_or_pos W with h | h
    · subst h; simp at hk
    · exact h
  exact ⟨Nat.div_lt_of_lt_mul hk, Nat.mod_lt k hW, (Nat.div_add_mod' k W).symm⟩

/-- The index map of a clockwise turn of a `W` by `H` plane, after the index map
of a counterclockwise turn of the turned (`H` by `W`) plane, is the identity. -/
theorem cwIdx_ccw (W H k : Nat) (hk : k < W * H) :
    cwIdx W H (cwIdx H W (H * W - 1 - k)) = k := by
  obtain ⟨hr, hc, hkk⟩ := div_mod_coord W k H hk
  generalize k / W = r at hr hkk
  generalize k % W = c at hc hkk
  subst hkk
  have hH : H = (H - 1 - r) + (r + 1) := by omega
  have e0 : H * W = (H - 1 - r) * W + (r * W + W) := by
    conv_lhs => rw [hH]
    ring
  have e1 : H * W - 1 - (r * W + c) = (H - 1 - r) * W + (W - 1 - c) := by omega
  rw [e1, cwIdx_coord H W (H - 1 - r) (W - 1 - c) (by omega)]
  have e2 : W - 1 - (W - 1 - c) = c := by omega
  rw [e2, cwIdx_coord W H c (H - 1 - r) (by omega)]
  have e3 : H - 1 - (H - 1 - r) = r := by omega
  rw [e3]

/-! ## `flip_inplace_horizontal`: the loops -/

theorem row_le (W r1 r2 : Nat) (h : r1 ≤ r2) : (r1 : Int) * (W : Int) ≤ (r2 : Int) * (W : Int) := by
  exact_mod_cast Nat.mul_le_mul_right W h

theorem row_lt (W r1 r2 c : Nat) (h : r1 < r2) (hc : c < W) :
    (r1 : Int) * (W : Int) + (c : Int) < (r2 : Int) * (W : Int) :=
  idx_lt_int r1 c r2 W h hc

theorem row_next (W r : Nat) : ((r + 1 : Nat) : Int) * (W : Int) = (r : Int) * (W : Int) + (W : Int) := by
  push_cast
  ring

/-- The inner loop of `flip_inplace_horizontal` swaps two runs of `n` bytes that do not
overlap. -/
theorem flip_h_row_spec : ∀ (n : Nat) (m : Mem) (p q : Int),
    (p + (n : Int) ≤ q ∨ q + (n : Int) ≤ p) → ∀ a : Int,
      flip_h_row n m p q a =
        if p ≤ a ∧ a < p + (n : Int) then m (q + (a - p))
        else if q ≤ a ∧ a < q + (n : Int) then m (p + (a - q))
        else m a := by
  intro n
  induction n with
  | zero =>
    intro m p q _ a
    have h1 : ¬ (p ≤ a ∧ a < p + ((0 : Nat) : Int)) := by omega
    have h2 : ¬ (q ≤ a ∧ a < q + ((0 : Nat) : Int)) := by omega
    rw [if_neg h1, if_neg h2]
    rfl
  | succ n ih =>
    intro m p q hd a
    simp only [flip_h_row]
    rw [ih _ (p + 1) (q + 1) (by push_cast at hd; omega) a]
    simp only [store_apply]
    push_cast at hd ⊢
    split_ifs <;> first | rfl | omega | (congr 1; omega)

/-- The outer loop of `flip_inplace_horizontal`, started at row `l` with `n` row pairs
to go, on a plane `W` wide and `H` high: rows `l .. l + n - 1` trade places with rows
`H - 1 - l .. H - l - n`, everything else is left alone. -/
theorem flip_h_rows_spec (W H : Nat) (src : Int) : ∀ (n : Nat) (m : Mem) (l : Nat),
    2 * (l + n) ≤ H →
    (∀ r c : Nat, c < W → (l ≤ r ∧ r < l + n ∨ H - (l + n) ≤ r ∧ r < H - l) →
      flip_h_rows n m src (W : Int) (H : Int) (l : Int) (src + (r : Int) * (W : Int) + (c : Int))
        = m (src + ((H - 1 - r : Nat) : Int) * (W : Int) + (c : Int))) ∧
    (∀ a : Int,
      (a < src + (l : Int) * (W : Int) ∨ src + ((l + n : Nat) : Int) * (W : Int) ≤ a) →
      (a < src + ((H - (l + n) : Nat) : Int) * (W : Int) ∨
        src + ((H - l : Nat) : Int) * (W : Int) ≤ a) →
      flip_h_rows n m src (W : Int) (H : Int) (l : Int) a = m a) := by
  intro n
  induction n with
  | zero =>
    intro m l _
    refine ⟨?_, fun a _ _ => rfl⟩
    intro r c _ hr
    omega
  | succ n ih =>
    intro m l hl
    -- the two rows of this iteration
    have eQ : src + (W : Int) * ((H : Int) - (l : Int) - 1) =
        src + ((H - 1 - l : Nat) : Int) * (W : Int) := by
      have e : ((H - 1 - l : Nat) : Int) = (H : Int) - 1 - (l : Int) := by omega
      rw [e]
      ring
    have hPQ : (src + (l : Int) * (W : Int)) + (W : Int) ≤
        src + ((H - 1 - l : Nat) : Int) * (W : Int) := by
      have h := row_le W (l + 1) (H - 1 - l) (by omega)
      rw [row_next] at h
      omega
    have row := flip_h_row_spec W m (src + (l : Int) * (W : Int))
      (src + ((H - 1 - l : Nat) : Int) * (W : Int)) (Or.inl hPQ)
    obtain ⟨ih1, ih2⟩ := ih
      (flip_h_row W m (src + (l : Int) * (W : Int)) (src + ((H - 1 - l : Nat) : Int) * (W : Int)))
      (l + 1) (by omega)
    have unf : ∀ a : Int, flip_h_rows (n + 1) m src (W : Int) (H : Int) (l : Int) a =
        flip_h_rows n
          (flip_h_row W m (src + (l : Int) * (W : Int))
            (src + ((H - 1 - l : Nat) : Int) * (W : Int)))
          src (W : Int) (H : Int) ((l + 1 : Nat) : Int) a := by
      intro a
      simp only [flip_h_rows, Int.toNat_ofNat, eQ]
      push_cast
      rfl
    have eH1 : ((H - 1 - l + 1 : Nat) : Int) * (W : Int) =
        ((H - 1 - l : Nat) : Int) * (W : Int) + (W : Int) := row_next W (H - 1 - l)
    have eHl : H - l = H - 1 - l + 1 := by omega
    have eHn : H - (l + 1 + n) = H - (l + (n + 1)) := by omega
    have eln : l + 1 + n = l + (n + 1) := by omega
    constructor
    · intro r c hc hr
      rw [unf]
      by_cases h1 : r = l
      · subst h1
        have a1 := row_lt W r (r + 1) c (by omega) hc
        have a2 := row_lt W r (H - (r + 1 + n)) c (by omega) hc
        rw [ih2 _ (Or.inl (by omega)) (Or.inl (by omega)), row]
        have c0 : (0 : Int) ≤ (c : Int) := by positivity
        rw [if_pos (by omega)]
        congr 1
        omega
      · by_cases h2 : r = H - 1 - l
        · subst h2
          have a1 := row_le W (l + 1 + n) (H - 1 - l) (by omega)
          have a2 := row_le W (H - (l + 1)) (H - 1 - l) (by omega)
          have c0 : (0 : Int) ≤ (c : Int) := by positivity
          rw [ih2 _ (Or.inr (by omega)) (Or.inr (by omega)), row]
          have e3 : H - 1 - (H - 1 - l) = l := by omega
          rw [if_neg (by omega), if_pos (by omega), e3]
          congr 1
          omega
        · rw [ih1 r c hc (by omega), row]
          have c0 : (0 : Int) ≤ (c : Int) := by positivity
          have b1 : ¬ (src + (l : Int) * (W : Int) ≤
                src + ((H - 1 - r : Nat) : Int) * (W : Int) + (c : Int) ∧
              src + ((H - 1 - r : Nat) : Int) * (W : Int) + (c : Int) <
                src + (l : Int) * (W : Int) + (W : Int)) := by
            have t := row_le W (l + 1) (H - 1 - r) (by omega)
            rw [row_next] at t
            omega
          have b2 : ¬ (src + ((H - 1 - l : Nat) : Int) * (W : Int) ≤
                src + ((H - 1 - r : Nat) : Int) * (W : Int) + (c : Int) ∧
              src + ((H - 1 - r : Nat) : Int) * (W : Int) + (c : Int) <
                src + ((H - 1 - l : Nat) : Int) * (W : Int) + (W : Int)) := by
            have t := row_lt W (H - 1 - r) (H - 1 - l) c (by omega) hc
            omega
          rw [if_neg b1, if_neg b2]
    · intro a ha hb
      rw [unf]
      have t1 := row_le W l (l + 1) (by omega)
      have t2 := row_le W (H - (l + (n + 1))) (H - 1 - l) (by omega)
      have t3 := row_le W (l + 1) (l + (n + 1)) (by omega)
      rw [eHl, eH1] at hb
      rw [row_next] at t3
      have g1 : a < src + ((l + 1 : Nat) : Int) * (W : Int) ∨
          src + ((l + 1 + n : Nat) : Int) * (W : Int) ≤ a := by
        rw [eln]
        omega
      have g2 : a < src + ((H - (l + 1 + n) : Nat) : Int) * (W : Int) ∨
          src + ((H - (l + 1) : Nat) : Int) * (W : Int) ≤ a := by
        have e5 : H - (l + 1) = H - 1 - l := by omega
        rw [eHn, e5]
        omega
      rw [ih2 a g1 g2, row, if_neg (by omega), if_neg (by omega)]

/-! ## `flip_inplace_vertical`: the loops -/

/-- The inner loop of `flip_inplace_vertical` on the `2 * k + g` bytes from `nsrc` to
`ndst`, `g` being 0 or 1: the run is reversed (a middle byte stays), the rest of memory
is left alone. -/
theorem flip_v_row_spec (g : Int) (hg0 : 0 ≤ g) (hg : g ≤ 1) (k : Nat) :
    ∀ (fuel : Nat) (m : Mem) (nsrc ndst : Int),
    ndst + 1 = nsrc + 2 * (k : Int) + g → k ≤ fuel → ∀ a : Int,
      flip_v_row fuel m nsrc ndst a =
        if nsrc ≤ a ∧ a ≤ ndst then m (nsrc + ndst - a) else m a := by
  induction k with
  | zero =>
    intro fuel m nsrc ndst h _ a
    have hc : ¬ nsrc < ndst := by omega
    have e : flip_v_row fuel m nsrc ndst = m := by
      cases fuel with
      | zero => rfl
      | succ f => simp [flip_v_row, hc]
    rw [e]
    split_ifs <;> first | rfl | (congr 1; omega)
  | succ k ih =>
    intro fuel m nsrc ndst h hf a
    cases fuel with
    | zero => omega
    | succ f =>
      have hc : nsrc < ndst := by push_cast at h; omega
      simp only [flip_v_row]
      rw [if_pos hc, ih f _ (nsrc + 1) (ndst - 1) (by push_cast at h; omega) (by omega) a]
      simp only [store_apply]
      split_ifs <;> first | rfl | omega | (congr 1; omega)

/-- One row of `flip_inplace_vertical`: the `W` bytes at `p` are reversed. -/
theorem flip_v_row_width (m : Mem) (p : Int) (W : Nat) (a : Int) :
    flip_v_row W m p (p + (W : Int) - 1) a =
      if p ≤ a ∧ a < p + (W : Int) then m (p + (p + (W : Int) - 1) - a) else m a := by
  have hg : (W : Int) - 2 * ((W / 2 : Nat) : Int) = 0 ∨
      (W : Int) - 2 * ((W / 2 : Nat) : Int) = 1 := by omega
  rw [flip_v_row_spec ((W : Int) - 2 * ((W / 2 : Nat) : Int)) (by omega) (by omega) (W / 2)
    W m p (p + (W : Int) - 1) (by omega) (by omega) a]
  split_ifs <;> first | rfl | omega

/-- The outer loop of `flip_inplace_vertical`, started at row `l` with `n` rows to go,
on a plane `W` wide: each of the rows `l .. l + n - 1` is reversed, everything else is
left alone. -/
theorem flip_v_rows_spec (W : Nat) (src : Int) : ∀ (n : Nat) (m : Mem) (l : Nat),
    (∀ r c : Nat, c < W → l ≤ r → r < l + n →
      flip_v_rows n m src (W : Int) (l : Int) (src + (r : Int) * (W : Int) + (c : Int))
        = m (src + (r : Int) * (W : Int) + ((W - 1 - c : Nat) : Int))) ∧
    (∀ a : Int,
      (a < src + (l : Int) * (W : Int) ∨ src + ((l + n : Nat) : Int) * (W : Int) ≤ a) →
      flip_v_rows n m src (W : Int) (l : Int) a = m a) := by
  intro n
  induction n with
  | zero =>
    intro m l
    refine ⟨?_, fun a _ => rfl⟩
    intro r c _ h1 h2
    omega
  | succ n ih =>
    intro m l
    have row := flip_v_row_width m (src + (l : Int) * (W : Int)) W
    obtain ⟨ih1, ih2⟩ := ih
      (flip_v_row W m (src + (l : Int) * (W : Int)) (src + (l : Int) * (W : Int) + (W : Int) - 1))
      (l + 1)
    have unf : ∀ a : Int, flip_v_rows (n + 1) m src (W : Int) (l : Int) a =
        flip_v_rows n
          (flip_v_row W m (src + (l : Int) * (W : Int))
            (src + (l : Int) * (W : Int) + (W : Int) - 1))
          src (W : Int) ((l + 1 : Nat) : Int) a := by
      intro a
      simp only [flip_v_rows, Int.toNat_ofNat]
      push_cast
      rfl
    have eln : l + 1 + n = l + (n + 1) := by omega
    have nx := row_next W l
    constructor
    · intro r c hc h1 h2
      rw [unf]
      have c0 : (0 : Int) ≤ (c : Int) := by positivity
      have ec : ((W - 1 - c : Nat) : Int) = (W : Int) - 1 - (c : Int) := by omega
      by_cases hr : r = l
      · subst hr
        rw [ih2 _ (Or.inl (by omega)), row, if_pos (by omega)]
        congr 1
        omega
      · rw [ih1 r c hc (by omega) (by omega), row]
        have t := row_le W (l + 1) r (by omega)
        rw [if_neg (by omega)]
    · intro a ha
      rw [unf]
      have t := row_le W (l + 1) (l + (n + 1)) (by omega)
      rw [ih2 a (by rw [eln]; omega), row, if_neg (by omega)]

/-- Effect of `flip_inplace_vertical` in coordinates: the byte at row `r`, column `c`
is the original byte at row `r`, column `W - 1 - c`. -/
theorem flip_inplace_vertical_coord (m : Mem) (src : Int) (W H : Nat) :
    (∀ r c : Nat, r < H → c < W →
      flip_inplace_vertical m src (W : Int) (H : Int) (src + (r : Int) * (W : Int) + (c : Int))
        = m (src + (r : Int) * (W : Int) + ((W - 1 - c : Nat) : Int))) ∧
    Unchanged (flip_inplace_vertical m src (W : Int) (H : Int)) m src ((W : Int) * (H : Int)) := by
  obtain ⟨s1, s2⟩ := flip_v_rows_spec W src H m 0
  have unf : ∀ a : Int, flip_inplace_vertical m src (W : Int) (H : Int) a =
      flip_v_rows H m src (W : Int) ((0 : Nat) : Int) a := by
    intro a
    unfold flip_inplace_vertical
    simp only [Int.toNat_ofNat]
    rfl
  constructor
  · intro r c hr hc
    rw [unf]
    exact s1 r c hc (by omega) (by omega)
  · intro a ha
    rw [unf]
    apply s2
    have e : ((0 + H : Nat) : Int) * (W : Int) = (W : Int) * (H : Int) := by push_cast; ring
    rw [e]
    simp only [Nat.cast_zero, zero_mul, add_zero]
    exact ha

/-! ## The primitives as rearrangements of a plane -/

theorem flip_inplace_horizontal_coord (m : Mem) (src : Int) (W H : Nat) :
    (∀ r c : Nat, r < H → c < W →
      flip_inplace_horizontal m src (W : Int) (H : Int) (src + (r : Int) * (W : Int) + (c : Int))
        = m (src + ((H - 1 - r : Nat) : Int) * (W : Int) + (c : Int))) ∧
    Unchanged (flip_inplace_horizontal m src (W : Int) (H : Int)) m src ((W : Int) * (H : Int)) := by
  have e : (Int.tdiv (H : Int) 2).toNat = H / 2 := by
    rw [Int.tdiv_eq_ediv (by omega) (by omega)]
    omega
  obtain ⟨s1, s2⟩ := flip_h_rows_spec W H src (H / 2) m 0 (by omega)
  have unf : ∀ a : Int, flip_inplace_horizontal m src (W : Int) (H : Int) a =
      flip_h_rows (H / 2) m src (W : Int) (H : Int) ((0 : Nat) : Int) a := by
    intro a
    unfold flip_inplace_horizontal
    rw [e]
    rfl
  have z : ((0 : Nat) : Int) * (W : Int) = 0 := by simp
  have eHW : (H : Int) * (W : Int) = (W : Int) * (H : Int) := by ring
  constructor
  · intro r c hr hc
    rw [unf]
    by_cases h : r < 0 + H / 2 ∨ H - (0 + H / 2) ≤ r
    · apply s1 r c hc
      omega
    · have hmid : H - 1 - r = r := by omega
      rw [hmid]
      apply s2
      · right
        have t := row_le W (0 + H / 2) r (by omega)
        have c0 : (0 : Int) ≤ (c : Int) := by positivity
        omega
      · left
        have t := row_lt W r (H - (0 + H / 2)) c (by omega) hc
        omega
  · intro a ha
    rw [unf]
    apply s2
    · rcases ha with ha | ha
      · left; omega
      · right
        have t := row_le W (0 + H / 2) H (by omega)
        omega
    · rcases ha with ha | ha
      · left
        have t : (0 : Int) ≤ ((H - (0 + H / 2) : Nat) : Int) * (W : Int) := by positivity
        omega
      · right
        have e2 : H - 0 = H := by omega
        rw [e2]
        omega

theorem hflipIdx_lt (W H k : Nat) (hk : k < W * H) : hflipIdx W H k < W * H := by
  obtain ⟨hr, hc, _⟩ := div_mod_coord W k H hk
  have h0 : H - 1 - k / W < H := by
    generalize k / W = r at hr
    omega
  have h := idx_lt (H - 1 - k / W) (k % W) H W h0 hc
  unfold hflipIdx
  rw [Nat.mul_comm W H]
  exact h

/-- `flip_inplace_horizontal` is the top/bottom mirror of the plane. -/
theorem flip_inplace_horizontal_spec (m : Mem) (src : Int) (W H : Nat) :
    CopyMap (flip_inplace_horizontal m src (W : Int) (H : Int)) m src src (W * H)
      (hflipIdx W H) ∧
    Unchanged (flip_inplace_horizontal m src (W : Int) (H : Int)) m src ((W : Int) * (H : Int)) := by
  obtain ⟨s1, s2⟩ := flip_inplace_horizontal_coord m src W H
  refine ⟨?_, s2⟩
  intro k hk
  obtain ⟨hr, hc, hkk⟩ := div_mod_coord W k H hk
  have e : src + (k : Int) = src + ((k / W : Nat) : Int) * (W : Int) + ((k % W : Nat) : Int) := by
    have : (k : Int) = ((k / W * W + k % W : Nat) : Int) := by rw [← hkk]
    rw [this]
    push_cast
    ring
  rw [e, s1 (k / W) (k % W) hr hc]
  congr 1
  unfold hflipIdx
  rw [Nat.cast_add, Nat.cast_mul]
  ring

theorem revIdx_lt (n k : Nat) (hk : k < n) : revIdx n k < n := by
  unfold revIdx
  omega

/-- `reverse_inplace_quad` on a region whose size is a multiple of 8 is the full
reversal of the region. -/
theorem reverse_inplace_quad_planes (m : Mem) (src : Int) (n : Nat) (h8 : 8 ∣ n) :
    CopyMap (reverse_inplace_quad m src (n : Int)) m src src n (revIdx n) ∧
    Unchanged (reverse_inplace_quad m src (n : Int)) m src (n : Int) := by
  have h8i : (8 : Int) ∣ (n : Int) := by exact_mod_cast h8
  constructor
  · intro k hk
    rw [reverse_inplace_quad_spec m src n (by omega) h8i, if_pos (by omega)]
    congr 1
    unfold revIdx
    omega
  · intro a ha
    rw [reverse_inplace_quad_spec m src n (by omega) h8i, if_neg (by omega)]

theorem ccwIdx_lt (W H k : Nat) (hk : k < W * H) : ccwIdx W H k < W * H := by
  unfold ccwIdx
  apply cwIdx_lt
  omega

/-- `rot90cw` as a rearrangement. -/
theorem rot90cw_planes (m : Mem) (src dst : Int) (W H : Nat)
    (hd : dst + (W : Int) * (H : Int) ≤ src ∨ src + (W : Int) * (H : Int) ≤ dst) :
    CopyMap (rot90cw m src dst ((W : Int) * (H : Int)) (W : Int) (H : Int)) m dst src (W * H)
      (cwIdx W H) ∧
    Unchanged (rot90cw m src dst ((W : Int) * (H : Int)) (W : Int) (H : Int)) m dst
      ((W : Int) * (H : Int)) :=
  rot90cw_spec m src dst W H hd

/-- `rot90ccw` as a rearrangement. -/
theorem rot90ccw_planes (m : Mem) (src dst : Int) (W H : Nat)
    (hd : dst + (W : Int) * (H : Int) ≤ src ∨ src + (W : Int) * (H : Int) ≤ dst) :
    CopyMap (rot90ccw m src dst ((W : Int) * (H : Int)) (W : Int) (H : Int)) m dst src (W * H)
      (ccwIdx W H) ∧
    Unchanged (rot90ccw m src dst ((W : Int) * (H : Int)) (W : Int) (H : Int)) m dst
      ((W : Int) * (H : Int)) :=
  rot90ccw_spec m src dst W H hd

/-! ## The left/right mirror as a rearrangement of a plane -/

theorem vflipIdx_lt (W H k : Nat) (hk : k < W * H) : vflipIdx W H k < W * H := by
  obtain ⟨hr, hc, _⟩ := div_mod_coord W k H hk
  have h := idx_lt (k / W) (W - 1 - k % W) H W hr (by omega)
  unfold vflipIdx
  rw [Nat.mul_comm W H]
  exact h

theorem vflipIdx_coord (W H r c : Nat) (hc : c < W) :
    vflipIdx W H (r * W + c) = r * W + (W - 1 - c) := by
  unfold vflipIdx
  have e1 : (r * W + c) % W = c := by
    rw [Nat.add_comm, Nat.add_mul_mod_self_right]
    exact Nat.mod_eq_of_lt hc
  have e2 : (r * W + c) / W = r := by
    rw [Nat.add_comm, Nat.add_mul_div_right _ _ (by omega : 0 < W), Nat.div_eq_of_lt hc]
    simp
  rw [e1, e2]

/-- `flip_inplace_vertical` is the left/right mirror of the plane. -/
theorem flip_inplace_vertical_spec (m : Mem) (src : Int) (W H : Nat) :
    CopyMap (flip_inplace_vertical m src (W : Int) (H : Int)) m src src (W * H)
      (vflipIdx W H) ∧
    Unchanged (flip_inplace_vertical m src (W : Int) (H : Int)) m src ((W : Int) * (H : Int)) := by
  obtain ⟨s1, s2⟩ := flip_inplace_vertical_coord m src W H
  refine ⟨?_, s2⟩
  intro k hk
  obtain ⟨hr, hc, hkk⟩ := div_mod_coord W k H hk
  have e : src + (k : Int) = src + ((k / W : Nat) : Int) * (W : Int) + ((k % W : Nat) : Int) := by
    have : (k : Int) = ((k / W * W + k % W : Nat) : Int) := by rw [← hkk]
    rw [this]
    push_cast
    ring
  rw [e, s1 (k / W) (k % W) hr hc]
  congr 1
  unfold vflipIdx
  rw [Nat.cast_add, Nat.cast_mul]
  ring


/-! ## Laws of the index maps -/

theorem hflipIdx_coord (W H r c : Nat) (hc : c < W) :
    hflipIdx W H (r * W + c) = (H - 1 - r) * W + c := by
  unfold hflipIdx
  have e1 : (r * W + c) % W = c := by
    rw [Nat.add_comm, Nat.add_mul_mod_self_right]
    exact Nat.mod_eq_of_lt hc
  have e2 : (r * W + c) / W = r := by
    rw [Nat.add_comm, Nat.add_mul_div_right _ _ (by omega : 0 < W), Nat.div_eq_of_lt hc]
    simp
  rw [e1, e2]

/-- The top/bottom mirror is its own inverse. -/
theorem hflipIdx_invol (W H k : Nat) (hk : k < W * H) : hflipIdx W H (hflipIdx W H k) = k := by
  obtain ⟨hr, hc, hkk⟩ := div_mod_coord W k H hk
  generalize k / W = r at hr hkk
  generalize k % W = c at hc hkk
  subst hkk
  rw [hflipIdx_coord W H r c hc, hflipIdx_coord W H (H - 1 - r) c hc]
  have e : H - 1 - (H - 1 - r) = r := by omega
  rw [e]

/-- The left/right mirror is its own inverse. -/
theorem vflipIdx_invol (W H k : Nat) (hk : k < W * H) : vflipIdx W H (vflipIdx W H k) = k := by
  obtain ⟨hr, hc, hkk⟩ := div_mod_coord W k H hk
  generalize k / W = r at hr hkk
  generalize k % W = c at hc hkk
  subst hkk
  rw [vflipIdx_coord W H r c hc, vflipIdx_coord W H r (W - 1 - c) (by omega)]
  have e : W - 1 - (W - 1 - c) = c := by omega
  rw [e]

theorem revIdx_invol (n k : Nat) (hk : k < n) : revIdx n (revIdx n k) = k := by
  unfold revIdx
  omega

theorem flipIdx_invol (axis : FLIP_TYPE) (W H k : Nat) (hk : k < W * H) :
    flipIdx axis W H (flipIdx axis W H k) = k := by
  cases axis
  · rfl
  · exact hflipIdx_invol W H k hk
  · exact vflipIdx_invol W H k hk

/-- The index map of a counterclockwise turn of the turned (`H` by `W`) plane, after
the index map of a clockwise turn of a `W` by `H` plane, is the identity. -/
theorem ccwIdx_cw (W H k : Nat) (hk : k < W * H) : ccwIdx H W (cwIdx W H k) = k := by
  have hk' : k < H * W := by rw [Nat.mul_comm]; exact hk
  obtain ⟨hc, hq, hkk⟩ := div_mod_coord H k W hk'
  generalize k / H = c at hc hkk
  generalize k % H = q at hq hkk
  subst hkk
  rw [cwIdx_coord W H c q hq]
  unfold ccwIdx
  have hH : H = (H - 1 - q) + (q + 1) := by omega
  have e0 : H * W = (H - 1 - q) * W + (q * W + W) := by
    conv_lhs => rw [hH]
    ring
  have e1 : H * W - 1 - ((H - 1 - q) * W + c) = q * W + (W - 1 - c) := by omega
  rw [e1, cwIdx_coord H W q (W - 1 - c) (by omega)]
  have e2 : W - 1 - (W - 1 - c) = c := by omega
  rw [e2]

/-- Two clockwise quarter turns are a half turn. -/
theorem cwIdx_cw (W H k : Nat) (hk : k < W * H) :
    cwIdx W H (cwIdx H W k) = revIdx (W * H) k := by
  obtain ⟨hr, hc, hkk⟩ := div_mod_coord W k H hk
  generalize k / W = r at hr hkk
  generalize k % W = c at hc hkk
  subst hkk
  rw [cwIdx_coord H W r c hc, cwIdx_coord W H (W - 1 - c) r hr]
  unfold revIdx
  have hH : H = (H - 1 - r) + (r + 1) := by omega
  have e0 : W * H = (H - 1 - r) * W + (r * W + W) := by
    rw [Nat.mul_comm W H]
    conv_lhs => rw [hH]
    ring
  omega

/-- A map with a left inverse on `[0, n)` is injective there. -/
theorem inj_of_left_inverse (n : Nat) (σ τ : Nat → Nat) (h : ∀ k, k < n → τ (σ k) = k)
    (j k : Nat) (hj : j < n) (hk : k < n) (e : σ j = σ k) : j = k := by
  rw [← h j hj, ← h k hk, e]

theorem flipIdx_inj (axis : FLIP_TYPE) (W H j k : Nat) (hj : j < W * H) (hk : k < W * H)
    (e : flipIdx axis W H j = flipIdx axis W H k) : j = k :=
  inj_of_left_inverse (W * H) _ _ (flipIdx_invol axis W H) j k hj hk e

theorem rotIdx_inj (degrees : Int) (W H j k : Nat) (hj : j < W * H) (hk : k < W * H)
    (e : rotIdx degrees W H j = rotIdx degrees W H k) : j = k := by
  unfold rotIdx at e
  split_ifs at e
  · exact inj_of_left_inverse (W * H) _ _ (ccwIdx_cw W H) j k hj hk e
  · exact inj_of_left_inverse (W * H) _ _ (revIdx_invol (W * H)) j k hj hk e
  · have h : ∀ k, k < W * H → cwIdx H W (ccwIdx W H k) = k := by
      intro k hk
      unfold ccwIdx
      exact cwIdx_ccw H W k (by rw [Nat.mul_comm]; exact hk)
    exact inj_of_left_inverse (W * H) _ _ h j k hj hk e
  · exact e

/-! ## Three planes in a row -/

/-- Rearrangements compose. -/
theorem copyMap_trans {out mid m : Mem} {p q r : Int} {n : Nat} {σ τ : Nat → Nat}
    (h1 : CopyMap out mid p q n σ) (h2 : CopyMap mid m q r n τ) (hσ : ∀ k, k < n → σ k < n) :
    CopyMap out m p r n (fun k => τ (σ k)) := by
  intro k hk
  rw [h1 k hk, h2 (σ k) (hσ k hk)]

/-- A rearrangement by the identity map leaves the bytes as they are. -/
theorem copyMap_of_id {out m : Mem} {p : Int} {n : Nat} {σ : Nat → Nat}
    (h : CopyMap out m p p n σ) (hσ : ∀ k, k < n → σ k = k) :
    ∀ i : Int, 0 ≤ i → i < (n : Int) → out (p + i) = m (p + i) := by
  intro i h0 h1
  obtain ⟨k, hk⟩ := Int.eq_ofNat_of_zero_le h0
  subst hk
  have hk : k < n := by omega
  rw [h k hk, hσ k hk]

/-- Three in-place operations, one on each of three consecutive planes. -/
theorem inplace3 (m a b c : Mem) (p : Int) (nY nU nV : Nat) (sY sU sV : Int)
    (σY σU σV : Nat → Nat) (eY : sY = (nY : Int)) (eU : sU = (nU : Int)) (eV : sV = (nV : Int))
    (hY : CopyMap a m p p nY σY) (fY : Unchanged a m p sY)
    (hU : CopyMap b a (p + sY) (p + sY) nU σU) (fU : Unchanged b a (p + sY) sU)
    (hV : CopyMap c b (p + sY + sU) (p + sY + sU) nV σV) (fV : Unchanged c b (p + sY + sU) sV)
    (bU : ∀ k, k < nU → σU k < nU) (bV : ∀ k, k < nV → σV k < nV) :
    CopyMap c m p p nY σY ∧ CopyMap c m (p + sY) (p + sY) nU σU ∧
    CopyMap c m (p + sY + sU) (p + sY + sU) nV σV ∧ Unchanged c m p (sY + sU + sV) := by
  subst eY eU eV
  refine ⟨?_, ?_, ?_, ?_⟩
  · intro k hk
    rw [fV _ (Or.inl (by omega)), fU _ (Or.inl (by omega)), hY k hk]
  · intro k hk
    have := bU k hk
    rw [fV _ (Or.inl (by omega)), hU k hk, fY _ (Or.inr (by omega))]
  · intro k hk
    have := bV k hk
    rw [hV k hk, fU _ (Or.inr (by omega)), fY _ (Or.inr (by omega))]
  · intro x hx
    rw [fV _ (by omega), fU _ (by omega), fY _ (by omega)]

/-- Three out-of-place operations, one from each of three consecutive planes at `img`
to the plane at the same offset of the scratch buffer at `tmp`, followed by the copy of
the scratch buffer back over the frame. -/
theorem quarter3 (m a b c : Mem) (img tmp : Int) (nY nU nV : Nat) (sY sU sV size : Int)
    (σY σU σV : Nat → Nat) (eY : sY = (nY : Int)) (eU : sU = (nU : Int)) (eV : sV = (nV : Int))
    (es : size = sY + sU + sV)
    (hY : CopyMap a m tmp img nY σY) (fY : Unchanged a m tmp sY)
    (hU : CopyMap b a (tmp + sY) (img + sY) nU σU) (fU : Unchanged b a (tmp + sY) sU)
    (hV : CopyMap c b (tmp + sY + sU) (img + sY + sU) nV σV)
    (fV : Unchanged c b (tmp + sY + sU) sV)
    (bY : ∀ k, k < nY → σY k < nY) (bU : ∀ k, k < nU → σU k < nU)
    (bV : ∀ k, k < nV → σV k < nV)
    (hd : img + size ≤ tmp ∨ tmp + size ≤ img) :
    CopyMap (memcpy c img tmp size) m img img nY σY ∧
    CopyMap (memcpy c img tmp size) m (img + sY) (img + sY) nU σU ∧
    CopyMap (memcpy c img tmp size) m (img + sY + sU) (img + sY + sU) nV σV ∧
    (∀ x : Int, x < img ∨ img + size ≤ x → x < tmp ∨ tmp + size ≤ x →
      memcpy c img tmp size x = m x) := by
  subst eY eU eV es
  refine ⟨?_, ?_, ?_, ?_⟩
  · intro k hk
    have := bY k hk
    rw [memcpy_in _ _ _ _ _ (by omega) (by omega)]
    have e : tmp + (img + (k : Int) - img) = tmp + (k : Int) := by omega
    rw [e, fV _ (Or.inl (by omega)), fU _ (Or.inl (by omega)), hY k hk]
  · intro k hk
    have := bU k hk
    rw [memcpy_in _ _ _ _ _ (by omega) (by omega)]
    have e : tmp + (img + (nY : Int) + (k : Int) - img) = tmp + (nY : Int) + (k : Int) := by omega
    rw [e, fV _ (Or.inl (by omega)), hU k hk, fY _ (by omega)]
  · intro k hk
    have := bV k hk
    rw [memcpy_in _ _ _ _ _ (by omega) (by omega)]
    have e : tmp + (img + (nY : Int) + (nU : Int) + (k : Int) - img) =
        tmp + (nY : Int) + (nU : Int) + (k : Int) := by omega
    rw [e, hV k hk, fU _ (by omega), fY _ (by omega)]
  · intro x hx hx2
    rw [memcpy_out _ _ _ _ _ (by omega), fV _ (by omega), fU _ (by omega), fY _ (by omega)]

/-! ## `rotate_img`: geometry of a frame with even dimensions -/

theorem geom_half (W2 : Nat) : Int.tdiv ((2 * W2 : Nat) : Int) 2 = (W2 : Int) := by
  rw [Int.tdiv_eq_ediv (by omega) (by omega)]
  omega

theorem geom_wh (W2 H2 : Nat) :
    ((2 * W2 : Nat) : Int) * ((2 * H2 : Nat) : Int) = 4 * ((W2 : Int) * (H2 : Int)) := by
  push_cast
  ring

theorem geom_wh4 (W2 H2 : Nat) :
    Int.tdiv (((2 * W2 : Nat) : Int) * ((2 * H2 : Nat) : Int)) 4 = (W2 : Int) * (H2 : Int) := by
  have h : (0 : Int) ≤ (W2 : Int) * (H2 : Int) := by positivity
  rw [geom_wh, Int.tdiv_eq_ediv (by omega) (by omega)]
  omega

theorem geom_size (W2 H2 : Nat) :
    Int.tdiv (((2 * W2 : Nat) : Int) * ((2 * H2 : Nat) : Int) * 3) 2 =
      ((2 * W2 : Nat) : Int) * ((2 * H2 : Nat) : Int) + (W2 : Int) * (H2 : Int)
        + (W2 : Int) * (H2 : Int) := by
  have h : (0 : Int) ≤ (W2 : Int) * (H2 : Int) := by positivity
  rw [geom_wh, Int.tdiv_eq_ediv (by omega) (by omega)]
  omega

/-! ## `rotate_img`: the branches -/

theorem rotate_img_90 (cnt : context) (m : Mem) (img width height : Int)
    (hdeg : cnt.rotate_data.degrees = 90) :
    rotate_img cnt m img width height =
      (1, memcpy
        (rot90cw
          (rot90cw
            (rot90cw
              (flip_planes cnt.rotate_data.axis
                (memset m cnt.imgs.common_buffer 255 cnt.imgs.common_buffer_size)
                img width height (width * height) (Int.tdiv (width * height) 4)
                (Int.tdiv width 2) (Int.tdiv height 2))
              img cnt.imgs.common_buffer (width * height) width height)
            (img + width * height) (cnt.imgs.common_buffer + width * height)
            (Int.tdiv (width * height) 4) (Int.tdiv width 2) (Int.tdiv height 2))
          (img + width * height + Int.tdiv (width * height) 4)
          (cnt.imgs.common_buffer + width * height + Int.tdiv (width * height) 4)
          (Int.tdiv (width * height) 4) (Int.tdiv width 2) (Int.tdiv height 2))
        img cnt.imgs.common_buffer (Int.tdiv (width * height * 3) 2)) := by
  simp [rotate_img, hdeg]

theorem rotate_img_270 (cnt : context) (m : Mem) (img width height : Int)
    (hdeg : cnt.rotate_data.degrees = 270) :
    rotate_img cnt m img width height =
      (1, memcpy
        (rot90ccw
          (rot90ccw
            (rot90ccw
              (flip_planes cnt.rotate_data.axis
                (memset m cnt.imgs.common_buffer 255 cnt.imgs.common_buffer_size)
                img width height (width * height) (Int.tdiv (width * height) 4)
                (Int.tdiv width 2) (Int.tdiv height 2))
              img cnt.imgs.common_buffer (width * height) width height)
            (img + width * height) (cnt.imgs.common_buffer + width * height)
            (Int.tdiv (width * height) 4) (Int.tdiv width 2) (Int.tdiv height 2))
          (img + width * height + Int.tdiv (width * height) 4)
          (cnt.imgs.common_buffer + width * height + Int.tdiv (width * height) 4)
          (Int.tdiv (width * height) 4) (Int.tdiv width 2) (Int.tdiv height 2))
        img cnt.imgs.common_buffer (Int.tdiv (width * height * 3) 2)) := by
  simp [rotate_img, hdeg]

theorem rotate_img_180 (cnt : context) (m : Mem) (img width height : Int)
    (hdeg : cnt.rotate_data.degrees = 180) :
    rotate_img cnt m img width height =
      (0, reverse_inplace_quad
          (reverse_inplace_quad
            (reverse_inplace_quad
              (flip_planes cnt.rotate_data.axis
                (memset m cnt.imgs.common_buffer 255 cnt.imgs.common_buffer_size)
                img width height (width * height) (Int.tdiv (width * height) 4)
                (Int.tdiv width 2) (Int.tdiv height 2))
              img (width * height))
            (img + width * height) (Int.tdiv (width * height) 4))
          (img + width * height + Int.tdiv (width * height) 4)
          (Int.tdiv (width * height) 4)) := by
  simp [rotate_img, hdeg]

/-! ## `rotate_img`: the stages on a whole frame -/

theorem frameMap_trans {out mid m : Mem} {img : Int} {W2 H2 : Nat}
    {σ τ : Nat → Nat → Nat → Nat}
    (h1 : FrameMap out mid img W2 H2 σ) (h2 : FrameMap mid m img W2 H2 τ)
    (hσ : ∀ W H k, k < W * H → σ W H k < W * H) :
    FrameMap out m img W2 H2 (fun W H k => τ W H (σ W H k)) :=
  ⟨copyMap_trans h1.1 h2.1 (hσ _ _), copyMap_trans h1.2.1 h2.2.1 (hσ _ _),
    copyMap_trans h1.2.2 h2.2.2 (hσ _ _)⟩

/-- A frame map does not depend on the source memory outside the frame. -/
theorem frameMap_congr_src {out m m0 : Mem} {img : Int} {W2 H2 : Nat}
    {σ : Nat → Nat → Nat → Nat} (h : FrameMap out m0 img W2 H2 σ)
    (hσ : ∀ W H k, k < W * H → σ W H k < W * H)
    (hm : ∀ a : Int, img ≤ a → a < img + frameSize W2 H2 → m0 a = m a) :
    FrameMap out m img W2 H2 σ := by
  have hP : (0 : Int) ≤ (W2 : Int) * (H2 : Int) := by positivity
  have hY : ((2 * W2 * (2 * H2) : Nat) : Int) = ((2 * W2 : Nat) : Int) * ((2 * H2 : Nat) : Int) := by
    push_cast; ring
  have hU : ((W2 * H2 : Nat) : Int) = (W2 : Int) * (H2 : Int) := by push_cast; ring
  obtain ⟨a1, a2, a3⟩ := h
  unfold frameSize at hm
  refine ⟨?_, ?_, ?_⟩
  · intro k hk
    have := hσ _ _ k hk
    rw [a1 k hk]
    apply hm <;> omega
  · intro k hk
    have := hσ _ _ k hk
    rw [a2 k hk]
    apply hm <;> omega
  · intro k hk
    have := hσ _ _ k hk
    rw [a3 k hk]
    apply hm <;> omega

/-- The flip stage for the horizontal axis: each plane is mirrored top to bottom. -/
theorem flip_planes_horizontal (m0 : Mem) (img : Int) (W2 H2 : Nat) :
    FrameMap
      (flip_planes FLIP_TYPE.FLIP_TYPE_HORIZONTAL m0 img ((2 * W2 : Nat) : Int)
        ((2 * H2 : Nat) : Int) (((2 * W2 : Nat) : Int) * ((2 * H2 : Nat) : Int))
        ((W2 : Int) * (H2 : Int)) (W2 : Int) (H2 : Int))
      m0 img W2 H2 hflipIdx ∧
    Unchanged
      (flip_planes FLIP_TYPE.FLIP_TYPE_HORIZONTAL m0 img ((2 * W2 : Nat) : Int)
        ((2 * H2 : Nat) : Int) (((2 * W2 : Nat) : Int) * ((2 * H2 : Nat) : Int))
        ((W2 : Int) * (H2 : Int)) (W2 : Int) (H2 : Int))
      m0 img (frameSize W2 H2) := by
  have sY := flip_inplace_horizontal_spec m0 img (2 * W2) (2 * H2)
  have sU := flip_inplace_horizontal_spec
    (flip_inplace_horizontal m0 img ((2 * W2 : Nat) : Int) ((2 * H2 : Nat) : Int))
    (img + ((2 * W2 : Nat) : Int) * ((2 * H2 : Nat) : Int)) W2 H2
  have sV := flip_inplace_horizontal_spec
    (flip_inplace_horizontal
      (flip_inplace_horizontal m0 img ((2 * W2 : Nat) : Int) ((2 * H2 : Nat) : Int))
      (img + ((2 * W2 : Nat) : Int) * ((2 * H2 : Nat) : Int)) (W2 : Int) (H2 : Int))
    (img + ((2 * W2 : Nat) : Int) * ((2 * H2 : Nat) : Int) + (W2 : Int) * (H2 : Int)) W2 H2
  obtain ⟨r1, r2, r3, r4⟩ := inplace3 m0 _ _ _ img (2 * W2 * (2 * H2)) (W2 * H2) (W2 * H2)
    (((2 * W2 : Nat) : Int) * ((2 * H2 : Nat) : Int)) ((W2 : Int) * (H2 : Int))
    ((W2 : Int) * (H2 : Int)) _ _ _ (by push_cast; ring) (by push_cast; ring)
    (by push_cast; ring) sY.1 sY.2 sU.1 sU.2 sV.1 sV.2
    (hflipIdx_lt W2 H2) (hflipIdx_lt W2 H2)
  exact ⟨⟨r1, r2, r3⟩, r4⟩

/-- The quarter-turn stage at 90 degrees: each plane is turned clockwise. -/
theorem quarter_cw_stage (m1 : Mem) (img tmp : Int) (W2 H2 : Nat)
    (hd : img + frameSize W2 H2 ≤ tmp ∨ tmp + frameSize W2 H2 ≤ img) :
    FrameMap
      (memcpy
        (rot90cw
          (rot90cw
            (rot90cw m1 img tmp (((2 * W2 : Nat) : Int) * ((2 * H2 : Nat) : Int))
              ((2 * W2 : Nat) : Int) ((2 * H2 : Nat) : Int))
            (img + ((2 * W2 : Nat) : Int) * ((2 * H2 : Nat) : Int))
            (tmp + ((2 * W2 : Nat) : Int) * ((2 * H2 : Nat) : Int))
            ((W2 : Int) * (H2 : Int)) (W2 : Int) (H2 : Int))
          (img + ((2 * W2 : Nat) : Int) * ((2 * H2 : Nat) : Int) + (W2 : Int) * (H2 : Int))
          (tmp + ((2 * W2 : Nat) : Int) * ((2 * H2 : Nat) : Int) + (W2 : Int) * (H2 : Int))
          ((W2 : Int) * (H2 : Int)) (W2 : Int) (H2 : Int))
        img tmp (frameSize W2 H2))
      m1 img W2 H2 cwIdx := by
  have hP : (0 : Int) ≤ (W2 : Int) * (H2 : Int) := by positivity
  have hQ : (0 : Int) ≤ ((2 * W2 : Nat) : Int) * ((2 * H2 : Nat) : Int) := by positivity
  unfold frameSize at hd
  have sY := rot90cw_planes m1 img tmp (2 * W2) (2 * H2) (by omega)
  have sU := rot90cw_planes
    (rot90cw m1 img tmp (((2 * W2 : Nat) : Int) * ((2 * H2 : Nat) : Int))
      ((2 * W2 : Nat) : Int) ((2 * H2 : Nat) : Int))
    (img + ((2 * W2 : Nat) : Int) * ((2 * H2 : Nat) : Int))
    (tmp + ((2 * W2 : Nat) : Int) * ((2 * H2 : Nat) : Int)) W2 H2 (by omega)
  have sV := rot90cw_planes
    (rot90cw
      (rot90cw m1 img tmp (((2 * W2 : Nat) : Int) * ((2 * H2 : Nat) : Int))
        ((2 * W2 : Nat) : Int) ((2 * H2 : Nat) : Int))
      (img + ((2 * W2 : Nat) : Int) * ((2 * H2 : Nat) : Int))
      (tmp + ((2 * W2 : Nat) : Int) * ((2 * H2 : Nat) : Int))
      ((W2 : Int) * (H2 : Int)) (W2 : Int) (H2 : Int))
    (img + ((2 * W2 : Nat) : Int) * ((2 * H2 : Nat) : Int) + (W2 : Int) * (H2 : Int))
    (tmp + ((2 * W2 : Nat) : Int) * ((2 * H2 : Nat) : Int) + (W2 : Int) * (H2 : Int))
    W2 H2 (by omega)
  obtain ⟨r1, r2, r3, _⟩ := quarter3 m1 _ _ _ img tmp (2 * W2 * (2 * H2)) (W2 * H2) (W2 * H2)
    (((2 * W2 : Nat) : Int) * ((2 * H2 : Nat) : Int)) ((W2 : Int) * (H2 : Int))
    ((W2 : Int) * (H2 : Int)) (frameSize W2 H2) _ _ _ (by push_cast; ring) (by push_cast; ring)
    (by push_cast; ring) rfl sY.1 sY.2 sU.1 sU.2 sV.1 sV.2
    (cwIdx_lt (2 * W2) (2 * H2)) (cwIdx_lt W2 H2) (cwIdx_lt W2 H2)
    (by unfold frameSize; omega)
  exact ⟨r1, r2, r3⟩

/-- The quarter-turn stage at 270 degrees: each plane is turned counterclockwise. -/
theorem quarter_ccw_stage (m1 : Mem) (img tmp : Int) (W2 H2 : Nat)
    (hd : img + frameSize W2 H2 ≤ tmp ∨ tmp + frameSize W2 H2 ≤ img) :
    FrameMap
      (memcpy
        (rot90ccw
          (rot90ccw
            (rot90ccw m1 img tmp (((2 * W2 : Nat) : Int) * ((2 * H2 : Nat) : Int))
              ((2 * W2 : Nat) : Int) ((2 * H2 : Nat) : Int))
            (img + ((2 * W2 : Nat) : Int) * ((2 * H2 : Nat) : Int))
            (tmp + ((2 * W2 : Nat) : Int) * ((2 * H2 : Nat) : Int))
            ((W2 : Int) * (H2 : Int)) (W2 : Int) (H2 : Int))
          (img + ((2 * W2 : Nat) : Int) * ((2 * H2 : Nat) : Int) + (W2 : Int) * (H2 : Int))
          (tmp + ((2 * W2 : Nat) : Int) * ((2 * H2 : Nat) : Int) + (W2 : Int) * (H2 : Int))
          ((W2 : Int) * (H2 : Int)) (W2 : Int) (H2 : Int))
        img tmp (frameSize W2 H2))
      m1 img W2 H2 ccwIdx := by
  have hP : (0 : Int) ≤ (W2 : Int) * (H2 : Int) := by positivity
  have hQ : (0 : Int) ≤ ((2 * W2 : Nat) : Int) * ((2 * H2 : Nat) : Int) := by positivity
  unfold frameSize at hd
  have sY := rot90ccw_planes m1 img tmp (2 * W2) (2 * H2) (by omega)
  have sU := rot90ccw_planes
    (rot90ccw m1 img tmp (((2 * W2 : Nat) : Int) * ((2 * H2 : Nat) : Int))
      ((2 * W2 : Nat) : Int) ((2 * H2 : Nat) : Int))
    (img + ((2 * W2 : Nat) : Int) * ((2 * H2 : Nat) : Int))
    (tmp + ((2 * W2 : Nat) : Int) * ((2 * H2 : Nat) : Int)) W2 H2 (by omega)
  have sV := rot90ccw_planes
    (rot90ccw
      (rot90ccw m1 img tmp (((2 * W2 : Nat) : Int) * ((2 * H2 : Nat) : Int))
        ((2 * W2 : Nat) : Int) ((2 * H2 : Nat) : Int))
      (img + ((2 * W2 : Nat) : Int) * ((2 * H2 : Nat) : Int))
      (tmp + ((2 * W2 : Nat) : Int) * ((2 * H2 : Nat) : Int))
      ((W2 : Int) * (H2 : Int)) (W2 : Int) (H2 : Int))
    (img + ((2 * W2 : Nat) : Int) * ((2 * H2 : Nat) : Int) + (W2 : Int) * (H2 : Int))
    (tmp + ((2 * W2 : Nat) : Int) * ((2 * H2 : Nat) : Int) + (W2 : Int) * (H2 : Int))
    W2 H2 (by omega)
  obtain ⟨r1, r2, r3, _⟩ := quarter3 m1 _ _ _ img tmp (2 * W2 * (2 * H2)) (W2 * H2) (W2 * H2)
    (((2 * W2 : Nat) : Int) * ((2 * H2 : Nat) : Int)) ((W2 : Int) * (H2 : Int))
    ((W2 : Int) * (H2 : Int)) (frameSize W2 H2) _ _ _ (by push_cast; ring) (by push_cast; ring)
    (by push_cast; ring) rfl sY.1 sY.2 sU.1 sU.2 sV.1 sV.2
    (ccwIdx_lt (2 * W2) (2 * H2)) (ccwIdx_lt W2 H2) (ccwIdx_lt W2 H2)
    (by unfold frameSize; omega)
  exact ⟨r1, r2, r3⟩

/-- The stage at 180 degrees: each plane is reversed, when the plane sizes are
multiples of 8. -/
theorem reverse_stage (m1 : Mem) (img : Int) (W2 H2 : Nat) (h8 : 8 ∣ W2 * H2) :
    FrameMap
      (reverse_inplace_quad
        (reverse_inplace_quad
          (reverse_inplace_quad m1 img (((2 * W2 : Nat) : Int) * ((2 * H2 : Nat) : Int)))
          (img + ((2 * W2 : Nat) : Int) * ((2 * H2 : Nat) : Int)) ((W2 : Int) * (H2 : Int)))
        (img + ((2 * W2 : Nat) : Int) * ((2 * H2 : Nat) : Int) + (W2 : Int) * (H2 : Int))
        ((W2 : Int) * (H2 : Int)))
      m1 img W2 H2 (fun W H k => revIdx (W * H) k) := by
  have h8Y : 8 ∣ 2 * W2 * (2 * H2) := by
    obtain ⟨t, ht⟩ := h8
    exact ⟨4 * t, by rw [show 2 * W2 * (2 * H2) = 4 * (W2 * H2) by ring, ht]; ring⟩
  have eY : (((2 * W2 : Nat) : Int) * ((2 * H2 : Nat) : Int)) = ((2 * W2 * (2 * H2) : Nat) : Int) := by
    push_cast; ring
  have eU : (W2 : Int) * (H2 : Int) = ((W2 * H2 : Nat) : Int) := by push_cast; ring
  rw [eY, eU]
  have sY := reverse_inplace_quad_planes m1 img (2 * W2 * (2 * H2)) h8Y
  have sU := reverse_inplace_quad_planes
    (reverse_inplace_quad m1 img ((2 * W2 * (2 * H2) : Nat) : Int))
    (img + ((2 * W2 * (2 * H2) : Nat) : Int)) (W2 * H2) h8
  have sV := reverse_inplace_quad_planes
    (reverse_inplace_quad
      (reverse_inplace_quad m1 img ((2 * W2 * (2 * H2) : Nat) : Int))
      (img + ((2 * W2 * (2 * H2) : Nat) : Int)) ((W2 * H2 : Nat) : Int))
    (img + ((2 * W2 * (2 * H2) : Nat) : Int) + ((W2 * H2 : Nat) : Int)) (W2 * H2) h8
  obtain ⟨r1, r2, r3, _⟩ := inplace3 m1 _ _ _ img (2 * W2 * (2 * H2)) (W2 * H2) (W2 * H2)
    ((2 * W2 * (2 * H2) : Nat) : Int) ((W2 * H2 : Nat) : Int) ((W2 * H2 : Nat) : Int)
    _ _ _ rfl rfl rfl sY.1 sY.2 sU.1 sU.2 sV.1 sV.2
    (revIdx_lt (W2 * H2)) (revIdx_lt (W2 * H2))
  unfold FrameMap
  rw [eY, eU]
  exact ⟨r1, r2, r3⟩

/-- The flip stage for the vertical axis: each plane is mirrored left to right. -/
theorem flip_planes_vertical (m0 : Mem) (img : Int) (W2 H2 : Nat) :
    FrameMap
      (flip_planes FLIP_TYPE.FLIP_TYPE_VERTICAL m0 img ((2 * W2 : Nat) : Int)
        ((2 * H2 : Nat) : Int) (((2 * W2 : Nat) : Int) * ((2 * H2 : Nat) : Int))
        ((W2 : Int) * (H2 : Int)) (W2 : Int) (H2 : Int))
      m0 img W2 H2 vflipIdx ∧
    Unchanged
      (flip_planes FLIP_TYPE.FLIP_TYPE_VERTICAL m0 img ((2 * W2 : Nat) : Int)
        ((2 * H2 : Nat) : Int) (((2 * W2 : Nat) : Int) * ((2 * H2 : Nat) : Int))
        ((W2 : Int) * (H2 : Int)) (W2 : Int) (H2 : Int))
      m0 img (frameSize W2 H2) := by
  have sY := flip_inplace_vertical_spec m0 img (2 * W2) (2 * H2)
  have sU := flip_inplace_vertical_spec
    (flip_inplace_vertical m0 img ((2 * W2 : Nat) : Int) ((2 * H2 : Nat) : Int))
    (img + ((2 * W2 : Nat) : Int) * ((2 * H2 : Nat) : Int)) W2 H2
  have sV := flip_inplace_vertical_spec
    (flip_inplace_vertical
      (flip_inplace_vertical m0 img ((2 * W2 : Nat) : Int) ((2 * H2 : Nat) : Int))
      (img + ((2 * W2 : Nat) : Int) * ((2 * H2 : Nat) : Int)) (W2 : Int) (H2 : Int))
    (img + ((2 * W2 : Nat) : Int) * ((2 * H2 : Nat) : Int) + (W2 : Int) * (H2 : Int)) W2 H2
  obtain ⟨r1, r2, r3, r4⟩ := inplace3 m0 _ _ _ img (2 * W2 * (2 * H2)) (W2 * H2) (W2 * H2)
    (((2 * W2 : Nat) : Int) * ((2 * H2 : Nat) : Int)) ((W2 : Int) * (H2 : Int))
    ((W2 : Int) * (H2 : Int)) _ _ _ (by push_cast; ring) (by push_cast; ring)
    (by push_cast; ring) sY.1 sY.2 sU.1 sU.2 sV.1 sV.2
    (vflipIdx_lt W2 H2) (vflipIdx_lt W2 H2)
  exact ⟨⟨r1, r2, r3⟩, r4⟩

/-! ## `rotate_img` on a whole frame -/

theorem dims_of_16 (x : Int) (h0 : 0 < x) (h16 : (16 : Int) ∣ x) :
    ∃ X2 : Nat, 0 < X2 ∧ 8 ∣ X2 ∧ x = ((2 * X2 : Nat) : Int) := by
  obtain ⟨t, ht⟩ := h16
  obtain ⟨A, hA⟩ := Int.eq_ofNat_of_zero_le (show 0 ≤ t by omega)
  subst hA
  exact ⟨8 * A, by omega, ⟨A, rfl⟩, by push_cast; omega⟩

theorem frameSize_eq (W2 H2 : Nat) :
    Int.tdiv (((2 * W2 : Nat) : Int) * ((2 * H2 : Nat) : Int) * 3) 2 = frameSize W2 H2 :=
  geom_size W2 H2

theorem frameSize_swap (W2 H2 : Nat) : frameSize H2 W2 = frameSize W2 H2 := by
  unfold frameSize
  ring

/-- The flip stage without a flip leaves the frame as it is. -/
theorem flip_planes_none (m0 : Mem) (img : Int) (W2 H2 : Nat) :
    FrameMap
      (flip_planes FLIP_TYPE.FLIP_TYPE_NONE m0 img ((2 * W2 : Nat) : Int)
        ((2 * H2 : Nat) : Int) (((2 * W2 : Nat) : Int) * ((2 * H2 : Nat) : Int))
        ((W2 : Int) * (H2 : Int)) (W2 : Int) (H2 : Int))
      m0 img W2 H2 (fun _ _ k => k) :=
  ⟨fun _ _ => rfl, fun _ _ => rfl, fun _ _ => rfl⟩

/-- The `memset` of the scratch buffer does not touch a frame it does not overlap. -/
theorem memset_scratch (cnt : context) (m : Mem) (img size : Int)
    (hs : scratch_apart cnt img size) (a : Int) (h1 : img ≤ a) (h2 : a < img + size) :
    memset m cnt.imgs.common_buffer 255 cnt.imgs.common_buffer_size a = m a := by
  apply memset_out
  unfold scratch_apart at hs
  omega

/-- `rotate_img` at 90 degrees on a frame of even dimensions: each plane is flipped
as the axis says (index map `φ`), then turned clockwise. -/
theorem rotate_img_90_frame (cnt : context) (m : Mem) (img : Int) (W2 H2 : Nat)
    (hdeg : cnt.rotate_data.degrees = 90) (φ : Nat → Nat → Nat → Nat)
    (hflip : ∀ m0 : Mem, FrameMap
      (flip_planes cnt.rotate_data.axis m0 img ((2 * W2 : Nat) : Int)
        ((2 * H2 : Nat) : Int) (((2 * W2 : Nat) : Int) * ((2 * H2 : Nat) : Int))
        ((W2 : Int) * (H2 : Int)) (W2 : Int) (H2 : Int)) m0 img W2 H2 φ)
    (hφ : ∀ W H k, k < W * H → φ W H k < W * H)
    (hfit : frameSize W2 H2 ≤ cnt.imgs.common_buffer_size)
    (hs : scratch_apart cnt img (frameSize W2 H2)) :
    FrameMap (rotate_img cnt m img ((2 * W2 : Nat) : Int) ((2 * H2 : Nat) : Int)).2 m img
      W2 H2 (fun W H k => φ W H (cwIdx W H k)) := by
  have hd : img + frameSize W2 H2 ≤ cnt.imgs.common_buffer ∨
      cnt.imgs.common_buffer + frameSize W2 H2 ≤ img := by
    unfold scratch_apart at hs
    omega
  have F : FrameMap (rotate_img cnt m img ((2 * W2 : Nat) : Int) ((2 * H2 : Nat) : Int)).2
      (flip_planes cnt.rotate_data.axis
        (memset m cnt.imgs.common_buffer 255 cnt.imgs.common_buffer_size) img
        ((2 * W2 : Nat) : Int) ((2 * H2 : Nat) : Int)
        (((2 * W2 : Nat) : Int) * ((2 * H2 : Nat) : Int))
        ((W2 : Int) * (H2 : Int)) (W2 : Int) (H2 : Int)) img W2 H2 cwIdx := by
    rw [rotate_img_90 _ _ _ _ _ hdeg]
    simp only [geom_half, geom_wh4, frameSize_eq]
    exact quarter_cw_stage _ img _ W2 H2 hd
  have G := frameMap_congr_src (frameMap_trans F (hflip _) cwIdx_lt)
    (fun W H k hk => hφ W H _ (cwIdx_lt W H k hk)) (memset_scratch cnt m img _ hs)
  exact G

/-- `rotate_img` at 270 degrees on a frame of even dimensions: each plane is flipped
as the axis says (index map `φ`), then turned counterclockwise. -/
theorem rotate_img_270_frame (cnt : context) (m : Mem) (img : Int) (W2 H2 : Nat)
    (hdeg : cnt.rotate_data.degrees = 270) (φ : Nat → Nat → Nat → Nat)
    (hflip : ∀ m0 : Mem, FrameMap
      (flip_planes cnt.rotate_data.axis m0 img ((2 * W2 : Nat) : Int)
        ((2 * H2 : Nat) : Int) (((2 * W2 : Nat) : Int) * ((2 * H2 : Nat) : Int))
        ((W2 : Int) * (H2 : Int)) (W2 : Int) (H2 : Int)) m0 img W2 H2 φ)
    (hφ : ∀ W H k, k < W * H → φ W H k < W * H)
    (hfit : frameSize W2 H2 ≤ cnt.imgs.common_buffer_size)
    (hs : scratch_apart cnt img (frameSize W2 H2)) :
    FrameMap (rotate_img cnt m img ((2 * W2 : Nat) : Int) ((2 * H2 : Nat) : Int)).2 m img
      W2 H2 (fun W H k => φ W H (ccwIdx W H k)) := by
  have hd : img + frameSize W2 H2 ≤ cnt.imgs.common_buffer ∨
      cnt.imgs.common_buffer + frameSize W2 H2 ≤ img := by
    unfold scratch_apart at hs
    omega
  have F : FrameMap (rotate_img cnt m img ((2 * W2 : Nat) : Int) ((2 * H2 : Nat) : Int)).2
      (flip_planes cnt.rotate_data.axis
        (memset m cnt.imgs.common_buffer 255 cnt.imgs.common_buffer_size) img
        ((2 * W2 : Nat) : Int) ((2 * H2 : Nat) : Int)
        (((2 * W2 : Nat) : Int) * ((2 * H2 : Nat) : Int))
        ((W2 : Int) * (H2 : Int)) (W2 : Int) (H2 : Int)) img W2 H2 ccwIdx := by
    rw [rotate_img_270 _ _ _ _ _ hdeg]
    simp only [geom_half, geom_wh4, frameSize_eq]
    exact quarter_ccw_stage _ img _ W2 H2 hd
  have G := frameMap_congr_src (frameMap_trans F (hflip _) ccwIdx_lt)
    (fun W H k hk => hφ W H _ (ccwIdx_lt W H k hk)) (memset_scratch cnt m img _ hs)
  exact G

/-- `rotate_img` at 180 degrees on a frame of even dimensions whose chroma planes are
multiples of 8 bytes: each plane is flipped as the axis says (index map `φ`), then
reversed. -/
theorem rotate_img_180_frame (cnt : context) (m : Mem) (img : Int) (W2 H2 : Nat)
    (hdeg : cnt.rotate_data.degrees = 180) (h8 : 8 ∣ W2 * H2) (φ : Nat → Nat → Nat → Nat)
    (hflip : ∀ m0 : Mem, FrameMap
      (flip_planes cnt.rotate_data.axis m0 img ((2 * W2 : Nat) : Int)
        ((2 * H2 : Nat) : Int) (((2 * W2 : Nat) : Int) * ((2 * H2 : Nat) : Int))
        ((W2 : Int) * (H2 : Int)) (W2 : Int) (H2 : Int)) m0 img W2 H2 φ)
    (hφ : ∀ W H k, k < W * H → φ W H k < W * H)
    (hs : scratch_apart cnt img (frameSize W2 H2)) :
    FrameMap (rotate_img cnt m img ((2 * W2 : Nat) : Int) ((2 * H2 : Nat) : Int)).2 m img
      W2 H2 (fun W H k => φ W H (revIdx (W * H) k)) := by
  have F : FrameMap (rotate_img cnt m img ((2 * W2 : Nat) : Int) ((2 * H2 : Nat) : Int)).2
      (flip_planes cnt.rotate_data.axis
        (memset m cnt.imgs.common_buffer 255 cnt.imgs.common_buffer_size) img
        ((2 * W2 : Nat) : Int) ((2 * H2 : Nat) : Int)
        (((2 * W2 : Nat) : Int) * ((2 * H2 : Nat) : Int))
        ((W2 : Int) * (H2 : Int)) (W2 : Int) (H2 : Int)) img W2 H2
      (fun W H k => revIdx (W * H) k) := by
    rw [rotate_img_180 _ _ _ _ _ hdeg]
    simp only [geom_half, geom_wh4]
    exact reverse_stage _ img W2 H2 h8
  have G := frameMap_congr_src
    (frameMap_trans F (hflip _) (fun W H k hk => revIdx_lt (W * H) k hk))
    (fun W H k hk => hφ W H _ (revIdx_lt (W * H) k hk)) (memset_scratch cnt m img _ hs)
  exact G

/-- A frame map by identity maps leaves every byte of the frame as it is. -/
theorem frameMap_of_id {out m : Mem} {img : Int} {W2 H2 : Nat} {σ : Nat → Nat → Nat → Nat}
    (h : FrameMap out m img W2 H2 σ) (hσ : ∀ W H k, k < W * H → σ W H k = k) :
    ∀ i : Int, 0 ≤ i → i < frameSize W2 H2 → out (img + i) = m (img + i) := by
  intro i h0 h1
  have hY : ((2 * W2 * (2 * H2) : Nat) : Int) = ((2 * W2 : Nat) : Int) * ((2 * H2 : Nat) : Int) := by
    push_cast; ring
  have hU : ((W2 * H2 : Nat) : Int) = (W2 : Int) * (H2 : Int) := by push_cast; ring
  obtain ⟨a1, a2, a3⟩ := h
  unfold frameSize at h1
  by_cases c1 : i < ((2 * W2 : Nat) : Int) * ((2 * H2 : Nat) : Int)
  · exact copyMap_of_id a1 (hσ _ _) i h0 (by omega)
  · by_cases c2 : i < ((2 * W2 : Nat) : Int) * ((2 * H2 : Nat) : Int) + (W2 : Int) * (H2 : Int)
    · have := copyMap_of_id a2 (hσ _ _) (i - ((2 * W2 : Nat) : Int) * ((2 * H2 : Nat) : Int))
        (by omega) (by omega)
      rw [show img + ((2 * W2 : Nat) : Int) * ((2 * H2 : Nat) : Int) +
        (i - ((2 * W2 : Nat) : Int) * ((2 * H2 : Nat) : Int)) = img + i by ring] at this
      exact this
    · have := copyMap_of_id a3 (hσ _ _)
        (i - ((2 * W2 : Nat) : Int) * ((2 * H2 : Nat) : Int) - (W2 : Int) * (H2 : Int))
        (by omega) (by omega)
      rw [show img + ((2 * W2 : Nat) : Int) * ((2 * H2 : Nat) : Int) + (W2 : Int) * (H2 : Int) +
        (i - ((2 * W2 : Nat) : Int) * ((2 * H2 : Nat) : Int) - (W2 : Int) * (H2 : Int))
          = img + i by ring] at this
      exact this

/-- A frame map of the turned frame (`2 * H2` wide, `2 * W2` high), seen from the frame
before the turn. -/
theorem frameMap_swap {out m : Mem} {img : Int} {W2 H2 : Nat} {σ : Nat → Nat → Nat → Nat}
    (h : FrameMap out m img H2 W2 σ) : FrameMap out m img W2 H2 (fun W H k => σ H W k) := by
  unfold FrameMap at h ⊢
  rw [Nat.mul_comm (2 * W2) (2 * H2), Nat.mul_comm W2 H2,
    mul_comm ((2 * W2 : Nat) : Int) ((2 * H2 : Nat) : Int), mul_comm (W2 : Int) (H2 : Int)]
  exact h

/-- The planes of a frame of even dimensions, one by one. -/
theorem frame_planes_cases (img : Int) (W2 H2 : Nat) (p : Plane)
    (hp : p ∈ frame_planes img ((2 * W2 : Nat) : Int) ((2 * H2 : Nat) : Int)) :
    p = ⟨img, ((2 * W2 : Nat) : Int), ((2 * H2 : Nat) : Int)⟩ ∨
    p = ⟨img + ((2 * W2 : Nat) : Int) * ((2 * H2 : Nat) : Int), (W2 : Int), (H2 : Int)⟩ ∨
    p = ⟨img + ((2 * W2 : Nat) : Int) * ((2 * H2 : Nat) : Int) + (W2 : Int) * (H2 : Int),
      (W2 : Int), (H2 : Int)⟩ := by
  unfold frame_planes at hp
  simp only [geom_half, geom_wh4, List.mem_cons, List.mem_singleton, List.not_mem_nil,
    or_false] at hp
  exact hp

/-- What a frame map says of each plane of the frame. -/
theorem frameMap_planes {out m : Mem} {img : Int} {W2 H2 : Nat} {σ : Nat → Nat → Nat → Nat}
    (h : FrameMap out m img W2 H2 σ) (p : Plane)
    (hp : p ∈ frame_planes img ((2 * W2 : Nat) : Int) ((2 * H2 : Nat) : Int)) :
    ∃ W H : Nat, p.width = (W : Int) ∧ p.height = (H : Int) ∧
      CopyMap out m p.base p.base (W * H) (σ W H) := by
  rcases frame_planes_cases img W2 H2 p hp with rfl | rfl | rfl
  · exact ⟨2 * W2, 2 * H2, rfl, rfl, h.1⟩
  · exact ⟨W2, H2, rfl, rfl, h.2.1⟩
  · exact ⟨W2, H2, rfl, rfl, h.2.2⟩

/-! ## `unrotate_pgm` -/

theorem unrotate_pgm_90_none (cnt : context) (m : Mem) (pgm width height : Int)
    (hdeg : cnt.rotate_data.degrees = 90)
    (haxis : cnt.rotate_data.axis = FLIP_TYPE.FLIP_TYPE_NONE) :
    unrotate_pgm cnt m pgm width height =
      (1, memcpy (rot90ccw m pgm cnt.imgs.common_buffer (width * height) width height)
        pgm cnt.imgs.common_buffer (width * height)) := by
  simp [unrotate_pgm, hdeg, haxis]

/-- `unrotate_pgm` at 90 degrees without a flip turns the plane counterclockwise. -/
theorem unrotate_pgm_90_plane (cnt : context) (m : Mem) (pgm : Int) (W H : Nat)
    (hdeg : cnt.rotate_data.degrees = 90)
    (haxis : cnt.rotate_data.axis = FLIP_TYPE.FLIP_TYPE_NONE)
    (hd : pgm + (W : Int) * (H : Int) ≤ cnt.imgs.common_buffer ∨
      cnt.imgs.common_buffer + (W : Int) * (H : Int) ≤ pgm) :
    CopyMap (unrotate_pgm cnt m pgm (W : Int) (H : Int)).2 m pgm pgm (W * H) (ccwIdx W H) := by
  rw [unrotate_pgm_90_none cnt m pgm _ _ hdeg haxis]
  obtain ⟨s1, _⟩ := rot90ccw_planes m pgm cnt.imgs.common_buffer W H (by omega)
  intro k hk
  have e : ((W * H : Nat) : Int) = (W : Int) * (H : Int) := by push_cast; ring
  show memcpy _ pgm cnt.imgs.common_buffer ((W : Int) * (H : Int)) (pgm + (k : Int)) = _
  rw [memcpy_in _ _ _ _ _ (by omega) (by omega)]
  have e2 : cnt.imgs.common_buffer + (pgm + (k : Int) - pgm) =
      cnt.imgs.common_buffer + (k : Int) := by omega
  rw [e2]
  exact s1 k hk

/-! ## `unrotate_pgm` for every configuration -/

theorem unrotIdx_lt (degrees : Int) (W H k : Nat) (hk : k < W * H) :
    unrotIdx degrees W H k < W * H := by
  unfold unrotIdx
  split_ifs
  · exact ccwIdx_lt W H k hk
  · exact revIdx_lt (W * H) k hk
  · exact cwIdx_lt W H k hk
  · exact hk

/-- The flip stage of `unrotate_pgm`, for every axis. -/
theorem flip_plane_spec (axis : FLIP_TYPE) (m : Mem) (pgm : Int) (W H : Nat) :
    CopyMap (flip_plane axis m pgm (W : Int) (H : Int)) m pgm pgm (W * H) (flipIdx axis W H) ∧
    Unchanged (flip_plane axis m pgm (W : Int) (H : Int)) m pgm ((W : Int) * (H : Int)) := by
  cases axis
  · exact ⟨fun _ _ => rfl, fun _ _ => rfl⟩
  · exact flip_inplace_horizontal_spec m pgm W H
  · exact flip_inplace_vertical_spec m pgm W H

/-- The branches of `unrotate_pgm`, with its flip switch written as `flip_plane`. -/
theorem unrotate_pgm_branches (cnt : context) (m : Mem) (pgm width height : Int) :
    (cnt.rotate_data.degrees = 0 →
      unrotate_pgm cnt m pgm width height =
        (0, flip_plane cnt.rotate_data.axis m pgm width height)) ∧
    (cnt.rotate_data.degrees = 90 →
      unrotate_pgm cnt m pgm width height =
        (1, memcpy (rot90ccw (flip_plane cnt.rotate_data.axis m pgm width height) pgm
          cnt.imgs.common_buffer (width * height) width height)
          pgm cnt.imgs.common_buffer (width * height))) ∧
    (cnt.rotate_data.degrees = 180 →
      unrotate_pgm cnt m pgm width height =
        (0, reverse_inplace_quad (flip_plane cnt.rotate_data.axis m pgm width height) pgm
          (width * height))) ∧
    (cnt.rotate_data.degrees = 270 →
      unrotate_pgm cnt m pgm width height =
        (1, memcpy (rot90cw (flip_plane cnt.rotate_data.axis m pgm width height) pgm
          cnt.imgs.common_buffer (width * height) width height)
          pgm cnt.imgs.common_buffer (width * height))) := by
  refine ⟨?_, ?_, ?_, ?_⟩ <;> intro hdeg <;>
    cases ha : cnt.rotate_data.axis <;> simp [unrotate_pgm, flip_plane, hdeg, ha]

/-- A quarter turn of one plane into the scratch buffer, copied back. -/
theorem quarter1 (m out : Mem) (pgm tmp : Int) (n : Nat) (s : Int) (es : s = (n : Int))
    (σ : Nat → Nat) (h : CopyMap out m tmp pgm n σ) :
    CopyMap (memcpy out pgm tmp s) m pgm pgm n σ := by
  subst es
  intro k hk
  rw [memcpy_in _ _ _ _ _ (by omega) (by omega)]
  have e : tmp + (pgm + (k : Int) - pgm) = tmp + (k : Int) := by omega
  rw [e]
  exact h k hk

/-- `unrotate_pgm` on a plane whose size is a multiple of 8, with a scratch buffer that
does not overlap it: the plane is flipped as the axis says, then turned back. -/
theorem unrotate_pgm_plane (cnt : context) (m : Mem) (pgm : Int) (W H : Nat)
    (hdeg : cnt.rotate_data.degrees = 0 ∨ cnt.rotate_data.degrees = 90 ∨
      cnt.rotate_data.degrees = 180 ∨ cnt.rotate_data.degrees = 270)
    (h8 : 8 ∣ W * H)
    (hd : pgm + (W : Int) * (H : Int) ≤ cnt.imgs.common_buffer ∨
      cnt.imgs.common_buffer + (W : Int) * (H : Int) ≤ pgm) :
    CopyMap (unrotate_pgm cnt m pgm (W : Int) (H : Int)).2 m pgm pgm (W * H)
      (fun k => flipIdx cnt.rotate_data.axis W H (unrotIdx cnt.rotate_data.degrees W H k)) := by
  obtain ⟨b0, b90, b180, b270⟩ := unrotate_pgm_branches cnt m pgm (W : Int) (H : Int)
  have fl := (flip_plane_spec cnt.rotate_data.axis m pgm W H).1
  have en : (W : Int) * (H : Int) = ((W * H : Nat) : Int) := by push_cast; ring
  rcases hdeg with h | h | h | h
  · rw [b0 h]
    have e : (fun k => flipIdx cnt.rotate_data.axis W H
        (unrotIdx cnt.rotate_data.degrees W H k)) = flipIdx cnt.rotate_data.axis W H := by
      funext k
      simp [unrotIdx, h]
    rw [e]
    exact fl
  · rw [b90 h]
    have e : (fun k => flipIdx cnt.rotate_data.axis W H
        (unrotIdx cnt.rotate_data.degrees W H k)) =
        (fun k => flipIdx cnt.rotate_data.axis W H (ccwIdx W H k)) := by
      funext k
      simp [unrotIdx, h]
    rw [e]
    exact copyMap_trans
      (quarter1 _ _ pgm _ (W * H) _ en (ccwIdx W H)
        (rot90ccw_planes _ pgm cnt.imgs.common_buffer W H (by omega)).1)
      fl (ccwIdx_lt W H)
  · rw [b180 h]
    have e : (fun k => flipIdx cnt.rotate_data.axis W H
        (unrotIdx cnt.rotate_data.degrees W H k)) =
        (fun k => flipIdx cnt.rotate_data.axis W H (revIdx (W * H) k)) := by
      funext k
      simp [unrotIdx, h]
    rw [e, en]
    exact copyMap_trans (reverse_inplace_quad_planes _ pgm (W * H) h8).1 fl (revIdx_lt (W * H))
  · rw [b270 h]
    have e : (fun k => flipIdx cnt.rotate_data.axis W H
        (unrotIdx cnt.rotate_data.degrees W H k)) =
        (fun k => flipIdx cnt.rotate_data.axis W H (cwIdx W H k)) := by
      funext k
      simp [unrotIdx, h]
    rw [e]
    exact copyMap_trans
      (quarter1 _ _ pgm _ (W * H) _ en (cwIdx W H)
        (rot90cw_planes _ pgm cnt.imgs.common_buffer W H (by omega)).1)
      fl (cwIdx_lt W H)

/-! ## `rotate_img` for every configuration -/

theorem flipIdx_lt (axis : FLIP_TYPE) (W H k : Nat) (hk : k < W * H) :
    flipIdx axis W H k < W * H := by
  cases axis
  · exact hk
  · exact hflipIdx_lt W H k hk
  · exact vflipIdx_lt W H k hk

theorem rotIdx_lt (degrees : Int) (W H k : Nat) (hk : k < W * H) :
    rotIdx degrees W H k < W * H := by
  unfold rotIdx
  split_ifs
  · exact cwIdx_lt W H k hk
  · exact revIdx_lt (W * H) k hk
  · exact ccwIdx_lt W H k hk
  · exact hk

/-- The flip stage of `rotate_img`, for every axis. -/
theorem flip_planes_axis (axis : FLIP_TYPE) (m0 : Mem) (img : Int) (W2 H2 : Nat) :
    FrameMap
      (flip_planes axis m0 img ((2 * W2 : Nat) : Int)
        ((2 * H2 : Nat) : Int) (((2 * W2 : Nat) : Int) * ((2 * H2 : Nat) : Int))
        ((W2 : Int) * (H2 : Int)) (W2 : Int) (H2 : Int))
      m0 img W2 H2 (flipIdx axis) ∧
    Unchanged
      (flip_planes axis m0 img ((2 * W2 : Nat) : Int)
        ((2 * H2 : Nat) : Int) (((2 * W2 : Nat) : Int) * ((2 * H2 : Nat) : Int))
        ((W2 : Int) * (H2 : Int)) (W2 : Int) (H2 : Int))
      m0 img (frameSize W2 H2) := by
  cases axis
  · exact ⟨flip_planes_none m0 img W2 H2, fun _ _ => rfl⟩
  · exact flip_planes_horizontal m0 img W2 H2
  · exact flip_planes_vertical m0 img W2 H2

theorem rotate_img_0 (cnt : context) (m : Mem) (img width height : Int)
    (hdeg : cnt.rotate_data.degrees = 0) :
    rotate_img cnt m img width height =
      (0, if cnt.rotate_data.axis = FLIP_TYPE.FLIP_TYPE_NONE then m
          else flip_planes cnt.rotate_data.axis
            (memset m cnt.imgs.common_buffer 255 cnt.imgs.common_buffer_size)
            img width height (width * height) (Int.tdiv (width * height) 4)
            (Int.tdiv width 2) (Int.tdiv height 2)) := by
  by_cases ha : cnt.rotate_data.axis = FLIP_TYPE.FLIP_TYPE_NONE
  · simp [rotate_img, hdeg, ha]
  · simp [rotate_img, hdeg, ha]

/-- `rotate_img` at 0 degrees on a frame of even dimensions: each plane is flipped as
the axis says. -/
theorem rotate_img_0_frame (cnt : context) (m : Mem) (img : Int) (W2 H2 : Nat)
    (hdeg : cnt.rotate_data.degrees = 0)
    (hs : scratch_apart cnt img (frameSize W2 H2)) :
    FrameMap (rotate_img cnt m img ((2 * W2 : Nat) : Int) ((2 * H2 : Nat) : Int)).2 m img
      W2 H2 (flipIdx cnt.rotate_data.axis) := by
  rw [rotate_img_0 cnt m img _ _ hdeg]
  by_cases ha : cnt.rotate_data.axis = FLIP_TYPE.FLIP_TYPE_NONE
  · simp only [ha, if_true]
    exact ⟨fun _ _ => rfl, fun _ _ => rfl, fun _ _ => rfl⟩
  · simp only [ha, if_false, geom_half, geom_wh4]
    exact frameMap_congr_src (flip_planes_axis cnt.rotate_data.axis _ img W2 H2).1
      (flipIdx_lt cnt.rotate_data.axis) (memset_scratch cnt m img _ hs)

/-- `rotate_img` on a frame of even dimensions whose chroma planes are multiples of 8
bytes, for every valid configuration: each plane is flipped as the axis says, then
turned as the degrees say. -/
theorem rotate_img_frame (cnt : context) (m : Mem) (img : Int) (W2 H2 : Nat)
    (hdeg : cnt.rotate_data.degrees = 0 ∨ cnt.rotate_data.degrees = 90 ∨
      cnt.rotate_data.degrees = 180 ∨ cnt.rotate_data.degrees = 270)
    (h8 : 8 ∣ W2 * H2)
    (hfit : frameSize W2 H2 ≤ cnt.imgs.common_buffer_size)
    (hs : scratch_apart cnt img (frameSize W2 H2)) :
    FrameMap (rotate_img cnt m img ((2 * W2 : Nat) : Int) ((2 * H2 : Nat) : Int)).2 m img
      W2 H2
      (fun W H k => flipIdx cnt.rotate_data.axis W H (rotIdx cnt.rotate_data.degrees W H k)) := by
  have hflip := fun m0 : Mem => (flip_planes_axis cnt.rotate_data.axis m0 img W2 H2).1
  rcases hdeg with h | h | h | h
  · have e : (fun W H k => flipIdx cnt.rotate_data.axis W H
        (rotIdx cnt.rotate_data.degrees W H k)) = flipIdx cnt.rotate_data.axis := by
      funext W H k
      simp [rotIdx, h]
    rw [e]
    exact rotate_img_0_frame cnt m img W2 H2 h hs
  · have e : (fun W H k => flipIdx cnt.rotate_data.axis W H
        (rotIdx cnt.rotate_data.degrees W H k)) =
        (fun W H k => flipIdx cnt.rotate_data.axis W H (cwIdx W H k)) := by
      funext W H k
      simp [rotIdx, h]
    rw [e]
    exact rotate_img_90_frame cnt m img W2 H2 h _ hflip (flipIdx_lt _) hfit hs
  · have e : (fun W H k => flipIdx cnt.rotate_data.axis W H
        (rotIdx cnt.rotate_data.degrees W H k)) =
        (fun W H k => flipIdx cnt.rotate_data.axis W H (revIdx (W * H) k)) := by
      funext W H k
      simp [rotIdx, h]
    rw [e]
    exact rotate_img_180_frame cnt m img W2 H2 h h8 _ hflip (flipIdx_lt _) hs
  · have e : (fun W H k => flipIdx cnt.rotate_data.axis W H
        (rotIdx cnt.rotate_data.degrees W H k)) =
        (fun W H k => flipIdx cnt.rotate_data.axis W H (ccwIdx W H k)) := by
      funext W H k
      simp [rotIdx, h]
    rw [e]
    exact rotate_img_270_frame cnt m img W2 H2 h _ hflip (flipIdx_lt _) hfit hs

/-! ## Claims about `rotate_img`'s result and `rotate_init` -/

theorem rotate_img_invalid (cnt : context) (m : Mem) (img width height : Int)
    (h0 : cnt.rotate_data.degrees ≠ 0) (h90 : cnt.rotate_data.degrees ≠ 90)
    (h180 : cnt.rotate_data.degrees ≠ 180) (h270 : cnt.rotate_data.degrees ≠ 270) :
    rotate_img cnt m img width height =
      (-1, flip_planes cnt.rotate_data.axis
        (memset m cnt.imgs.common_buffer 255 cnt.imgs.common_buffer_size)
        img width height (width * height) (Int.tdiv (width * height) 4)
        (Int.tdiv width 2) (Int.tdiv height 2)) := by
  simp [rotate_img, h0, h90, h180, h270]

/-- C2. Tri-state result of `rotate_img`: whatever the axis, the buffer and the
dimensions, the result is 0 when the stored degrees are 0 or 180, 1 when they are 90
or 270, and -1 for every other value. -/
theorem rotate_img_result (cnt : context) (m : Mem) (img width height : Int) :
    ((cnt.rotate_data.degrees = 0 ∨ cnt.rotate_data.degrees = 180) →
      (rotate_img cnt m img width height).1 = 0) ∧
    ((cnt.rotate_data.degrees = 90 ∨ cnt.rotate_data.degrees = 270) →
      (rotate_img cnt m img width height).1 = 1) ∧
    ((cnt.rotate_data.degrees ≠ 0 ∧ cnt.rotate_data.degrees ≠ 90 ∧
        cnt.rotate_data.degrees ≠ 180 ∧ cnt.rotate_data.degrees ≠ 270) →
      (rotate_img cnt m img width height).1 = -1) := by
  refine ⟨?_, ?_, ?_⟩
  · rintro (h | h)
    · unfold rotate_img
      by_cases ha : cnt.rotate_data.axis = FLIP_TYPE.FLIP_TYPE_NONE
      · simp [h, ha]
      · simp [h, ha]
    · rw [rotate_img_180 cnt m img width height h]
  · rintro (h | h)
    · rw [rotate_img_90 cnt m img width height h]
    · rw [rotate_img_270 cnt m img width height h]
  · rintro ⟨h0, h90, h180, h270⟩
    rw [rotate_img_invalid cnt m img width height h0 h90 h180 h270]

/-- The three results occur: 0 at 180 degrees with a flip, 1 at 270 degrees, -1 at 45. -/
theorem rotate_img_result_witness :
    (rotate_img (ctx 0 180 FLIP_TYPE.FLIP_TYPE_VERTICAL 1000 384) ramp 0 16 16).1 = 0 ∧
    (rotate_img (ctx 0 270 FLIP_TYPE.FLIP_TYPE_NONE 1000 384) ramp 0 16 16).1 = 1 ∧
    (rotate_img (ctx 0 45 FLIP_TYPE.FLIP_TYPE_HORIZONTAL 1000 384) ramp 0 16 16).1 = -1 :=
  ⟨(rotate_img_result _ ramp 0 16 16).1 (Or.inr rfl),
   (rotate_img_result _ ramp 0 16 16).2.1 (Or.inr rfl),
   (rotate_img_result _ ramp 0 16 16).2.2 (by decide)⟩

theorem rotate_init_axis_keeps (cnt : context) :
    (rotate_init_axis cnt).conf = cnt.conf ∧ (rotate_init_axis cnt).imgs = cnt.imgs ∧
    (rotate_init_axis cnt).rotate_data.degrees = cnt.rotate_data.degrees := by
  unfold rotate_init_axis
  split_ifs <;> exact ⟨rfl, rfl, rfl⟩

theorem rotate_init_dims_keeps (cnt : context) (newbuf : Int) :
    (rotate_init_dims cnt newbuf).conf = cnt.conf ∧
    (rotate_init_dims cnt newbuf).rotate_data = cnt.rotate_data := by
  unfold rotate_init_dims
  split_ifs <;> exact ⟨rfl, rfl⟩

theorem rotate_init_dims_same (cnt : context) (newbuf : Int)
    (h : cnt.rotate_data.degrees = 0 ∨ cnt.rotate_data.degrees = 180) :
    (rotate_init_dims cnt newbuf).imgs.display_width = cnt.imgs.width ∧
    (rotate_init_dims cnt newbuf).imgs.display_height = cnt.imgs.height := by
  unfold rotate_init_dims
  rw [if_pos h]
  split_ifs <;> exact ⟨rfl, rfl⟩

/-- For a requested angle that is not negative, `rotate_init` stores one of 0, 90, 180,
270, and a later `rotate_img` does not fail. -/
theorem rotate_init_degrees_of_nonneg (cnt : context) (newbuf : Int)
    (h : 0 ≤ cnt.conf.rotate) :
    (rotate_init cnt newbuf).1.rotate_data.degrees = 0 ∨
    (rotate_init cnt newbuf).1.rotate_data.degrees = 90 ∨
    (rotate_init cnt newbuf).1.rotate_data.degrees = 180 ∨
    (rotate_init cnt newbuf).1.rotate_data.degrees = 270 := by
  have e90 := Int.tmod_eq_emod h (show (0 : Int) ≤ 90 by decide)
  have e360 := Int.tmod_eq_emod h (show (0 : Int) ≤ 360 by decide)
  have hd : (rotate_init cnt newbuf).1.rotate_data.degrees =
      (rotate_init_angle cnt).1.rotate_data.degrees := by
    show (rotate_init_dims (rotate_init_axis (rotate_init_angle cnt).1) newbuf).rotate_data.degrees
      = _
    rw [(rotate_init_dims_keeps _ newbuf).2, (rotate_init_axis_keeps _).2.2]
  rw [hd]
  unfold rotate_init_angle
  by_cases hc : Int.tmod cnt.conf.rotate 90 > 0
  · simp [hc]
  · simp only [hc, if_false]
    rw [e90] at hc
    rw [e360]
    omega

/-- C3. The normalisation of `rotate_init` at the requested angle -90: the test
`conf.rotate % 90 > 0` is false, `-90 % 360` is -90 in C, so the stored degrees are
-90 (not in 0..359), and `rotate_img` then takes its failure branch. At -45 the stored
degrees are -45. -/
theorem rotate_init_negative_angle :
    (rotate_init (ctx (-90) 0 FLIP_TYPE.FLIP_TYPE_NONE 0 0) 1000).1.rotate_data.degrees = -90 ∧
    (rotate_img (rotate_init (ctx (-90) 0 FLIP_TYPE.FLIP_TYPE_NONE 0 0) 1000).1
      ramp 0 16 32).1 = -1 ∧
    (rotate_init (ctx (-45) 0 FLIP_TYPE.FLIP_TYPE_NONE 0 0) 1000).1.rotate_data.degrees = -45 := by
  refine ⟨by decide, ?_, by decide⟩
  rw [rotate_img_invalid _ ramp 0 16 32 (by decide) (by decide) (by decide) (by decide)]

/-- For a requested angle that is not negative and not a multiple of 90, `rotate_init`
takes the warning branch, stores 0 in `rotate_data.degrees` and in `conf.rotate`, and
sets the display dimensions to the source dimensions. -/
theorem rotate_init_rejects_of_nonneg (cnt : context) (newbuf : Int)
    (h : 0 ≤ cnt.conf.rotate) (hn : ¬ (90 : Int) ∣ cnt.conf.rotate) :
    (rotate_init cnt newbuf).2 = true ∧
    (rotate_init cnt newbuf).1.rotate_data.degrees = 0 ∧
    (rotate_init cnt newbuf).1.conf.rotate = 0 ∧
    (rotate_init cnt newbuf).1.imgs.display_width = cnt.imgs.width ∧
    (rotate_init cnt newbuf).1.imgs.display_height = cnt.imgs.height := by
  have e90 := Int.tmod_eq_emod h (show (0 : Int) ≤ 90 by decide)
  have hc : Int.tmod cnt.conf.rotate 90 > 0 := by
    rw [e90]
    omega
  have ea : rotate_init_angle cnt =
      ({ cnt with conf := { cnt.conf with rotate := 0 },
                  rotate_data := { cnt.rotate_data with degrees := 0 } }, true) := by
    unfold rotate_init_angle
    rw [if_pos hc]
  obtain ⟨k1, k2, k3⟩ := rotate_init_axis_keeps (rotate_init_angle cnt).1
  obtain ⟨d1, d2⟩ := rotate_init_dims_keeps (rotate_init_axis (rotate_init_angle cnt).1) newbuf
  have hz : (rotate_init_axis (rotate_init_angle cnt).1).rotate_data.degrees = 0 := by
    rw [k3, ea]
  obtain ⟨s1, s2⟩ := rotate_init_dims_same (rotate_init_axis (rotate_init_angle cnt).1) newbuf
    (Or.inl hz)
  unfold rotate_init
  refine ⟨?_, ?_, ?_, ?_, ?_⟩
  · show (rotate_init_angle cnt).2 = true
    rw [ea]
  · show (rotate_init_dims (rotate_init_axis (rotate_init_angle cnt).1) newbuf).rotate_data.degrees
      = 0
    rw [d2, hz]
  · show (rotate_init_dims (rotate_init_axis (rotate_init_angle cnt).1) newbuf).conf.rotate = 0
    rw [d1, k1, ea]
  · show (rotate_init_dims (rotate_init_axis (rotate_init_angle cnt).1) newbuf).imgs.display_width
      = cnt.imgs.width
    rw [s1, k2, ea]
  · show (rotate_init_dims (rotate_init_axis (rotate_init_angle cnt).1) newbuf).imgs.display_height
      = cnt.imgs.height
    rw [s2, k2, ea]

/-- C4. `rotate_init` at the requested angle -45, which is not a multiple of 90:
`-45 % 90` is -45 in C, the test `> 0` is false, the warning branch is not taken,
`rotate_data.degrees` and `conf.rotate` are -45, and the display dimensions of the
16 x 32 source are swapped. -/
theorem rotate_init_negative_non_multiple :
    (rotate_init (ctx (-45) 0 FLIP_TYPE.FLIP_TYPE_NONE 0 0) 1000).2 = false ∧
    (rotate_init (ctx (-45) 0 FLIP_TYPE.FLIP_TYPE_NONE 0 0) 1000).1.rotate_data.degrees = -45 ∧
    (rotate_init (ctx (-45) 0 FLIP_TYPE.FLIP_TYPE_NONE 0 0) 1000).1.conf.rotate = -45 ∧
    (rotate_init (ctx (-45) 0 FLIP_TYPE.FLIP_TYPE_NONE 0 0) 1000).1.imgs.display_width = 32 ∧
    (rotate_init (ctx (-45) 0 FLIP_TYPE.FLIP_TYPE_NONE 0 0) 1000).1.imgs.display_height = 16 := by
  decide

/-! ## Claims about the primitives -/

/-- C5, as stated, fails at `size = 4`: the loop test `nsrc < ndst` is false at once
(`ndst = src + 4 - 4 = nsrc`), the four bytes 0, 1, 2, 3 stay as they are, and byte 0
is not the original byte 3. -/
theorem reverse_inplace_quad_size_4 :
    reverse_inplace_quad ramp 0 4 (0 + 0) ≠ ramp (0 + (4 - 1 - 0)) := by
  decide

/-- C5, amended. For every size that is a multiple of 8, after
`reverse_inplace_quad(region, size)` the byte at index `i` is the original byte at index
`size - 1 - i`, for every `i` in `[0, size)`. -/
theorem reverse_inplace_quad_reverses (m : Mem) (src size : Int) (h0 : 0 ≤ size)
    (h8 : (8 : Int) ∣ size) (i : Int) (hi0 : 0 ≤ i) (hi : i < size) :
    reverse_inplace_quad m src size (src + i) = m (src + (size - 1 - i)) := by
  rw [reverse_inplace_quad_spec m src size h0 h8, if_pos (by omega)]
  congr 1
  omega

/-- At size 8 the reversal swaps the first and the last byte. -/
theorem reverse_inplace_quad_reverses_witness :
    (0 : Int) ≤ 8 ∧ (8 : Int) ∣ 8 ∧
    reverse_inplace_quad ramp 0 8 (0 + 0) = ramp (0 + (8 - 1 - 0)) :=
  ⟨by decide, by decide,
    reverse_inplace_quad_reverses ramp 0 8 (by decide) (by decide) 0 (by decide) (by decide)⟩

theorem rot90cw_coord_int (m : Mem) (src dst width height : Int)
    (hw : 1 ≤ width) (hh : 1 ≤ height)
    (hd : dst + width * height ≤ src ∨ src + width * height ≤ dst) :
    (∀ c j : Int, 0 ≤ c → c < width → 0 ≤ j → j < height →
      rot90cw m src dst (width * height) width height (dst + (c * height + j))
        = m (src + ((height - 1 - j) * width + c))) ∧
    (∀ k : Int, 0 ≤ k → k < width * height →
      ∃ c j : Int, 0 ≤ c ∧ c < width ∧ 0 ≤ j ∧ j < height ∧ k = c * height + j) ∧
    (∀ a : Int, a < dst ∨ dst + width * height ≤ a →
      rot90cw m src dst (width * height) width height a = m a) := by
  obtain ⟨W, rfl⟩ := Int.eq_ofNat_of_zero_le (show 0 ≤ width by omega)
  obtain ⟨H, rfl⟩ := Int.eq_ofNat_of_zero_le (show 0 ≤ height by omega)
  obtain ⟨s1, s2⟩ := rot90cw_coord m src dst W H hd
  refine ⟨?_, ?_, s2⟩
  · intro c j hc0 hc hj0 hj
    obtain ⟨c, rfl⟩ := Int.eq_ofNat_of_zero_le hc0
    obtain ⟨j, rfl⟩ := Int.eq_ofNat_of_zero_le hj0
    rw [← add_assoc, ← add_assoc]
    exact s1 c j (by omega) (by omega)
  · intro k hk0 hk
    have hH : (0 : Int) < (H : Int) := by omega
    refine ⟨k / (H : Int), k % (H : Int), Int.ediv_nonneg hk0 (by omega), ?_,
      Int.emod_nonneg k (by omega), Int.emod_lt_of_pos k hH, ?_⟩
    · exact Int.ediv_lt_of_lt_mul hH hk
    · have := Int.ediv_add_emod k (H : Int)
      rw [mul_comm] at this
      exact this.symm


/-- C7. Clockwise quarter turn, coordinate form: for a plane of `width * height` bytes
at `src` and a destination at `dst` that does not overlap it, `rot90cw` puts source
byte `(height - 1 - j) * width + c` at destination index `c * height + j`, for all
`0 ≤ c < width`, `0 ≤ j < height`; these indices are all of `[0, size)`, and no byte
outside the destination is written. -/
theorem rot90cw_coordinate_form (m : Mem) (src dst width height : Int)
    (hw : 1 ≤ width) (hh : 1 ≤ height)
    (hd : dst + width * height ≤ src ∨ src + width * height ≤ dst) :
    (∀ c j : Int, 0 ≤ c → c < width → 0 ≤ j → j < height →
      rot90cw m src dst (width * height) width height (dst + (c * height + j))
        = m (src + ((height - 1 - j) * width + c))) ∧
    (∀ k : Int, 0 ≤ k → k < width * height →
      ∃ c j : Int, 0 ≤ c ∧ c < width ∧ 0 ≤ j ∧ j < height ∧ k = c * height + j) ∧
    (∀ a : Int, a < dst ∨ dst + width * height ≤ a →
      rot90cw m src dst (width * height) width height a = m a) :=
  rot90cw_coord_int m src dst width height hw hh hd

/-- On a 16 x 16 plane filled with 0..255, row 0, column 15 of the output is the
original byte at row 0, column 0. -/
theorem rot90cw_coordinate_form_witness :
    ((1 : Int) ≤ 16) ∧ ((256 : Int) + 16 * 16 ≤ 0 ∨ (0 : Int) + 16 * 16 ≤ 256) ∧
    rot90cw ramp 0 256 (16 * 16) 16 16 (256 + (0 * 16 + 15)) =
      ramp (0 + ((16 - 1 - 15) * 16 + 0)) :=
  ⟨by decide, by decide,
    (rot90cw_coordinate_form ramp 0 256 16 16 (by decide) (by decide) (by decide)).1 0 15
      (by decide) (by decide) (by decide) (by decide)⟩

/-- C8, as stated, fails on the 2 x 2 plane 0 1 / 2 3: the first row of the rotated
plane is 2 0, the source's first column read bottom to top, and neither of its bytes
is a byte of the source's last column 1 3. -/
theorem rot90cw_first_row_not_last_column :
    ¬ first_row_holds_last_column ramp (rot90cw ramp 0 4 (2 * 2) 2 2) 0 4 2 2 := by
  intro h
  obtain ⟨i, hi0, hi1, e⟩ := h 0 (by decide) (by decide)
  have hi : i = 0 ∨ i = 1 := by omega
  rcases hi with rfl | rfl
  · revert e
    decide
  · revert e
    decide

/-- C8, amended. After `rot90cw` the destination's last column (index `height - 1` of
each destination row) holds the bytes of source row 0; the destination's first row
holds the bytes of the source's first column (column 0), read bottom to top; and the
source's last column (column `width - 1`), read bottom to top, is the destination's
last row. -/
theorem rot90cw_net_effect (m : Mem) (src dst width height : Int)
    (hw : 1 ≤ width) (hh : 1 ≤ height)
    (hd : dst + width * height ≤ src ∨ src + width * height ≤ dst) :
    (∀ c : Int, 0 ≤ c → c < width →
      rot90cw m src dst (width * height) width height (dst + (c * height + (height - 1)))
        = m (src + c)) ∧
    (∀ j : Int, 0 ≤ j → j < height →
      rot90cw m src dst (width * height) width height (dst + j)
        = m (src + (height - 1 - j) * width)) ∧
    (∀ j : Int, 0 ≤ j → j < height →
      rot90cw m src dst (width * height) width height (dst + ((width - 1) * height + j))
        = m (src + ((height - 1 - j) * width + (width - 1)))) := by
  obtain ⟨s1, _, _⟩ := rot90cw_coord_int m src dst width height hw hh hd
  refine ⟨?_, ?_, ?_⟩
  · intro c hc0 hc
    rw [s1 c (height - 1) hc0 hc (by omega) (by omega)]
    congr 1
    ring
  · intro j hj0 hj
    have := s1 0 j (by omega) (by omega) hj0 hj
    rw [show dst + (0 * height + j) = dst + j by ring] at this
    rw [this]
    congr 1
    ring
  · intro j hj0 hj
    exact s1 (width - 1) j (by omega) (by omega) hj0 hj

/-- On the 2 x 2 plane 0 1 / 2 3 the first destination byte is the bottom byte of the
source's first column. -/
theorem rot90cw_net_effect_witness :
    ((1 : Int) ≤ 2) ∧ ((4 : Int) + 2 * 2 ≤ 0 ∨ (0 : Int) + 2 * 2 ≤ 4) ∧
    rot90cw ramp 0 4 (2 * 2) 2 2 (4 + 0) = ramp (0 + (2 - 1 - 0) * 2) :=
  ⟨by decide, by decide,
    (rot90cw_net_effect ramp 0 4 2 2 (by decide) (by decide) (by decide)).2.1 0
      (by decide) (by decide)⟩

/-! ## Claims about whole frames -/

theorem cw_ccw_swap_id (W H k : Nat) (hk : k < W * H) : cwIdx W H (ccwIdx H W k) = k := by
  unfold ccwIdx
  exact cwIdx_ccw W H k hk

theorem ccwIdx_swap_lt (W H k : Nat) (hk : k < W * H) : ccwIdx H W k < W * H := by
  rw [Nat.mul_comm W H] at hk ⊢
  exact ccwIdx_lt H W k hk

/-- C1. Quarter-turn round trip: on a frame whose width and height are positive
multiples of 16, `rotate_img` at 90 degrees (`rot90cw` on the Y, U and V planes)
followed by `rotate_img` at 270 degrees on the turned frame, with width and height
swapped (`rot90ccw` on its planes), gives back every byte of the frame.  The scratch
buffer holds a frame and does not overlap it. -/
theorem quarter_turn_round_trip (cnt : context) (m : Mem) (img width height : Int)
    (hw : 0 < width) (hw16 : (16 : Int) ∣ width) (hh : 0 < height) (hh16 : (16 : Int) ∣ height)
    (hfit : Int.tdiv (width * height * 3) 2 ≤ cnt.imgs.common_buffer_size)
    (hs : scratch_apart cnt img (Int.tdiv (width * height * 3) 2))
    (i : Int) (hi0 : 0 ≤ i) (hi : i < Int.tdiv (width * height * 3) 2) :
    (rotate_img (cnt.with_rotation 270 FLIP_TYPE.FLIP_TYPE_NONE)
      (rotate_img (cnt.with_rotation 90 FLIP_TYPE.FLIP_TYPE_NONE) m img width height).2
      img height width).2 (img + i) = m (img + i) := by
  obtain ⟨W2, _, _, rfl⟩ := dims_of_16 width hw hw16
  obtain ⟨H2, _, _, rfl⟩ := dims_of_16 height hh hh16
  rw [frameSize_eq] at hfit hs hi
  have F1 := rotate_img_90_frame (cnt.with_rotation 90 FLIP_TYPE.FLIP_TYPE_NONE) m img W2 H2
    rfl (fun _ _ k => k) (fun m0 => flip_planes_none m0 img W2 H2) (fun _ _ _ h => h) hfit hs
  have F2 := rotate_img_270_frame (cnt.with_rotation 270 FLIP_TYPE.FLIP_TYPE_NONE)
    (rotate_img (cnt.with_rotation 90 FLIP_TYPE.FLIP_TYPE_NONE) m img
      ((2 * W2 : Nat) : Int) ((2 * H2 : Nat) : Int)).2 img H2 W2
    rfl (fun _ _ k => k) (fun m0 => flip_planes_none m0 img H2 W2) (fun _ _ _ h => h)
    (by rw [frameSize_swap]; exact hfit) (by rw [frameSize_swap]; exact hs)
  exact frameMap_of_id (frameMap_trans (frameMap_swap F2) F1 ccwIdx_swap_lt) cw_ccw_swap_id
    i hi0 hi

/-- A 16 x 16 frame at address 0 with the scratch buffer at address 1000: byte 5 of
the frame is back in place after the two turns. -/
theorem quarter_turn_round_trip_witness :
    ((0 : Int) < 16) ∧ ((16 : Int) ∣ 16) ∧
    (rotate_img ((ctx 0 0 FLIP_TYPE.FLIP_TYPE_NONE 1000 384).with_rotation 270
        FLIP_TYPE.FLIP_TYPE_NONE)
      (rotate_img ((ctx 0 0 FLIP_TYPE.FLIP_TYPE_NONE 1000 384).with_rotation 90
        FLIP_TYPE.FLIP_TYPE_NONE) ramp 0 16 16).2
      0 16 16).2 (0 + 5) = ramp (0 + 5) :=
  ⟨by decide, by decide,
    quarter_turn_round_trip (ctx 0 0 FLIP_TYPE.FLIP_TYPE_NONE 1000 384) ramp 0 16 16
      (by decide) (by decide) (by decide) (by decide) (by decide) (Or.inl (by decide))
      5 (by decide) (by decide)⟩

/-- C6. 180-degree rotation of a frame whose width and height are positive multiples
of 16, without a flip: `rotate_img` returns 0 and each of the Y, U and V planes holds
its original bytes in reverse order.  The scratch buffer does not overlap the frame. -/
theorem rotate_img_180_reverses (cnt : context) (m : Mem) (img width height : Int)
    (hw : 0 < width) (hw16 : (16 : Int) ∣ width) (hh : 0 < height) (hh16 : (16 : Int) ∣ height)
    (hdeg : cnt.rotate_data.degrees = 180)
    (haxis : cnt.rotate_data.axis = FLIP_TYPE.FLIP_TYPE_NONE)
    (hs : scratch_apart cnt img (Int.tdiv (width * height * 3) 2)) :
    (rotate_img cnt m img width height).1 = 0 ∧
    ∀ p ∈ frame_planes img width height, ∀ i : Int, 0 ≤ i → i < p.width * p.height →
      (rotate_img cnt m img width height).2 (p.base + i)
        = m (p.base + (p.width * p.height - 1 - i)) := by
  obtain ⟨W2, _, hW8, rfl⟩ := dims_of_16 width hw hw16
  obtain ⟨H2, _, _, rfl⟩ := dims_of_16 height hh hh16
  rw [frameSize_eq] at hs
  have F := rotate_img_180_frame cnt m img W2 H2 hdeg (Dvd.dvd.mul_right hW8 H2)
    (fun _ _ k => k) (by rw [haxis]; exact fun m0 => flip_planes_none m0 img W2 H2)
    (fun _ _ _ h => h) hs
  refine ⟨by rw [rotate_img_180 cnt m img _ _ hdeg], ?_⟩
  intro p hp i hi0 hi
  obtain ⟨W, H, ew, eh, c⟩ := frameMap_planes F p hp
  rw [ew, eh] at hi ⊢
  obtain ⟨k, rfl⟩ := Int.eq_ofNat_of_zero_le hi0
  have e : ((W * H : Nat) : Int) = (W : Int) * (H : Int) := by push_cast; ring
  have hk : k < W * H := by omega
  rw [c k hk]
  congr 1
  show p.base + ((revIdx (W * H) k : Nat) : Int) = _
  unfold revIdx
  omega

/-- A 16 x 16 frame at address 0 whose Y plane is filled with 0..255: after the
rotation the Y plane reads 255..0 (byte `i` is the original byte `255 - i`). -/
theorem rotate_img_180_reverses_witness :
    (rotate_img (ctx 0 180 FLIP_TYPE.FLIP_TYPE_NONE 1000 384) ramp 0 16 16).1 = 0 ∧
    ∀ i : Int, 0 ≤ i → i < 16 * 16 →
      (rotate_img (ctx 0 180 FLIP_TYPE.FLIP_TYPE_NONE 1000 384) ramp 0 16 16).2 (0 + i)
        = ramp (0 + (16 * 16 - 1 - i)) :=
  ⟨(rotate_img_180_reverses (ctx 0 180 FLIP_TYPE.FLIP_TYPE_NONE 1000 384) ramp 0 16 16
      (by decide) (by decide) (by decide) (by decide) rfl rfl (Or.inl (by decide))).1,
   (rotate_img_180_reverses (ctx 0 180 FLIP_TYPE.FLIP_TYPE_NONE 1000 384) ramp 0 16 16
      (by decide) (by decide) (by decide) (by decide) rfl rfl (Or.inl (by decide))).2
      ⟨0, 16, 16⟩ (by simp [frame_planes])⟩

/-- C10. Forward/inverse round trip at 90 degrees without a flip: `rotate_img` on a
frame whose width and height are positive multiples of 16, then `unrotate_pgm` on the
luma plane of the result with the swapped dimensions, gives back the original luma
plane.  The scratch buffer holds a frame and does not overlap it. -/
theorem rotate_unrotate_90 (cnt : context) (m : Mem) (img width height : Int)
    (hw : 0 < width) (hw16 : (16 : Int) ∣ width) (hh : 0 < height) (hh16 : (16 : Int) ∣ height)
    (hdeg : cnt.rotate_data.degrees = 90)
    (haxis : cnt.rotate_data.axis = FLIP_TYPE.FLIP_TYPE_NONE)
    (hfit : Int.tdiv (width * height * 3) 2 ≤ cnt.imgs.common_buffer_size)
    (hs : scratch_apart cnt img (Int.tdiv (width * height * 3) 2))
    (i : Int) (hi0 : 0 ≤ i) (hi : i < width * height) :
    (unrotate_pgm cnt (rotate_img cnt m img width height).2 img height width).2 (img + i)
      = m (img + i) := by
  obtain ⟨W2, _, _, rfl⟩ := dims_of_16 width hw hw16
  obtain ⟨H2, _, _, rfl⟩ := dims_of_16 height hh hh16
  rw [frameSize_eq] at hfit hs
  have F1 := rotate_img_90_frame cnt m img W2 H2 hdeg (fun _ _ k => k)
    (by rw [haxis]; exact fun m0 => flip_planes_none m0 img W2 H2) (fun _ _ _ h => h) hfit hs
  have hP : (0 : Int) ≤ (W2 : Int) * (H2 : Int) := by positivity
  have hd : img + ((2 * H2 : Nat) : Int) * ((2 * W2 : Nat) : Int) ≤ cnt.imgs.common_buffer ∨
      cnt.imgs.common_buffer + ((2 * H2 : Nat) : Int) * ((2 * W2 : Nat) : Int) ≤ img := by
    unfold scratch_apart at hs
    unfold frameSize at hs hfit
    rw [mul_comm ((2 * H2 : Nat) : Int)]
    omega
  have U := unrotate_pgm_90_plane cnt
    (rotate_img cnt m img ((2 * W2 : Nat) : Int) ((2 * H2 : Nat) : Int)).2 img
    (2 * H2) (2 * W2) hdeg haxis hd
  have U2 : CopyMap (unrotate_pgm cnt
      (rotate_img cnt m img ((2 * W2 : Nat) : Int) ((2 * H2 : Nat) : Int)).2 img
      ((2 * H2 : Nat) : Int) ((2 * W2 : Nat) : Int)).2
      (rotate_img cnt m img ((2 * W2 : Nat) : Int) ((2 * H2 : Nat) : Int)).2 img img
      (2 * W2 * (2 * H2)) (ccwIdx (2 * H2) (2 * W2)) := by
    rw [Nat.mul_comm (2 * W2) (2 * H2)]
    exact U
  have e : ((2 * W2 * (2 * H2) : Nat) : Int) = ((2 * W2 : Nat) : Int) * ((2 * H2 : Nat) : Int) := by
    push_cast; ring
  exact copyMap_of_id (copyMap_trans U2 F1.1 (ccwIdx_swap_lt (2 * W2) (2 * H2)))
    (fun k hk => cw_ccw_swap_id (2 * W2) (2 * H2) k hk) i hi0 (by omega)

/-- A 16 x 16 frame at address 0 with the scratch buffer at address 1000: byte 5 of
the luma plane is back in place. -/
theorem rotate_unrotate_90_witness :
    ((0 : Int) < 16) ∧ ((16 : Int) ∣ 16) ∧
    (unrotate_pgm (ctx 0 90 FLIP_TYPE.FLIP_TYPE_NONE 1000 384)
      (rotate_img (ctx 0 90 FLIP_TYPE.FLIP_TYPE_NONE 1000 384) ramp 0 16 16).2
      0 16 16).2 (0 + 5) = ramp (0 + 5) :=
  ⟨by decide, by decide,
    rotate_unrotate_90 (ctx 0 90 FLIP_TYPE.FLIP_TYPE_NONE 1000 384) ramp 0 16 16
      (by decide) (by decide) (by decide) (by decide) rfl rfl (by decide)
      (Or.inl (by decide)) 5 (by decide) (by decide)⟩

/-! ## Flip, then turn -/

/-- A top/bottom mirror followed by a clockwise quarter turn is the transposition. -/
theorem transpose_idx (W H r q : Nat) (hr : r < W) (hq : q < H) :
    hflipIdx W H (cwIdx W H (r * H + q)) = q * W + r := by
  rw [cwIdx_coord W H r q hq, hflipIdx_coord W H (H - 1 - q) r hr]
  have e : H - 1 - (H - 1 - q) = q := by omega
  rw [e]

theorem cwIdx_cast (W H k : Nat) (hH : 0 < H) :
    ((cwIdx W H k : Nat) : Int) =
      ((H : Int) - 1 - (k : Int) % (H : Int)) * (W : Int) + (k : Int) / (H : Int) := by
  unfold cwIdx
  have h := Nat.mod_lt k hH
  have e : ((H - 1 - k % H : Nat) : Int) = (H : Int) - 1 - ((k % H : Nat) : Int) := by omega
  rw [Nat.cast_add, Nat.cast_mul, e]
  push_cast
  rfl

theorem hflipIdx_cast (W H k : Nat) (hk : k < W * H) :
    ((hflipIdx W H k : Nat) : Int) =
      ((H : Int) - 1 - (k : Int) / (W : Int)) * (W : Int) + (k : Int) % (W : Int) := by
  obtain ⟨hr, _, _⟩ := div_mod_coord W k H hk
  unfold hflipIdx
  have e : ((H - 1 - k / W : Nat) : Int) = (H : Int) - 1 - ((k / W : Nat) : Int) := by
    generalize k / W = r at hr
    omega
  rw [Nat.cast_add, Nat.cast_mul, e]
  push_cast
  rfl

/-- The two reference passes, on a plane given by its bytes in memory. -/
theorem ref_passes_eq (m : Mem) (p : Int) (W H k : Nat) (hk : k < W * H) :
    ref_rot90cw (W : Int) (H : Int) (ref_mirror_tb (W : Int) (H : Int) (fun i => m (p + i)))
        (k : Int)
      = m (p + ((hflipIdx W H (cwIdx W H k) : Nat) : Int)) := by
  have hH : 0 < H := by
    rcases Nat.eq_zero_or_pos H with h | h
    · subst h; simp at hk
    · exact h
  unfold ref_rot90cw ref_mirror_tb
  rw [hflipIdx_cast W H _ (cwIdx_lt W H k hk), cwIdx_cast W H k hH]

/-- C9. Flip is applied before rotation: after `rotate_img` with degrees = 90 and
axis = horizontal on a frame whose width and height are positive multiples of 16, each
plane is the reference clockwise quarter turn of the reference top/bottom mirror of the
original plane, taken at the plane's width and height before the turn; that is the
transpose of the plane, `out[r * ph + q] = in[q * pw + r]`.  For the frame that holds 0
in its first byte and 1 elsewhere this differs from the mirror (at the turned geometry)
of the quarter turn.  The scratch buffer holds a frame and does not overlap it. -/
theorem rotate_img_flip_then_rotate (cnt : context) (m : Mem) (img width height : Int)
    (hw : 0 < width) (hw16 : (16 : Int) ∣ width) (hh : 0 < height) (hh16 : (16 : Int) ∣ height)
    (hdeg : cnt.rotate_data.degrees = 90)
    (haxis : cnt.rotate_data.axis = FLIP_TYPE.FLIP_TYPE_HORIZONTAL)
    (hfit : Int.tdiv (width * height * 3) 2 ≤ cnt.imgs.common_buffer_size)
    (hs : scratch_apart cnt img (Int.tdiv (width * height * 3) 2)) :
    (∀ p ∈ frame_planes img width height,
      (∀ k : Int, 0 ≤ k → k < p.width * p.height →
        (rotate_img cnt m img width height).2 (p.base + k)
          = ref_rot90cw p.width p.height
              (ref_mirror_tb p.width p.height (fun i => m (p.base + i))) k) ∧
      (∀ r q : Int, 0 ≤ r → r < p.width → 0 ≤ q → q < p.height →
        (rotate_img cnt m img width height).2 (p.base + (r * p.height + q))
          = m (p.base + (q * p.width + r)))) ∧
    (∃ k : Int, 0 ≤ k ∧ k < width * height ∧
      (rotate_img cnt (spot img) img width height).2 (img + k)
        ≠ ref_mirror_tb height width
            (ref_rot90cw width height (fun i => spot img (img + i))) k) := by
  obtain ⟨W2, hW2, _, rfl⟩ := dims_of_16 width hw hw16
  obtain ⟨H2, hH2, _, rfl⟩ := dims_of_16 height hh hh16
  rw [frameSize_eq] at hfit hs
  have F : ∀ m' : Mem,
      FrameMap (rotate_img cnt m' img ((2 * W2 : Nat) : Int) ((2 * H2 : Nat) : Int)).2 m' img
        W2 H2 (fun W H k => hflipIdx W H (cwIdx W H k)) := fun m' =>
    rotate_img_90_frame cnt m' img W2 H2 hdeg hflipIdx
      (by rw [haxis]; exact fun m0 => (flip_planes_horizontal m0 img W2 H2).1)
      hflipIdx_lt hfit hs
  constructor
  · intro p hp
    obtain ⟨W, H, ew, eh, c⟩ := frameMap_planes (F m) p hp
    rw [ew, eh]
    have e : ((W * H : Nat) : Int) = (W : Int) * (H : Int) := by push_cast; ring
    constructor
    · intro k hk0 hk
      obtain ⟨k, rfl⟩ := Int.eq_ofNat_of_zero_le hk0
      have hk' : k < W * H := by omega
      rw [c k hk', ref_passes_eq m p.base W H k hk']
    · intro r q hr0 hr hq0 hq
      obtain ⟨r, rfl⟩ := Int.eq_ofNat_of_zero_le hr0
      obtain ⟨q, rfl⟩ := Int.eq_ofNat_of_zero_le hq0
      have hr' : r < W := by omega
      have hq' : q < H := by omega
      have hk' : r * H + q < W * H := idx_lt r q W H hr' hq'
      have c' := c (r * H + q) hk'
      simp only [transpose_idx W H r q hr' hq'] at c'
      push_cast at c'
      exact c'
  · refine ⟨0, le_refl 0, by positivity, ?_⟩
    have c : (rotate_img cnt (spot img) img ((2 * W2 : Nat) : Int) ((2 * H2 : Nat) : Int)).2
        (img + ((0 : Nat) : Int))
          = spot img (img + ((hflipIdx (2 * W2) (2 * H2) (cwIdx (2 * W2) (2 * H2) 0) : Nat) : Int)) :=
      (F (spot img)).1 0 (by positivity)
    have t := transpose_idx (2 * W2) (2 * H2) 0 0 (by omega) (by omega)
    simp only [Nat.zero_mul, Nat.add_zero] at t
    rw [t] at c
    simp only [Nat.cast_zero] at c
    have hne : ((2 * H2 : Nat) : Int) ≠ 0 := by omega
    have e1 : (((2 * W2 : Nat) : Int) - 1) * ((2 * H2 : Nat) : Int) % ((2 * H2 : Nat) : Int) = 0 :=
      Int.mul_emod_left _ _
    have e2 : (((2 * W2 : Nat) : Int) - 1) * ((2 * H2 : Nat) : Int) / ((2 * H2 : Nat) : Int) =
        ((2 * W2 : Nat) : Int) - 1 := Int.mul_ediv_cancel _ hne
    have hpos : (0 : Int) ≤ (((2 * H2 : Nat) : Int) - 1) * ((2 * W2 : Nat) : Int) :=
      mul_nonneg (by omega) (by omega)
    have hoff : img + ((((2 * H2 : Nat) : Int) - 1) * ((2 * W2 : Nat) : Int)
        + (((2 * W2 : Nat) : Int) - 1)) ≠ img := by omega
    rw [c]
    simp only [ref_mirror_tb, ref_rot90cw, Int.zero_ediv, Int.zero_emod, sub_zero, add_zero,
      e1, e2, spot, if_neg hoff, if_true]
    decide

/-- A 16 x 16 frame at address 0 whose Y plane is filled with 0..255: output byte
`1 * 16 + 0` is input byte `0 * 16 + 1`, and output byte 0 is the input byte 0, not
the byte 255 that the mirror of the quarter turn has there. -/
theorem rotate_img_flip_then_rotate_witness :
    ((0 : Int) < 16) ∧ ((16 : Int) ∣ 16) ∧
    (rotate_img (ctx 0 90 FLIP_TYPE.FLIP_TYPE_HORIZONTAL 1000 384) ramp 0 16 16).2
        (0 + (1 * 16 + 0)) = ramp (0 + (0 * 16 + 1)) ∧
    (rotate_img (ctx 0 90 FLIP_TYPE.FLIP_TYPE_HORIZONTAL 1000 384) ramp 0 16 16).2
        (0 + (0 * 16 + 0))
      ≠ ref_mirror_tb 16 16 (ref_rot90cw 16 16 (fun i => ramp (0 + i))) 0 := by
  have h := (rotate_img_flip_then_rotate (ctx 0 90 FLIP_TYPE.FLIP_TYPE_HORIZONTAL 1000 384)
    ramp 0 16 16 (by decide) (by decide) (by decide) (by decide) rfl rfl (by decide)
    (Or.inl (by decide))).1 ⟨0, 16, 16⟩ (by simp [frame_planes])
  refine ⟨by decide, by decide, h.2 1 0 (by decide) (by decide) (by decide) (by decide), ?_⟩
  rw [h.2 0 0 (by decide) (by decide) (by decide) (by decide)]
  decide

/-! ## Claims about the in-place primitives -/

/-- An in-place rearrangement by a map that is its own inverse, applied twice, gives
back the memory it started from. -/
theorem inplace_twice (op : Mem → Mem) (p : Int) (n : Nat) (s : Int) (es : s = (n : Int))
    (σ : Nat → Nat) (hb : ∀ k, k < n → σ k < n) (hi : ∀ k, k < n → σ (σ k) = k)
    (spec : ∀ m : Mem, CopyMap (op m) m p p n σ ∧ Unchanged (op m) m p s)
    (m : Mem) (a : Int) : op (op m) a = m a := by
  subst es
  by_cases h : p ≤ a ∧ a < p + (n : Int)
  · obtain ⟨k, hk⟩ := Int.eq_ofNat_of_zero_le (show 0 ≤ a - p by omega)
    have ha : a = p + (k : Int) := by omega
    subst ha
    have hk' : k < n := by omega
    rw [(spec (op m)).1 k hk', (spec m).1 (σ k) (hb k hk'), hi k hk']
  · rw [(spec (op m)).2 a (by omega), (spec m).2 a (by omega)]

/-- C12. Byte-block reversal is an involution: for every size that is a multiple of 4,
`reverse_inplace_quad` applied twice leaves the region (and the rest of memory) as it
was. -/
theorem reverse_inplace_quad_involution (m : Mem) (src size : Int) (h0 : 0 ≤ size)
    (h4 : (4 : Int) ∣ size) (a : Int) :
    reverse_inplace_quad (reverse_inplace_quad m src size) src size a = m a := by
  obtain ⟨t, rfl⟩ := h4
  obtain ⟨n, rfl⟩ := Int.eq_ofNat_of_zero_le (show 0 ≤ t by omega)
  exact reverse_inplace_quad_twice m src n a

/-- At size 12, an odd number of words, the second reversal puts byte 0 back. -/
theorem reverse_inplace_quad_involution_witness :
    (0 : Int) ≤ 12 ∧ (4 : Int) ∣ 12 ∧
    reverse_inplace_quad (reverse_inplace_quad ramp 0 12) 0 12 0 = ramp 0 :=
  ⟨by decide, by decide, reverse_inplace_quad_involution ramp 0 12 (by decide) (by decide) 0⟩

/-- C13. Both axis-flip primitives are involutions: for every width ≥ 0 and height ≥ 0,
odd values included, `flip_inplace_horizontal` applied twice and `flip_inplace_vertical`
applied twice each give back the plane (and the rest of memory) as it was. -/
theorem flips_involutive (m : Mem) (src width height : Int) (hw : 0 ≤ width)
    (hh : 0 ≤ height) (a : Int) :
    flip_inplace_horizontal (flip_inplace_horizontal m src width height) src width height a
      = m a ∧
    flip_inplace_vertical (flip_inplace_vertical m src width height) src width height a
      = m a := by
  obtain ⟨W, rfl⟩ := Int.eq_ofNat_of_zero_le hw
  obtain ⟨H, rfl⟩ := Int.eq_ofNat_of_zero_le hh
  constructor
  · exact inplace_twice (fun m => flip_inplace_horizontal m src (W : Int) (H : Int)) src (W * H)
      ((W : Int) * (H : Int)) (by push_cast; ring) (hflipIdx W H) (hflipIdx_lt W H)
      (hflipIdx_invol W H) (fun m => flip_inplace_horizontal_spec m src W H) m a
  · exact inplace_twice (fun m => flip_inplace_vertical m src (W : Int) (H : Int)) src (W * H)
      ((W : Int) * (H : Int)) (by push_cast; ring) (vflipIdx W H) (vflipIdx_lt W H)
      (vflipIdx_invol W H) (fun m => flip_inplace_vertical_spec m src W H) m a

/-- On a 3 x 3 plane, odd in both directions, two flips put byte 0 back. -/
theorem flips_involutive_witness :
    (0 : Int) ≤ 3 ∧
    flip_inplace_horizontal (flip_inplace_horizontal ramp 0 3 3) 0 3 3 0 = ramp 0 ∧
    flip_inplace_vertical (flip_inplace_vertical ramp 0 3 3) 0 3 3 0 = ramp 0 :=
  ⟨by decide, flips_involutive ramp 0 3 3 (by decide) (by decide) 0⟩

/-- C14. Top/bottom mirror: for every width ≥ 0 and height ≥ 0, after
`flip_inplace_horizontal` the byte at row `r`, column `c` is the original byte at row
`height - 1 - r`, column `c` (the middle row of a plane of odd height is unchanged). -/
theorem flip_inplace_horizontal_mirror (m : Mem) (src width height : Int) (hw : 0 ≤ width)
    (hh : 0 ≤ height) (r c : Int) (hr0 : 0 ≤ r) (hr : r < height) (hc0 : 0 ≤ c)
    (hc : c < width) :
    flip_inplace_horizontal m src width height (src + (r * width + c))
      = m (src + ((height - 1 - r) * width + c)) := by
  obtain ⟨W, rfl⟩ := Int.eq_ofNat_of_zero_le hw
  obtain ⟨H, rfl⟩ := Int.eq_ofNat_of_zero_le hh
  obtain ⟨r, rfl⟩ := Int.eq_ofNat_of_zero_le hr0
  obtain ⟨c, rfl⟩ := Int.eq_ofNat_of_zero_le hc0
  have e : ((H - 1 - r : Nat) : Int) = (H : Int) - 1 - (r : Int) := by omega
  rw [← add_assoc, ← add_assoc, ← e]
  exact (flip_inplace_horizontal_coord m src W H).1 r c (by omega) (by omega)

/-- On a 3 x 3 plane the top-left byte is the original bottom-left byte and the middle
row stays. -/
theorem flip_inplace_horizontal_mirror_witness :
    (0 : Int) ≤ 3 ∧
    flip_inplace_horizontal ramp 0 3 3 (0 + (0 * 3 + 0)) = ramp (0 + ((3 - 1 - 0) * 3 + 0)) ∧
    flip_inplace_horizontal ramp 0 3 3 (0 + (1 * 3 + 0)) = ramp (0 + ((3 - 1 - 1) * 3 + 0)) :=
  ⟨by decide,
    flip_inplace_horizontal_mirror ramp 0 3 3 (by decide) (by decide) 0 0
      (by decide) (by decide) (by decide) (by decide),
    flip_inplace_horizontal_mirror ramp 0 3 3 (by decide) (by decide) 1 0
      (by decide) (by decide) (by decide) (by decide)⟩

/-- C15. Left/right mirror: for every width ≥ 0 and height ≥ 0, after
`flip_inplace_vertical` the byte at row `r`, column `c` is the original byte at row `r`,
column `width - 1 - c` (the middle column of a plane of odd width is unchanged). -/
theorem flip_inplace_vertical_mirror (m : Mem) (src width height : Int) (hw : 0 ≤ width)
    (hh : 0 ≤ height) (r c : Int) (hr0 : 0 ≤ r) (hr : r < height) (hc0 : 0 ≤ c)
    (hc : c < width) :
    flip_inplace_vertical m src width height (src + (r * width + c))
      = m (src + (r * width + (width - 1 - c))) := by
  obtain ⟨W, rfl⟩ := Int.eq_ofNat_of_zero_le hw
  obtain ⟨H, rfl⟩ := Int.eq_ofNat_of_zero_le hh
  obtain ⟨r, rfl⟩ := Int.eq_ofNat_of_zero_le hr0
  obtain ⟨c, rfl⟩ := Int.eq_ofNat_of_zero_le hc0
  have e : ((W - 1 - c : Nat) : Int) = (W : Int) - 1 - (c : Int) := by omega
  rw [← add_assoc, ← add_assoc, ← e]
  exact (flip_inplace_vertical_coord m src W H).1 r c (by omega) (by omega)

/-- On a 3 x 3 plane the top-left byte is the original top-right byte and the middle
column stays. -/
theorem flip_inplace_vertical_mirror_witness :
    (0 : Int) ≤ 3 ∧
    flip_inplace_vertical ramp 0 3 3 (0 + (0 * 3 + 0)) = ramp (0 + (0 * 3 + (3 - 1 - 0))) ∧
    flip_inplace_vertical ramp 0 3 3 (0 + (0 * 3 + 1)) = ramp (0 + (0 * 3 + (3 - 1 - 1))) :=
  ⟨by decide,
    flip_inplace_vertical_mirror ramp 0 3 3 (by decide) (by decide) 0 0
      (by decide) (by decide) (by decide) (by decide),
    flip_inplace_vertical_mirror ramp 0 3 3 (by decide) (by decide) 0 1
      (by decide) (by decide) (by decide) (by decide)⟩

/-! ## Claims about the dimensions and the scratch capacity set by `rotate_init` -/

theorem rotate_init_angle_imgs (cnt : context) : (rotate_init_angle cnt).1.imgs = cnt.imgs := by
  unfold rotate_init_angle
  split_ifs <;> rfl

theorem rotate_init_dims_source (c : context) (newbuf : Int) :
    (rotate_init_dims c newbuf).imgs.width = c.imgs.width ∧
    (rotate_init_dims c newbuf).imgs.height = c.imgs.height ∧
    (rotate_init_dims c newbuf).imgs.width_high = c.imgs.width_high ∧
    (rotate_init_dims c newbuf).imgs.height_high = c.imgs.height_high := by
  simp only [rotate_init_dims]
  split_ifs <;> exact ⟨rfl, rfl, rfl, rfl⟩

/-- The branch of `rotate_init` for 0 and 180 degrees. -/
theorem rotate_init_dims_half (c : context) (newbuf : Int)
    (h : c.rotate_data.degrees = 0 ∨ c.rotate_data.degrees = 180) :
    (rotate_init_dims c newbuf).imgs.display_width = c.imgs.width ∧
    (rotate_init_dims c newbuf).imgs.display_height = c.imgs.height ∧
    (Int.tdiv (c.imgs.width_high * c.imgs.height_high * 3) 2 > 0 →
      (rotate_init_dims c newbuf).imgs.display_width_high = c.imgs.width_high ∧
      (rotate_init_dims c newbuf).imgs.display_height_high = c.imgs.height_high) ∧
    (¬ Int.tdiv (c.imgs.width_high * c.imgs.height_high * 3) 2 > 0 →
      (rotate_init_dims c newbuf).imgs.display_width_high = c.imgs.display_width_high ∧
      (rotate_init_dims c newbuf).imgs.display_height_high = c.imgs.display_height_high) ∧
    (rotate_init_dims c newbuf).imgs.common_buffer_size = c.imgs.common_buffer_size := by
  simp only [rotate_init_dims, if_pos h]
  split_ifs with hs
  · exact ⟨rfl, rfl, fun _ => ⟨rfl, rfl⟩, fun hn => absurd hs hn, rfl⟩
  · exact ⟨rfl, rfl, fun hn => absurd hn hs, fun _ => ⟨rfl, rfl⟩, rfl⟩

/-- The other branch of `rotate_init`, taken at 90 and 270 degrees. -/
theorem rotate_init_dims_quarter (c : context) (newbuf : Int)
    (h : ¬ (c.rotate_data.degrees = 0 ∨ c.rotate_data.degrees = 180)) :
    (rotate_init_dims c newbuf).imgs.display_width = c.imgs.height ∧
    (rotate_init_dims c newbuf).imgs.display_height = c.imgs.width ∧
    (Int.tdiv (c.imgs.width_high * c.imgs.height_high * 3) 2 > 0 →
      (rotate_init_dims c newbuf).imgs.display_width_high = c.imgs.height_high ∧
      (rotate_init_dims c newbuf).imgs.display_height_high = c.imgs.width_high) ∧
    (¬ Int.tdiv (c.imgs.width_high * c.imgs.height_high * 3) 2 > 0 →
      (rotate_init_dims c newbuf).imgs.display_width_high = c.imgs.display_width_high ∧
      (rotate_init_dims c newbuf).imgs.display_height_high = c.imgs.display_height_high) ∧
    (rotate_init_dims c newbuf).imgs.common_buffer_size =
      max c.imgs.common_buffer_size
        (max (Int.tdiv (c.imgs.width * c.imgs.height * 3) 2)
          (Int.tdiv (c.imgs.width_high * c.imgs.height_high * 3) 2)) := by
  simp only [rotate_init_dims, if_neg h]
  split_ifs with hs h1 h2 h2 h1 h2 h2
  all_goals first
    | exact ⟨rfl, rfl, fun _ => ⟨rfl, rfl⟩, fun hn => absurd hs hn, by simp only []; omega⟩
    | exact ⟨rfl, rfl, fun hn => absurd hn hs, fun _ => ⟨rfl, rfl⟩, by simp only []; omega⟩

/-- What `rotate_init` hands to its last part: the images record of the caller and the
normalised degrees that the result keeps. -/
theorem rotate_init_parts (cnt : context) (newbuf : Int) :
    (rotate_init cnt newbuf).1 =
      rotate_init_dims (rotate_init_axis (rotate_init_angle cnt).1) newbuf ∧
    (rotate_init_axis (rotate_init_angle cnt).1).imgs = cnt.imgs ∧
    (rotate_init cnt newbuf).1.rotate_data.degrees =
      (rotate_init_axis (rotate_init_angle cnt).1).rotate_data.degrees := by
  refine ⟨rfl, ?_, ?_⟩
  · rw [(rotate_init_axis_keeps _).2.1, rotate_init_angle_imgs]
  · show (rotate_init_dims (rotate_init_axis (rotate_init_angle cnt).1) newbuf).rotate_data.degrees
      = _
    rw [(rotate_init_dims_keeps _ newbuf).2]

/-- C16. Display dimensions set by `rotate_init`: when the normalised degrees are 0 or
180 the display dimensions are the source dimensions, when they are 90 or 270 they are
the source dimensions swapped; the same holds for the high-resolution tier when it is
present (`width_high * height_high * 3 / 2 > 0`), and its display fields are left as
they were when it is absent.  The source dimensions themselves are not changed. -/
theorem rotate_init_display (cnt : context) (newbuf : Int) :
    (((rotate_init cnt newbuf).1.rotate_data.degrees = 0 ∨
        (rotate_init cnt newbuf).1.rotate_data.degrees = 180) →
      (rotate_init cnt newbuf).1.imgs.display_width = (rotate_init cnt newbuf).1.imgs.width ∧
      (rotate_init cnt newbuf).1.imgs.display_height = (rotate_init cnt newbuf).1.imgs.height ∧
      (Int.tdiv (cnt.imgs.width_high * cnt.imgs.height_high * 3) 2 > 0 →
        (rotate_init cnt newbuf).1.imgs.display_width_high =
          (rotate_init cnt newbuf).1.imgs.width_high ∧
        (rotate_init cnt newbuf).1.imgs.display_height_high =
          (rotate_init cnt newbuf).1.imgs.height_high)) ∧
    (((rotate_init cnt newbuf).1.rotate_data.degrees = 90 ∨
        (rotate_init cnt newbuf).1.rotate_data.degrees = 270) →
      (rotate_init cnt newbuf).1.imgs.display_width = (rotate_init cnt newbuf).1.imgs.height ∧
      (rotate_init cnt newbuf).1.imgs.display_height = (rotate_init cnt newbuf).1.imgs.width ∧
      (Int.tdiv (cnt.imgs.width_high * cnt.imgs.height_high * 3) 2 > 0 →
        (rotate_init cnt newbuf).1.imgs.display_width_high =
          (rotate_init cnt newbuf).1.imgs.height_high ∧
        (rotate_init cnt newbuf).1.imgs.display_height_high =
          (rotate_init cnt newbuf).1.imgs.width_high)) ∧
    (¬ Int.tdiv (cnt.imgs.width_high * cnt.imgs.height_high * 3) 2 > 0 →
      (rotate_init cnt newbuf).1.imgs.display_width_high = cnt.imgs.display_width_high ∧
      (rotate_init cnt newbuf).1.imgs.display_height_high = cnt.imgs.display_height_high) ∧
    ((rotate_init cnt newbuf).1.imgs.width = cnt.imgs.width ∧
      (rotate_init cnt newbuf).1.imgs.height = cnt.imgs.height ∧
      (rotate_init cnt newbuf).1.imgs.width_high = cnt.imgs.width_high ∧
      (rotate_init cnt newbuf).1.imgs.height_high = cnt.imgs.height_high) := by
  obtain ⟨e1, e2, e3⟩ := rotate_init_parts cnt newbuf
  have src := rotate_init_dims_source (rotate_init_axis (rotate_init_angle cnt).1) newbuf
  rw [e3, e1]
  rw [e2] at src
  obtain ⟨s1, s2, s3, s4⟩ := src
  rw [s1, s2, s3, s4]
  refine ⟨?_, ?_, ?_, rfl, rfl, rfl, rfl⟩
  · intro h
    have k := rotate_init_dims_half _ newbuf h
    rw [e2] at k
    exact ⟨k.1, k.2.1, k.2.2.1⟩
  · intro h
    have hn : ¬ ((rotate_init_axis (rotate_init_angle cnt).1).rotate_data.degrees = 0 ∨
        (rotate_init_axis (rotate_init_angle cnt).1).rotate_data.degrees = 180) := by omega
    have k := rotate_init_dims_quarter _ newbuf hn
    rw [e2] at k
    exact ⟨k.1, k.2.1, k.2.2.1⟩
  · intro hs
    by_cases hd : (rotate_init_axis (rotate_init_angle cnt).1).rotate_data.degrees = 0 ∨
        (rotate_init_axis (rotate_init_angle cnt).1).rotate_data.degrees = 180
    · have k := rotate_init_dims_half _ newbuf hd
      rw [e2] at k
      exact k.2.2.2.1 hs
    · have k := rotate_init_dims_quarter _ newbuf hd
      rw [e2] at k
      exact k.2.2.2.1 hs

/-- A 16 x 32 source at 90 degrees is displayed as 32 x 16; at 180 degrees as 16 x 32. -/
theorem rotate_init_display_witness :
    ((rotate_init (ctx 90 0 FLIP_TYPE.FLIP_TYPE_NONE 0 0) 1000).1.imgs.display_width = 32 ∧
      (rotate_init (ctx 90 0 FLIP_TYPE.FLIP_TYPE_NONE 0 0) 1000).1.imgs.display_height = 16) ∧
    ((rotate_init (ctx 180 0 FLIP_TYPE.FLIP_TYPE_NONE 0 0) 1000).1.imgs.display_width = 16 ∧
      (rotate_init (ctx 180 0 FLIP_TYPE.FLIP_TYPE_NONE 0 0) 1000).1.imgs.display_height = 32) :=
  ⟨⟨((rotate_init_display (ctx 90 0 FLIP_TYPE.FLIP_TYPE_NONE 0 0) 1000).2.1
        (Or.inl (by decide))).1,
    ((rotate_init_display (ctx 90 0 FLIP_TYPE.FLIP_TYPE_NONE 0 0) 1000).2.1
        (Or.inl (by decide))).2.1⟩,
   ⟨((rotate_init_display (ctx 180 0 FLIP_TYPE.FLIP_TYPE_NONE 0 0) 1000).1
        (Or.inr (by decide))).1,
    ((rotate_init_display (ctx 180 0 FLIP_TYPE.FLIP_TYPE_NONE 0 0) 1000).1
        (Or.inr (by decide))).2.1⟩⟩

/-- C17. Grow-only scratch capacity: with `size_norm = width * height * 3 / 2` and
`size_high = width_high * height_high * 3 / 2`, after `rotate_init` the recorded
capacity is `max (old capacity) (max size_norm size_high)` when the normalised degrees
are 90 or 270 and the old capacity when they are 0 or 180; it never decreases, and at
90 and 270 degrees it is at least the frame size of either tier. -/
theorem rotate_init_capacity (cnt : context) (newbuf : Int) :
    (((rotate_init cnt newbuf).1.rotate_data.degrees = 90 ∨
        (rotate_init cnt newbuf).1.rotate_data.degrees = 270) →
      (rotate_init cnt newbuf).1.imgs.common_buffer_size =
        max cnt.imgs.common_buffer_size
          (max (Int.tdiv (cnt.imgs.width * cnt.imgs.height * 3) 2)
            (Int.tdiv (cnt.imgs.width_high * cnt.imgs.height_high * 3) 2))) ∧
    (((rotate_init cnt newbuf).1.rotate_data.degrees = 0 ∨
        (rotate_init cnt newbuf).1.rotate_data.degrees = 180) →
      (rotate_init cnt newbuf).1.imgs.common_buffer_size = cnt.imgs.common_buffer_size) ∧
    cnt.imgs.common_buffer_size ≤ (rotate_init cnt newbuf).1.imgs.common_buffer_size ∧
    (((rotate_init cnt newbuf).1.rotate_data.degrees = 90 ∨
        (rotate_init cnt newbuf).1.rotate_data.degrees = 270) →
      Int.tdiv (cnt.imgs.width * cnt.imgs.height * 3) 2 ≤
        (rotate_init cnt newbuf).1.imgs.common_buffer_size ∧
      Int.tdiv (cnt.imgs.width_high * cnt.imgs.height_high * 3) 2 ≤
        (rotate_init cnt newbuf).1.imgs.common_buffer_size) := by
  obtain ⟨e1, e2, e3⟩ := rotate_init_parts cnt newbuf
  rw [e3, e1]
  have half := fun h => (rotate_init_dims_half (rotate_init_axis (rotate_init_angle cnt).1)
    newbuf h).2.2.2.2
  have quarter := fun h => (rotate_init_dims_quarter (rotate_init_axis (rotate_init_angle cnt).1)
    newbuf h).2.2.2.2
  rw [e2] at half quarter
  refine ⟨?_, ?_, ?_, ?_⟩
  · intro h
    exact quarter (by omega)
  · intro h
    exact half h
  · by_cases hd : (rotate_init_axis (rotate_init_angle cnt).1).rotate_data.degrees = 0 ∨
        (rotate_init_axis (rotate_init_angle cnt).1).rotate_data.degrees = 180
    · rw [half hd]
    · rw [quarter hd]
      omega
  · intro h
    rw [quarter (by omega)]
    omega

/-- A 16 x 32 source at 90 degrees with no scratch buffer yet gets a capacity of 768
bytes; with a capacity of 1000 bytes already there, the capacity stays 1000. -/
theorem rotate_init_capacity_witness :
    (rotate_init (ctx 90 0 FLIP_TYPE.FLIP_TYPE_NONE 0 0) 1000).1.imgs.common_buffer_size
      = max 0 (max (Int.tdiv (16 * 32 * 3) 2) (Int.tdiv (0 * 0 * 3) 2)) ∧
    (1000 : Int) ≤
      (rotate_init (ctx 90 0 FLIP_TYPE.FLIP_TYPE_NONE 5000 1000) 1000).1.imgs.common_buffer_size :=
  ⟨(rotate_init_capacity (ctx 90 0 FLIP_TYPE.FLIP_TYPE_NONE 0 0) 1000).1 (Or.inl (by decide)),
   (rotate_init_capacity (ctx 90 0 FLIP_TYPE.FLIP_TYPE_NONE 5000 1000) 1000).2.2.1⟩

/-! ## Claims about `rotate_img` on whole frames, continued -/

/-- Two rearrangements of the same bytes by maps that agree give the same bytes. -/
theorem copyMap_agree {o1 o2 m : Mem} {p q : Int} {n : Nat} {σ τ : Nat → Nat}
    (h1 : CopyMap o1 m p q n σ) (h2 : CopyMap o2 m p q n τ) (e : ∀ k, k < n → σ k = τ k) :
    ∀ i : Int, 0 ≤ i → i < (n : Int) → o1 (p + i) = o2 (p + i) := by
  intro i h0 hi
  obtain ⟨k, rfl⟩ := Int.eq_ofNat_of_zero_le h0
  have hk : k < n := by omega
  rw [h1 k hk, h2 k hk, e k hk]

/-- Two frame maps from the same memory by index maps that agree give the same frame. -/
theorem frameMap_agree {o1 o2 m : Mem} {img : Int} {W2 H2 : Nat}
    {σ τ : Nat → Nat → Nat → Nat}
    (h1 : FrameMap o1 m img W2 H2 σ) (h2 : FrameMap o2 m img W2 H2 τ)
    (e : ∀ W H k, k < W * H → σ W H k = τ W H k) :
    ∀ i : Int, 0 ≤ i → i < frameSize W2 H2 → o1 (img + i) = o2 (img + i) := by
  intro i h0 hi
  have hY : ((2 * W2 * (2 * H2) : Nat) : Int) = ((2 * W2 : Nat) : Int) * ((2 * H2 : Nat) : Int) := by
    push_cast; ring
  have hU : ((W2 * H2 : Nat) : Int) = (W2 : Int) * (H2 : Int) := by push_cast; ring
  obtain ⟨a1, a2, a3⟩ := h1
  obtain ⟨b1, b2, b3⟩ := h2
  unfold frameSize at hi
  by_cases c1 : i < ((2 * W2 : Nat) : Int) * ((2 * H2 : Nat) : Int)
  · exact copyMap_agree a1 b1 (e _ _) i h0 (by omega)
  · by_cases c2 : i < ((2 * W2 : Nat) : Int) * ((2 * H2 : Nat) : Int) + (W2 : Int) * (H2 : Int)
    · have := copyMap_agree a2 b2 (e _ _) (i - ((2 * W2 : Nat) : Int) * ((2 * H2 : Nat) : Int))
        (by omega) (by omega)
      rw [show img + ((2 * W2 : Nat) : Int) * ((2 * H2 : Nat) : Int) +
        (i - ((2 * W2 : Nat) : Int) * ((2 * H2 : Nat) : Int)) = img + i by ring] at this
      exact this
    · have := copyMap_agree a3 b3 (e _ _)
        (i - ((2 * W2 : Nat) : Int) * ((2 * H2 : Nat) : Int) - (W2 : Int) * (H2 : Int))
        (by omega) (by omega)
      rw [show img + ((2 * W2 : Nat) : Int) * ((2 * H2 : Nat) : Int) + (W2 : Int) * (H2 : Int) +
        (i - ((2 * W2 : Nat) : Int) * ((2 * H2 : Nat) : Int) - (W2 : Int) * (H2 : Int))
          = img + i by ring] at this
      exact this

theorem cwIdx_swap_lt (W H k : Nat) (hk : k < W * H) : cwIdx H W k < W * H := by
  rw [Nat.mul_comm W H] at hk ⊢
  exact cwIdx_lt H W k hk

/-- C19. Two quarter turns make a half turn: on a frame whose width and height are
positive multiples of 16, without a flip, `rotate_img` at 90 degrees followed by
`rotate_img` at 90 degrees on the turned frame (width and height swapped) leaves in the
frame the same bytes as one `rotate_img` at 180 degrees.  The scratch buffer holds a
frame and does not overlap it. -/
theorem two_quarter_turns (cnt : context) (m : Mem) (img width height : Int)
    (hw : 0 < width) (hw16 : (16 : Int) ∣ width) (hh : 0 < height) (hh16 : (16 : Int) ∣ height)
    (hfit : Int.tdiv (width * height * 3) 2 ≤ cnt.imgs.common_buffer_size)
    (hs : scratch_apart cnt img (Int.tdiv (width * height * 3) 2))
    (i : Int) (hi0 : 0 ≤ i) (hi : i < Int.tdiv (width * height * 3) 2) :
    (rotate_img (cnt.with_rotation 90 FLIP_TYPE.FLIP_TYPE_NONE)
      (rotate_img (cnt.with_rotation 90 FLIP_TYPE.FLIP_TYPE_NONE) m img width height).2
      img height width).2 (img + i)
    = (rotate_img (cnt.with_rotation 180 FLIP_TYPE.FLIP_TYPE_NONE) m img width height).2
        (img + i) := by
  obtain ⟨W2, _, hW8, rfl⟩ := dims_of_16 width hw hw16
  obtain ⟨H2, _, _, rfl⟩ := dims_of_16 height hh hh16
  rw [frameSize_eq] at hfit hs hi
  have F1 := rotate_img_90_frame (cnt.with_rotation 90 FLIP_TYPE.FLIP_TYPE_NONE) m img W2 H2
    rfl (fun _ _ k => k) (fun m0 => flip_planes_none m0 img W2 H2) (fun _ _ _ h => h) hfit hs
  have F2 := rotate_img_90_frame (cnt.with_rotation 90 FLIP_TYPE.FLIP_TYPE_NONE)
    (rotate_img (cnt.with_rotation 90 FLIP_TYPE.FLIP_TYPE_NONE) m img
      ((2 * W2 : Nat) : Int) ((2 * H2 : Nat) : Int)).2 img H2 W2
    rfl (fun _ _ k => k) (fun m0 => flip_planes_none m0 img H2 W2) (fun _ _ _ h => h)
    (by rw [frameSize_swap]; exact hfit) (by rw [frameSize_swap]; exact hs)
  have F3 := rotate_img_180_frame (cnt.with_rotation 180 FLIP_TYPE.FLIP_TYPE_NONE) m img W2 H2
    rfl (Dvd.dvd.mul_right hW8 H2) (fun _ _ k => k) (fun m0 => flip_planes_none m0 img W2 H2)
    (fun _ _ _ h => h) hs
  exact frameMap_agree (frameMap_trans (frameMap_swap F2) F1 cwIdx_swap_lt) F3 cwIdx_cw
    i hi0 hi

/-- A 16 x 16 frame at address 0 with the scratch buffer at address 1000: byte 5 is the
same after two quarter turns and after one half turn. -/
theorem two_quarter_turns_witness :
    ((0 : Int) < 16) ∧ ((16 : Int) ∣ 16) ∧
    (rotate_img ((ctx 0 0 FLIP_TYPE.FLIP_TYPE_NONE 1000 384).with_rotation 90
        FLIP_TYPE.FLIP_TYPE_NONE)
      (rotate_img ((ctx 0 0 FLIP_TYPE.FLIP_TYPE_NONE 1000 384).with_rotation 90
        FLIP_TYPE.FLIP_TYPE_NONE) ramp 0 16 16).2
      0 16 16).2 (0 + 5)
    = (rotate_img ((ctx 0 0 FLIP_TYPE.FLIP_TYPE_NONE 1000 384).with_rotation 180
        FLIP_TYPE.FLIP_TYPE_NONE) ramp 0 16 16).2 (0 + 5) :=
  ⟨by decide, by decide,
    two_quarter_turns (ctx 0 0 FLIP_TYPE.FLIP_TYPE_NONE 1000 384) ramp 0 16 16
      (by decide) (by decide) (by decide) (by decide) (by decide) (Or.inl (by decide))
      5 (by decide) (by decide)⟩

/-- A map of `[0, n)` into itself that is injective there lists `[0, n)` in another
order. -/
theorem range_map_perm (n : Nat) (σ : Nat → Nat) (hb : ∀ k, k < n → σ k < n)
    (hi : ∀ j k, j < n → k < n → σ j = σ k → j = k) :
    ((List.range n).map σ).Perm (List.range n) := by
  apply List.Subperm.perm_of_length_le
  · apply List.subperm_of_subset
    · apply List.Nodup.map_on _ (List.nodup_range n)
      intro j hj k hk e
      exact hi j k (List.mem_range.mp hj) (List.mem_range.mp hk) e
    · intro x hx
      obtain ⟨k, hk, rfl⟩ := List.mem_map.mp hx
      exact List.mem_range.mpr (hb k (List.mem_range.mp hk))
  · simp

/-- A rearrangement of a plane by an injective index map is a permutation of its
bytes. -/
theorem copyMap_perm {out m : Mem} {p : Int} {n : Nat} {σ : Nat → Nat}
    (h : CopyMap out m p p n σ) (hb : ∀ k, k < n → σ k < n)
    (hi : ∀ j k, j < n → k < n → σ j = σ k → j = k) :
    ((List.range n).map (fun k : Nat => out (p + (k : Int)))).Perm
      ((List.range n).map (fun k : Nat => m (p + (k : Int)))) := by
  have e : (List.range n).map (fun k : Nat => out (p + (k : Int))) =
      ((List.range n).map σ).map (fun k : Nat => m (p + (k : Int))) := by
    rw [List.map_map]
    apply List.map_congr_left
    intro k hk
    exact h k (List.mem_range.mp hk)
  rw [e]
  exact (range_map_perm n σ hb hi).map _

/-- C20. `rotate_img` only permutes bytes within each plane: for every degrees in
{0, 90, 180, 270}, every axis, on a frame whose width and height are positive multiples
of 16, with a scratch buffer that holds a frame and does not overlap it, the bytes of
each of the Y, U and V planes after the call are a permutation of the bytes of the same
plane before the call (so no 0xff filler of the scratch buffer reaches the frame). -/
theorem rotate_img_permutes (cnt : context) (m : Mem) (img width height : Int)
    (hw : 0 < width) (hw16 : (16 : Int) ∣ width) (hh : 0 < height) (hh16 : (16 : Int) ∣ height)
    (hdeg : cnt.rotate_data.degrees = 0 ∨ cnt.rotate_data.degrees = 90 ∨
      cnt.rotate_data.degrees = 180 ∨ cnt.rotate_data.degrees = 270)
    (hfit : Int.tdiv (width * height * 3) 2 ≤ cnt.imgs.common_buffer_size)
    (hs : scratch_apart cnt img (Int.tdiv (width * height * 3) 2)) :
    ∀ p ∈ frame_planes img width height,
      (plane_bytes (rotate_img cnt m img width height).2 p).Perm (plane_bytes m p) := by
  obtain ⟨W2, _, hW8, rfl⟩ := dims_of_16 width hw hw16
  obtain ⟨H2, _, _, rfl⟩ := dims_of_16 height hh hh16
  rw [frameSize_eq] at hfit hs
  have F := rotate_img_frame cnt m img W2 H2 hdeg (Dvd.dvd.mul_right hW8 H2) hfit hs
  intro p hp
  obtain ⟨W, H, ew, eh, c⟩ := frameMap_planes F p hp
  unfold plane_bytes
  have en : (p.width * p.height).toNat = W * H := by
    rw [ew, eh]
    have : (W : Int) * (H : Int) = ((W * H : Nat) : Int) := by push_cast; ring
    rw [this]
    exact Int.toNat_ofNat _
  rw [en]
  apply copyMap_perm c
  · intro k hk
    exact flipIdx_lt _ W H _ (rotIdx_lt _ W H k hk)
  · intro j k hj hk e
    exact rotIdx_inj _ W H j k hj hk
      (flipIdx_inj _ W H _ _ (rotIdx_lt _ W H j hj) (rotIdx_lt _ W H k hk) e)

/-- A 16 x 16 frame at address 0, turned by 270 degrees after a left/right mirror: the
Y plane keeps its bytes. -/
theorem rotate_img_permutes_witness :
    ((0 : Int) < 16) ∧ ((16 : Int) ∣ 16) ∧
    (plane_bytes (rotate_img (ctx 0 270 FLIP_TYPE.FLIP_TYPE_VERTICAL 1000 384) ramp 0 16 16).2
      ⟨0, 16, 16⟩).Perm (plane_bytes ramp ⟨0, 16, 16⟩) :=
  ⟨by decide, by decide,
    rotate_img_permutes (ctx 0 270 FLIP_TYPE.FLIP_TYPE_VERTICAL 1000 384) ramp 0 16 16
      (by decide) (by decide) (by decide) (by decide) (by decide) (by decide)
      (Or.inl (by decide)) ⟨0, 16, 16⟩ (by simp [frame_planes])⟩

/-! ## `rotate_img` followed by `unrotate_pgm` -/

/-- `rotate_img` on a frame whose width and height are positive multiples of 16, then
`unrotate_pgm` with the same configuration on the luma plane at the dimensions after the
rotation: byte `k` of the result is byte `roundIdx axis degrees W H k` of the original
luma plane. -/
theorem unrotate_after_rotate (cnt : context) (m : Mem) (img width height : Int)
    (hw : 0 < width) (hw16 : (16 : Int) ∣ width) (hh : 0 < height) (hh16 : (16 : Int) ∣ height)
    (hdeg : cnt.rotate_data.degrees = 0 ∨ cnt.rotate_data.degrees = 90 ∨
      cnt.rotate_data.degrees = 180 ∨ cnt.rotate_data.degrees = 270)
    (hfit : Int.tdiv (width * height * 3) 2 ≤ cnt.imgs.common_buffer_size)
    (hs : scratch_apart cnt img (Int.tdiv (width * height * 3) 2))
    (k : Nat) (hk : k < width.toNat * height.toNat) :
    (unrotate_pgm cnt (rotate_img cnt m img width height).2 img
      (post_width cnt.rotate_data.degrees width height)
      (post_height cnt.rotate_data.degrees width height)).2 (img + (k : Int))
    = m (img + ((roundIdx cnt.rotate_data.axis cnt.rotate_data.degrees
        width.toNat height.toNat k : Nat) : Int)) := by
  obtain ⟨W2, _, hW8, rfl⟩ := dims_of_16 width hw hw16
  obtain ⟨H2, _, _, rfl⟩ := dims_of_16 height hh hh16
  rw [frameSize_eq] at hfit hs
  simp only [Int.toNat_ofNat] at hk ⊢
  have h8 : 8 ∣ W2 * H2 := Dvd.dvd.mul_right hW8 H2
  have h8Y : 8 ∣ 2 * W2 * (2 * H2) := by
    obtain ⟨t, ht⟩ := h8
    exact ⟨4 * t, by rw [show 2 * W2 * (2 * H2) = 4 * (W2 * H2) by ring, ht]; ring⟩
  have F := (rotate_img_frame cnt m img W2 H2 hdeg h8 hfit hs).1
  have hP : (0 : Int) ≤ (W2 : Int) * (H2 : Int) := by positivity
  have hd : img + ((2 * W2 : Nat) : Int) * ((2 * H2 : Nat) : Int) ≤ cnt.imgs.common_buffer ∨
      cnt.imgs.common_buffer + ((2 * W2 : Nat) : Int) * ((2 * H2 : Nat) : Int) ≤ img := by
    unfold scratch_apart at hs
    unfold frameSize at hs hfit
    omega
  by_cases hq : cnt.rotate_data.degrees = 90 ∨ cnt.rotate_data.degrees = 270
  · simp only [post_width, post_height, roundIdx, if_pos hq]
    have U := unrotate_pgm_plane cnt
      (rotate_img cnt m img ((2 * W2 : Nat) : Int) ((2 * H2 : Nat) : Int)).2 img
      (2 * H2) (2 * W2) hdeg (by rw [Nat.mul_comm]; exact h8Y)
      (by rw [mul_comm ((2 * H2 : Nat) : Int)]; exact hd)
    rw [Nat.mul_comm (2 * H2) (2 * W2)] at U
    exact copyMap_trans U F
      (fun j hj => by
        have := flipIdx_lt cnt.rotate_data.axis (2 * H2) (2 * W2) _
          (unrotIdx_lt cnt.rotate_data.degrees (2 * H2) (2 * W2) j
            (by rw [Nat.mul_comm (2 * H2) (2 * W2)]; exact hj))
        rw [Nat.mul_comm (2 * H2) (2 * W2)] at this
        exact this) k hk
  · simp only [post_width, post_height, roundIdx, if_neg hq]
    have U := unrotate_pgm_plane cnt
      (rotate_img cnt m img ((2 * W2 : Nat) : Int) ((2 * H2 : Nat) : Int)).2 img
      (2 * W2) (2 * H2) hdeg h8Y hd
    exact copyMap_trans U F
      (fun j hj => flipIdx_lt cnt.rotate_data.axis (2 * W2) (2 * H2) _
        (unrotIdx_lt cnt.rotate_data.degrees (2 * W2) (2 * H2) j hj)) k hk

/-- C11, at the failing input: degrees = 90, axis = horizontal, a 16 x 16 frame at
address 0 whose luma plane is filled with 0..255.  After `rotate_img` and then
`unrotate_pgm` with the same configuration at the swapped dimensions, byte 0 of the luma
plane is the original byte 255, not the original byte 0: `unrotate_pgm` flips before it
turns back, as `rotate_img` does, and the plane comes back turned by 180 degrees. -/
theorem unrotate_pgm_flip_quarter :
    (unrotate_pgm (ctx 0 90 FLIP_TYPE.FLIP_TYPE_HORIZONTAL 1000 384)
      (rotate_img (ctx 0 90 FLIP_TYPE.FLIP_TYPE_HORIZONTAL 1000 384) ramp 0 16 16).2
      0 16 16).2 (0 + 0) = ramp (0 + 255) ∧
    ramp (0 + 255) ≠ ramp (0 + 0) := by
  have h := unrotate_after_rotate (ctx 0 90 FLIP_TYPE.FLIP_TYPE_HORIZONTAL 1000 384) ramp 0 16 16
    (by decide) (by decide) (by decide) (by decide) (by decide) (by decide)
    (Or.inl (by decide)) 0 (by decide)
  exact ⟨h, by decide⟩

/-! ## Where `unrotate_pgm` undoes `rotate_img`, and where it does not -/

theorem revIdx_coord (W H r c : Nat) (hr : r < H) (hc : c < W) :
    revIdx (W * H) (r * W + c) = (H - 1 - r) * W + (W - 1 - c) := by
  unfold revIdx
  have hH : H = (H - 1 - r) + (r + 1) := by omega
  have e0 : W * H = (H - 1 - r) * W + (r * W + W) := by
    rw [Nat.mul_comm W H]
    conv_lhs => rw [hH]
    ring
  omega

theorem ccwIdx_coord (W H r c : Nat) (hr : r < H) (hc : c < W) :
    ccwIdx H W (r * W + c) = c * H + (H - 1 - r) := by
  unfold ccwIdx
  have e := revIdx_coord W H r c hr hc
  unfold revIdx at e
  rw [Nat.mul_comm H W, e, cwIdx_coord H W (H - 1 - r) (W - 1 - c) (by omega)]
  have e2 : W - 1 - (W - 1 - c) = c := by omega
  rw [e2]

/-- A flip, a half turn and the same flip again are a half turn. -/
theorem flipIdx_rev_flip (axis : FLIP_TYPE) (W H k : Nat) (hk : k < W * H) :
    flipIdx axis W H (revIdx (W * H) (flipIdx axis W H k)) = revIdx (W * H) k := by
  obtain ⟨hr, hc, hkk⟩ := div_mod_coord W k H hk
  generalize k / W = r at hr hkk
  generalize k % W = c at hc hkk
  subst hkk
  cases axis
  · rfl
  · show hflipIdx W H (revIdx (W * H) (hflipIdx W H (r * W + c))) = _
    rw [hflipIdx_coord W H r c hc, revIdx_coord W H (H - 1 - r) c (by omega) hc,
      hflipIdx_coord W H _ _ (by omega), revIdx_coord W H r c hr hc]
    have e : H - 1 - (H - 1 - (H - 1 - r)) = H - 1 - r := by omega
    rw [e]
  · show vflipIdx W H (revIdx (W * H) (vflipIdx W H (r * W + c))) = _
    rw [vflipIdx_coord W H r c hc, revIdx_coord W H r (W - 1 - c) hr (by omega),
      vflipIdx_coord W H _ _ (by omega), revIdx_coord W H r c hr hc]
    have e : W - 1 - (W - 1 - (W - 1 - c)) = W - 1 - c := by omega
    rw [e]

/-- Without a flip, or at 0 or 180 degrees, `rotate_img` followed by `unrotate_pgm` puts
every byte of the luma plane back. -/
theorem roundIdx_id (axis : FLIP_TYPE) (degrees : Int) (W H k : Nat) (hk : k < W * H)
    (hdeg : degrees = 0 ∨ degrees = 90 ∨ degrees = 180 ∨ degrees = 270)
    (h : axis = FLIP_TYPE.FLIP_TYPE_NONE ∨ degrees = 0 ∨ degrees = 180) :
    roundIdx axis degrees W H k = k := by
  have hk' : k < H * W := by rw [Nat.mul_comm]; exact hk
  rcases hdeg with d | d | d | d
  · subst d
    simp only [roundIdx, rotIdx, unrotIdx]
    simp only [show ¬ ((0 : Int) = 90 ∨ (0 : Int) = 270) by decide, if_false,
      show ¬ ((0 : Int) = 90) by decide, show ¬ ((0 : Int) = 180) by decide,
      show ¬ ((0 : Int) = 270) by decide]
    exact flipIdx_invol axis W H k hk
  · subst d
    have ha : axis = FLIP_TYPE.FLIP_TYPE_NONE := by
      rcases h with h | h | h
      · exact h
      · exact absurd h (by decide)
      · exact absurd h (by decide)
    subst ha
    simp only [roundIdx, rotIdx, unrotIdx, flipIdx]
    simp only [show ((90 : Int) = 90 ∨ (90 : Int) = 270) by decide, if_true]
    exact cw_ccw_swap_id W H k hk
  · subst d
    simp only [roundIdx, rotIdx, unrotIdx]
    simp only [show ¬ ((180 : Int) = 90 ∨ (180 : Int) = 270) by decide, if_false,
      show ¬ ((180 : Int) = 90) by decide, if_true]
    rw [flipIdx_rev_flip axis W H _ (revIdx_lt (W * H) k hk)]
    exact revIdx_invol (W * H) k hk
  · subst d
    have ha : axis = FLIP_TYPE.FLIP_TYPE_NONE := by
      rcases h with h | h | h
      · exact h
      · exact absurd h (by decide)
      · exact absurd h (by decide)
    subst ha
    simp only [roundIdx, rotIdx, unrotIdx, flipIdx]
    simp only [show ((270 : Int) = 90 ∨ (270 : Int) = 270) by decide, if_true,
      show ¬ ((270 : Int) = 90) by decide, show ¬ ((270 : Int) = 180) by decide, if_false]
    exact ccwIdx_cw H W k hk'

/-- At 90 or 270 degrees with a flip, `rotate_img` followed by `unrotate_pgm` leaves the
luma plane turned by 180 degrees. -/
theorem roundIdx_quarter_flip (axis : FLIP_TYPE) (degrees : Int) (W H k : Nat)
    (hk : k < W * H) (hdeg : degrees = 90 ∨ degrees = 270)
    (ha : axis ≠ FLIP_TYPE.FLIP_TYPE_NONE) :
    roundIdx axis degrees W H k = revIdx (W * H) k := by
  obtain ⟨hr, hc, hkk⟩ := div_mod_coord W k H hk
  generalize k / W = r at hr hkk
  generalize k % W = c at hc hkk
  subst hkk
  rw [revIdx_coord W H r c hr hc]
  rcases hdeg with d | d
  · subst d
    simp only [roundIdx, rotIdx, unrotIdx]
    simp only [show ((90 : Int) = 90 ∨ (90 : Int) = 270) by decide, if_true]
    rw [ccwIdx_coord W H r c hr hc]
    cases axis
    · exact absurd rfl ha
    · show hflipIdx W H (cwIdx W H (hflipIdx H W (c * H + (H - 1 - r)))) = _
      rw [hflipIdx_coord H W c (H - 1 - r) (by omega),
        cwIdx_coord W H (W - 1 - c) (H - 1 - r) (by omega),
        hflipIdx_coord W H _ (W - 1 - c) (by omega)]
      have e : H - 1 - (H - 1 - (H - 1 - r)) = H - 1 - r := by omega
      rw [e]
    · show vflipIdx W H (cwIdx W H (vflipIdx H W (c * H + (H - 1 - r)))) = _
      rw [vflipIdx_coord H W c (H - 1 - r) (by omega),
        cwIdx_coord W H c (H - 1 - (H - 1 - r)) (by omega),
        vflipIdx_coord W H _ c hc]
      have e : H - 1 - (H - 1 - (H - 1 - r)) = H - 1 - r := by omega
      rw [e]
  · subst d
    simp only [roundIdx, rotIdx, unrotIdx]
    simp only [show ((270 : Int) = 90 ∨ (270 : Int) = 270) by decide, if_true,
      show ¬ ((270 : Int) = 90) by decide, show ¬ ((270 : Int) = 180) by decide, if_false]
    rw [cwIdx_coord H W r c hc]
    cases axis
    · exact absurd rfl ha
    · show hflipIdx W H (ccwIdx W H (hflipIdx H W ((W - 1 - c) * H + r))) = _
      rw [hflipIdx_coord H W (W - 1 - c) r hr,
        ccwIdx_coord H W (W - 1 - (W - 1 - c)) r (by omega) hr,
        hflipIdx_coord W H r _ (by omega)]
      have e : W - 1 - (W - 1 - (W - 1 - c)) = W - 1 - c := by omega
      rw [e]
    · show vflipIdx W H (ccwIdx W H (vflipIdx H W ((W - 1 - c) * H + r))) = _
      rw [vflipIdx_coord H W (W - 1 - c) r hr,
        ccwIdx_coord H W (W - 1 - c) (H - 1 - r) (by omega) (by omega),
        vflipIdx_coord W H _ _ (by omega)]
      have e : W - 1 - (W - 1 - (W - 1 - c)) = W - 1 - c := by omega
      rw [e]

theorem luma_index (width height : Int) (hw : 0 < width) (hh : 0 < height) (i : Int)
    (hi0 : 0 ≤ i) (hi : i < width * height) :
    ∃ k : Nat, i = (k : Int) ∧ k < width.toNat * height.toNat ∧
      ((width.toNat * height.toNat : Nat) : Int) = width * height := by
  obtain ⟨k, rfl⟩ := Int.eq_ofNat_of_zero_le hi0
  have e : ((width.toNat * height.toNat : Nat) : Int) = width * height := by
    rw [Nat.cast_mul, Int.toNat_of_nonneg (by omega), Int.toNat_of_nonneg (by omega)]
  exact ⟨k, rfl, by omega, e⟩

/-- Without a flip, or at 0 or 180 degrees, `unrotate_pgm` at the dimensions after the
rotation undoes `rotate_img` on the luma plane of a frame whose width and height are
positive multiples of 16. -/
theorem unrotate_undoes_rotate (cnt : context) (m : Mem) (img width height : Int)
    (hw : 0 < width) (hw16 : (16 : Int) ∣ width) (hh : 0 < height) (hh16 : (16 : Int) ∣ height)
    (hdeg : cnt.rotate_data.degrees = 0 ∨ cnt.rotate_data.degrees = 90 ∨
      cnt.rotate_data.degrees = 180 ∨ cnt.rotate_data.degrees = 270)
    (hgood : cnt.rotate_data.axis = FLIP_TYPE.FLIP_TYPE_NONE ∨ cnt.rotate_data.degrees = 0 ∨
      cnt.rotate_data.degrees = 180)
    (hfit : Int.tdiv (width * height * 3) 2 ≤ cnt.imgs.common_buffer_size)
    (hs : scratch_apart cnt img (Int.tdiv (width * height * 3) 2))
    (i : Int) (hi0 : 0 ≤ i) (hi : i < width * height) :
    (unrotate_pgm cnt (rotate_img cnt m img width height).2 img
      (post_width cnt.rotate_data.degrees width height)
      (post_height cnt.rotate_data.degrees width height)).2 (img + i) = m (img + i) := by
  obtain ⟨k, rfl, hk, _⟩ := luma_index width height hw hh i hi0 hi
  rw [unrotate_after_rotate cnt m img width height hw hw16 hh hh16 hdeg hfit hs k hk,
    roundIdx_id _ _ _ _ k hk hdeg hgood]

/-- At 90 or 270 degrees with a flip, `unrotate_pgm` after `rotate_img` leaves the luma
plane of a frame whose width and height are positive multiples of 16 turned by 180
degrees. -/
theorem unrotate_quarter_flip_reverses (cnt : context) (m : Mem) (img width height : Int)
    (hw : 0 < width) (hw16 : (16 : Int) ∣ width) (hh : 0 < height) (hh16 : (16 : Int) ∣ height)
    (hdeg : cnt.rotate_data.degrees = 90 ∨ cnt.rotate_data.degrees = 270)
    (haxis : cnt.rotate_data.axis ≠ FLIP_TYPE.FLIP_TYPE_NONE)
    (hfit : Int.tdiv (width * height * 3) 2 ≤ cnt.imgs.common_buffer_size)
    (hs : scratch_apart cnt img (Int.tdiv (width * height * 3) 2))
    (i : Int) (hi0 : 0 ≤ i) (hi : i < width * height) :
    (unrotate_pgm cnt (rotate_img cnt m img width height).2 img height width).2 (img + i)
      = m (img + (width * height - 1 - i)) := by
  obtain ⟨k, rfl, hk, e⟩ := luma_index width height hw hh i hi0 hi
  have h := unrotate_after_rotate cnt m img width height hw hw16 hh hh16 (by omega) hfit hs k hk
  simp only [post_width, post_height, if_pos hdeg] at h
  rw [h, roundIdx_quarter_flip _ _ _ _ k hk hdeg haxis]
  congr 1
  unfold revIdx
  omega

/-! ## Failure of `rotate_img` -/

/-- `rotate_img` with degrees that are not 0, 90, 180 or 270, on a frame of even
dimensions: the planes are flipped as the axis says before the call fails. -/
theorem rotate_img_invalid_frame (cnt : context) (m : Mem) (img : Int) (W2 H2 : Nat)
    (h0 : cnt.rotate_data.degrees ≠ 0) (h90 : cnt.rotate_data.degrees ≠ 90)
    (h180 : cnt.rotate_data.degrees ≠ 180) (h270 : cnt.rotate_data.degrees ≠ 270)
    (hs : scratch_apart cnt img (frameSize W2 H2)) :
    FrameMap (rotate_img cnt m img ((2 * W2 : Nat) : Int) ((2 * H2 : Nat) : Int)).2 m img
      W2 H2 (flipIdx cnt.rotate_data.axis) := by
  rw [rotate_img_invalid cnt m img _ _ h0 h90 h180 h270]
  simp only [geom_half, geom_wh4]
  exact frameMap_congr_src (flip_planes_axis cnt.rotate_data.axis _ img W2 H2).1
    (flipIdx_lt cnt.rotate_data.axis) (memset_scratch cnt m img _ hs)

theorem rotate_img_invalid_luma (cnt : context) (m : Mem) (img width height : Int)
    (hw : 0 < width) (hw16 : (16 : Int) ∣ width) (hh : 0 < height) (hh16 : (16 : Int) ∣ height)
    (h0 : cnt.rotate_data.degrees ≠ 0) (h90 : cnt.rotate_data.degrees ≠ 90)
    (h180 : cnt.rotate_data.degrees ≠ 180) (h270 : cnt.rotate_data.degrees ≠ 270)
    (hs : scratch_apart cnt img (Int.tdiv (width * height * 3) 2))
    (k : Nat) (hk : k < width.toNat * height.toNat) :
    (rotate_img cnt m img width height).2 (img + (k : Int))
      = m (img + ((flipIdx cnt.rotate_data.axis width.toNat height.toNat k : Nat) : Int)) := by
  obtain ⟨W2, _, _, rfl⟩ := dims_of_16 width hw hw16
  obtain ⟨H2, _, _, rfl⟩ := dims_of_16 height hh hh16
  rw [frameSize_eq] at hs
  simp only [Int.toNat_ofNat] at hk ⊢
  exact (rotate_img_invalid_frame cnt m img W2 H2 h0 h90 h180 h270 hs).1 k hk

/-- C18, as stated, fails with degrees = 45 and axis = horizontal on a 16 x 16 frame at
address 0 filled with 0..255: `rotate_img` returns -1, but the flip switch has run
before the degrees are looked at, and byte 0 of the frame is now the original byte 240
(the first byte of the last row). -/
theorem rotate_img_failure_flips :
    (rotate_img (ctx 0 45 FLIP_TYPE.FLIP_TYPE_HORIZONTAL 1000 384) ramp 0 16 16).1 = -1 ∧
    (rotate_img (ctx 0 45 FLIP_TYPE.FLIP_TYPE_HORIZONTAL 1000 384) ramp 0 16 16).2 (0 + 0)
      = ramp (0 + 240) ∧
    ramp (0 + 240) ≠ ramp (0 + 0) := by
  refine ⟨?_, ?_, by decide⟩
  · rw [rotate_img_invalid _ ramp 0 16 16 (by decide) (by decide) (by decide) (by decide)]
  · exact rotate_img_invalid_luma (ctx 0 45 FLIP_TYPE.FLIP_TYPE_HORIZONTAL 1000 384) ramp 0 16 16
      (by decide) (by decide) (by decide) (by decide) (by decide) (by decide) (by decide)
      (by decide) (Or.inl (by decide)) 0 (by decide)

/-- C18, amended. For every stored state whose degrees are not 0, 90, 180 or 270, every
axis, every width and height and every buffer, `rotate_img` returns -1; when the axis
is none, the frame, which the scratch buffer does not overlap, is byte for byte what it
was before the call. -/
theorem rotate_img_failure (cnt : context) (m : Mem) (img width height : Int)
    (h0 : cnt.rotate_data.degrees ≠ 0) (h90 : cnt.rotate_data.degrees ≠ 90)
    (h180 : cnt.rotate_data.degrees ≠ 180) (h270 : cnt.rotate_data.degrees ≠ 270)
    (hs : scratch_apart cnt img (Int.tdiv (width * height * 3) 2)) :
    (rotate_img cnt m img width height).1 = -1 ∧
    (cnt.rotate_data.axis = FLIP_TYPE.FLIP_TYPE_NONE →
      ∀ i : Int, 0 ≤ i → i < Int.tdiv (width * height * 3) 2 →
        (rotate_img cnt m img width height).2 (img + i) = m (img + i)) := by
  rw [rotate_img_invalid cnt m img width height h0 h90 h180 h270]
  refine ⟨rfl, ?_⟩
  intro ha i hi0 hi
  rw [ha]
  simp only [flip_planes]
  exact memset_scratch cnt m img _ hs (img + i) (by omega) (by omega)

/-- With degrees = 45 and no flip, a 16 x 16 frame at address 0 is left as it was. -/
theorem rotate_img_failure_witness :
    (rotate_img (ctx 0 45 FLIP_TYPE.FLIP_TYPE_NONE 1000 384) ramp 0 16 16).1 = -1 ∧
    (rotate_img (ctx 0 45 FLIP_TYPE.FLIP_TYPE_NONE 1000 384) ramp 0 16 16).2 (0 + 5)
      = ramp (0 + 5) :=
  ⟨(rotate_img_failure (ctx 0 45 FLIP_TYPE.FLIP_TYPE_NONE 1000 384) ramp 0 16 16
      (by decide) (by decide) (by decide) (by decide) (Or.inl (by decide))).1,
   (rotate_img_failure (ctx 0 45 FLIP_TYPE.FLIP_TYPE_NONE 1000 384) ramp 0 16 16
      (by decide) (by decide) (by decide) (by decide) (Or.inl (by decide))).2 rfl 5
      (by decide) (by decide)⟩

end Rotate
